import Mathlib

/-!
# paper-handlebars: the sequence helper toolkit

A shallow embedding of `helpers/3p/array.js`, of `helpers/3p/collection.js`, of
`helpers/getURLQueryParam.js` and of `helpers/incrementVar.js`.

* JavaScript values are the inductive type `Val`.  Numbers are modelled as
  integers, strings as lists of UTF-16 code units (so that `split('')`,
  `length`, `slice` and the default sort order act on code units, as they do
  in JavaScript).  Arrays and objects carry a reference tag `ref`, which is
  what `===` compares.
* A helper that returns a freshly allocated array returns `Ret.newArr`; a
  helper that returns an existing value returns `Ret.val`.
* A thrown JavaScript exception is `Except.error`.
* Block helpers return the rendered text together with the list of renderer
  (and callback) invocations they made, in order.
-/

namespace PaperHandlebars

/-! ## Values -/

/-- A JavaScript string: its UTF-16 code units. -/
abbrev JSString := List Nat

/-- UTF-16 encoding of one Unicode scalar value. -/
def utf16 (c : Char) : List Nat :=
  if c.toNat < 65536 then [c.toNat]
  else [55296 + (c.toNat - 65536) / 1024, 56320 + (c.toNat - 65536) % 1024]

/-- The JavaScript string written as the literal `s`. -/
def jsStr (s : String) : JSString := s.data.flatMap utf16

/-- JavaScript values.  `options` stands for the trailing Handlebars options
object of the current call when it lands in a positional parameter (the
template passed fewer arguments than the helper names). -/
inductive Val where
  | undefined
  | null
  | bool (b : Bool)
  | num (n : Int)
  | str (s : JSString)
  | arr (ref : Nat) (items : List Val)
  | obj (ref : Nat) (props : List (JSString × Val))
  | options

/-- Own properties of an object, in insertion order. -/
abbrev Props := List (JSString × Val)

/-- Exceptions a helper can raise: `TypeError`, `URIError` and the repository's
`ValidationError`. `unsupported` marks inputs outside the modelled fragment of
JavaScript (for example array-likes that are not arrays). -/
inductive Err where
  | typeError
  | unsupported
  | uriError
  | validationError

/-- What a value-producing helper returns: an existing value, or a freshly
allocated array. -/
inductive Ret where
  | val (v : Val)
  | newArr (items : List Val)

/-- JavaScript truthiness (`ToBoolean`). -/
def truthy : Val → Bool
  | .undefined => false
  | .null => false
  | .bool b => b
  | .num n => n != 0
  | .str s => !s.isEmpty
  | .arr _ _ => true
  | .obj _ _ => true
  | .options => true

/-- The predicate `Array.isArray`. -/
def isArray : Val → Bool
  | .arr _ _ => true
  | _ => false

/-- Strict equality `===`: primitives by value, arrays and objects by
reference. -/
def strictEq : Val → Val → Bool
  | .undefined, .undefined => true
  | .null, .null => true
  | .bool a, .bool b => a == b
  | .num a, .num b => a == b
  | .str a, .str b => a == b
  | .arr r _, .arr s _ => r == s
  | .obj r _, .obj s _ => r == s
  | .options, .options => true
  | _, _ => false

/-- Property read `o[key]` on an own-property list; `undefined` when absent. -/
def getProp : Props → JSString → Val
  | [], _ => .undefined
  | (k, v) :: rest, key => if k = key then v else getProp rest key

/-- Property write `o[key] = v`: overwrite in place, or append a new key. -/
def setProp : Props → JSString → Val → Props
  | [], key, v => [(key, v)]
  | (k, w) :: rest, key, v => if k = key then (k, v) :: rest else (k, w) :: setProp rest key v

/-! ## Number and value to string conversion -/

/-- Decimal digits of `n`, most significant first (`fuel` bounds the depth). -/
def digitsAux : Nat → Nat → List Nat
  | 0, _ => []
  | fuel + 1, n => if n < 10 then [48 + n] else digitsAux fuel (n / 10) ++ [48 + n % 10]

/-- Decimal text of a natural number. -/
def natStr (n : Nat) : JSString := digitsAux (n + 1) n

/-- Decimal text of an integer (`Number.prototype.toString` on integers). -/
def intStr : Int → JSString
  | .ofNat n => natStr n
  | .negSucc n => 45 :: natStr (n + 1)

mutual
/-- The abstract operation `ToString` (objects without a custom `toString`). -/
def Val.toStr : Val → JSString
  | .undefined => jsStr "undefined"
  | .null => jsStr "null"
  | .bool true => jsStr "true"
  | .bool false => jsStr "false"
  | .num n => intStr n
  | .str s => s
  | .arr _ xs => joinWith [44] xs
  | .obj _ _ => jsStr "[object Object]"
  | .options => jsStr "[object Object]"
termination_by structural v => v
/-- The method `Array.prototype.join(sep)`: `undefined` and `null` elements
give the empty text. -/
def joinWith (sep : JSString) : List Val → JSString
  | [] => []
  | x :: rest =>
    (match x with
      | .undefined => []
      | .null => []
      | v => v.toStr) ++
    (match rest with
      | [] => []
      | _ => sep ++ joinWith sep rest)
termination_by structural l => l
end

/-! ## The `utils` collaborators

`helpers/3p/utils` is not part of the sources at hand; the predicates below
are modelled from the specification. -/

namespace utils

/-- Modelled from the spec: `utils.isUndefined`, missing from the sources.
An "absent" value: `undefined`, `null`, or an omitted argument (in whose
place the options object arrives). -/
def isUndefined : Val → Bool
  | .undefined => true
  | .null => true
  | .options => true
  | _ => false

/-- Modelled from the spec: `utils.isString`, missing from the sources.
True of text values. -/
def isString : Val → Bool
  | .str _ => true
  | _ => false

/-- Modelled from the spec: `utils.isNumber`, missing from the sources.
True of numbers. -/
def isNumber : Val → Bool
  | .num _ => true
  | _ => false

/-- Modelled from the spec: `utils.get`, missing from the sources.
The named property of an element; `undefined` when there is none. -/
def get (v : Val) (prop : Val) : Val :=
  match v, prop with
  | .obj _ ps, .str k => getProp ps k
  | _, _ => .undefined

end utils

/-! ## Slicing -/

/-- Relative index of `slice`: a negative offset counts from the end, and the
result is clamped to `[0, len]`. -/
def relIndex (len : Nat) (i : Int) : Nat :=
  if i < 0 then ((len : Int) + i).toNat else min i.toNat len

/-- The method `slice(start, stop)` on arrays and strings. -/
def slice {α : Type} (xs : List α) (start stop : Int) : List α :=
  let k := relIndex xs.length start
  let e := relIndex xs.length stop
  (xs.drop k).take (e - k)

/-- The method `slice(start)`: the end defaults to the length. -/
def sliceFrom {α : Type} (xs : List α) (start : Int) : List α :=
  let k := relIndex xs.length start
  (xs.drop k).take (xs.length - k)

/-- The method `split('')`: one single-unit string per code unit. -/
def splitChars (s : JSString) : List Val := s.map (fun c => Val.str [c])

/-! ## Windowing helpers -/

/-- The helper `after(array, n)`: `array.slice(n)`, or `''` for a falsy or
absent array. -/
def after (array : Val) (n : Int) : Except Err Ret :=
  if !truthy array || utils.isUndefined array then .ok (.val (.str []))
  else match array with
    | .arr _ xs => .ok (.newArr (sliceFrom xs n))
    | .str s => .ok (.val (.str (sliceFrom s n)))
    | .obj _ _ => .error .unsupported
    | _ => .error .typeError

/-- The helper `arrayify(...args)`: `args` are all the arguments, the trailing
options object included. -/
def arrayify (args : List Val) : Ret :=
  let args := args.dropLast
  let value := args.headD .undefined
  if truthy value then (if isArray value then .val value else .newArr [value]) else .newArr []

/-- The helper `before(array, n)`: `array.slice(0, -n)`, or `''` for an absent
array. -/
def before (array : Val) (n : Int) : Except Err Ret :=
  if utils.isUndefined array then .ok (.val (.str []))
  else match array with
    | .arr _ xs => .ok (.newArr (slice xs 0 (-n)))
    | .str s => .ok (.val (.str (slice s 0 (-n))))
    | .obj _ _ => .error .unsupported
    | _ => .error .typeError

/-- The inner function `arrayAlt` of `first`: it takes no parameters and
reads `array` and `n` of the enclosing call. -/
def first.arrayAlt (array n : Val) : Except Err Ret :=
  if utils.isUndefined array then .ok (.val (.str []))
  else if !utils.isNumber n then
    match array with
    | .arr _ xs => .ok (.val (xs.headD .undefined))
    | .str s => .ok (.val (match s with
        | [] => .undefined
        | c :: _ => .str [c]))
    | _ => .error .unsupported
  else
    match array, n with
    | .arr _ xs, .num k => .ok (.newArr (slice xs 0 k))
    | .str s, .num k => .ok (.val (.str (slice s 0 k)))
    | _, _ => .error .unsupported

/-- The helper `first(array, n)`. In the text branch `chars` is computed but
`arrayAlt` still reads the text itself. -/
def first (array n : Val) : Except Err Ret :=
  if isArray array then first.arrayAlt array n
  else if utils.isString array then
    match first.arrayAlt array n with
    | .ok (.newArr ys) => .ok (.val (.str (joinWith [] ys)))
    | .ok (.val (.arr _ ys)) => .ok (.val (.str (joinWith [] ys)))
    | r => r
  else .ok (.newArr [])

/-- The inner function `arrayAlt(array, n)` of `last`. -/
def last.arrayAlt (array : List Val) (n : Val) : Ret :=
  match n with
  | .num k => .newArr (sliceFrom array (-k))
  | _ => .val (array.getLast?.getD .undefined)

/-- The inner function `stringAlt(str, n)` of `last`. -/
def last.stringAlt (str : JSString) (n : Val) : Ret :=
  let chars := splitChars str
  match last.arrayAlt chars n with
  | .newArr ys => .val (.str (joinWith [] ys))
  | .val (.arr _ ys) => .val (.str (joinWith [] ys))
  | r => r

/-- The helper `last(array, n)`. -/
def last (array n : Val) : Ret :=
  match array with
  | .arr _ xs => last.arrayAlt xs n
  | .str s => last.stringAlt s n
  | _ => .newArr []

/-! ## The continuation protocol -/

/-- The trailing options object of a block helper call: the primary renderer
`fn` (context, optional private data frame), the `inverse` renderer, and the
hash of named arguments. -/
structure Options where
  fn : Val → Option Props → JSString
  inverse : Val → JSString
  hash : Props

/-- One invocation made by a helper: of the primary renderer, of the inverse
renderer, or of a user callback (element, index). -/
inductive Call where
  | primary (ctx : Val) (data : Option Props)
  | inverse (ctx : Val)
  | callback (elem : Val) (index : Nat)

/-- Result of a block helper: the text it returns and the invocations it made,
oldest first. -/
structure Run where
  out : JSString
  calls : List Call

/-- True of an invocation of the primary renderer. -/
def Call.isPrimary : Call → Bool
  | .primary _ _ => true
  | _ => false

/-- True of an invocation of the inverse renderer. -/
def Call.isInverse : Call → Bool
  | .inverse _ => true
  | _ => false

/-- Number of primary renderer invocations in a trace. -/
def primaryCount (cs : List Call) : Nat := cs.countP Call.isPrimary

/-- Number of inverse renderer invocations in a trace. -/
def inverseCount (cs : List Call) : Nat := cs.countP Call.isInverse

/-- The loop `for (i = 0; i < xs.length; i++) result += options.fn(xs[i])`. -/
def renderEach (o : Options) : List Val → Run → Run
  | [], acc => acc
  | x :: rest, acc =>
    renderEach o rest ⟨acc.out ++ o.fn x none, acc.calls ++ [Call.primary x none]⟩

namespace utils

/-- Modelled from the spec: `utils.createFrame`, missing from the sources.
A fresh private data frame holding the hash arguments. -/
def createFrame (hash : Props) : Props := hash

/-- Modelled from the spec: `utils.filter`, missing from the sources.
The elements satisfying the callback, in order; nothing for an absent array. -/
def filter (array : Val) (f : Val → Bool) : Except Err (List Val) :=
  match array with
  | .undefined => .ok []
  | .null => .ok []
  | .arr _ xs => .ok (xs.filter f)
  | _ => .error .unsupported

/-- First position of an element strictly equal to `value`, from `i` on;
`-1` when there is none. -/
def indexFrom (value : Val) : List Val → Nat → Int
  | [], _ => -1
  | x :: rest, i => if strictEq x value then (i : Int) else indexFrom value rest (i + 1)

/-- Modelled from the spec: `utils.indexOf`, missing from the sources.
Index of the first occurrence, `-1` when absent. -/
def indexOf (array value : Val) : Except Err Int :=
  match array with
  | .undefined => .ok (-1)
  | .null => .ok (-1)
  | .arr _ xs => .ok (indexFrom value xs 0)
  | _ => .error .unsupported

end utils

/-! ## Iteration -/

/-- Assignment `item[key] = v` in strict mode: it throws on a primitive and on
`undefined`/`null`. Named properties on arrays are not modelled. -/
def assign (item : Val) (key : JSString) (v : Val) : Except Err Val :=
  match item with
  | .obj r ps => .ok (.obj r (setProp ps key v))
  | .arr _ _ => .error .unsupported
  | .options => .error .unsupported
  | _ => .error .typeError

/-- The `while (++i < len)` loop of `forEach`; `i` is the position of the
head of the remaining items. -/
def forEach.loop (o : Options) (len : Nat) : List Val → Nat → Props → Run → Except Err Run
  | [], _, _, acc => .ok acc
  | item :: rest, i, data, acc => do
    let data := setProp data (jsStr "index") (.num i)
    let item ← assign item (jsStr "index") (.num (i + 1))
    let item ← assign item (jsStr "total") (.num len)
    let item ← assign item (jsStr "isFirst") (.bool (i == 0))
    let item ← assign item (jsStr "isLast") (.bool ((i : Int) == (len : Int) - 1))
    forEach.loop o len rest (i + 1) data
      ⟨acc.out ++ o.fn item (Option.some data), acc.calls ++ [Call.primary item (Option.some data)]⟩

/-- The element `obj ref ps` as the renderer receives it at position `i` of a
sequence of `len` elements: after the assignments to `index`, `total`,
`isFirst` and `isLast`. -/
def forEach.decorated (len i ref : Nat) (ps : Props) : Val :=
  .obj ref (setProp (setProp (setProp (setProp ps
    (jsStr "index") (.num (i + 1)))
    (jsStr "total") (.num len))
    (jsStr "isFirst") (.bool (i == 0)))
    (jsStr "isLast") (.bool ((i : Int) == (len : Int) - 1)))

/-- The private data frame at position `i`: the frame of the call with its
`index` set to `i`. -/
def forEach.frame (o : Options) (i : Nat) : Props :=
  setProp (utils.createFrame o.hash) (jsStr "index") (.num i)

/-- Own properties of a value (none for a non-object). -/
def Val.props : Val → Props
  | .obj _ ps => ps
  | _ => []

/-- The helper `forEach(array)`. -/
def forEach (array : Val) (o : Options) : Except Err Run :=
  let data := utils.createFrame o.hash
  if !truthy array then .ok ⟨[], []⟩
  else match array with
    | .arr _ xs => forEach.loop o xs.length xs 0 data ⟨[], []⟩
    | .str s => forEach.loop o s.length (splitChars s) 0 data ⟨[], []⟩
    | .obj _ _ => .error .unsupported
    | _ => .ok ⟨[], []⟩

/-! ## Filtering and membership -/

/-- The helper `filter(array, value)`; `this` is the template context. -/
def filter (this array value : Val) (o : Options) : Except Err Run := do
  let prop := getProp o.hash (jsStr "property")
  let results ←
    if truthy prop then utils.filter array (fun val => strictEq (utils.get val prop) value)
    else utils.filter array (fun v => strictEq value v)
  if results.length > 0 then .ok (renderEach o results ⟨[], []⟩)
  else .ok ⟨o.inverse this, [Call.inverse this]⟩

/-- The helper `inArray(array, value)`. -/
def inArray (this array value : Val) (o : Options) : Except Err Run := do
  let idx ← utils.indexOf array value
  if idx > -1 then .ok ⟨o.fn this none, [Call.primary this none]⟩
  else .ok ⟨o.inverse this, [Call.inverse this]⟩

/-- The `while (++i < len)` loop of `some`: `cb(arr[i], i, arr)` on each
element until one is truthy. -/
def some.loop (this arr : Val) (cb : Val → Nat → Val → Val) (o : Options) :
    List Val → Nat → List Call → Run
  | [], _, calls => ⟨o.inverse this, calls ++ [Call.inverse this]⟩
  | x :: rest, i, calls =>
    if truthy (cb x i arr) then
      ⟨o.fn this none, calls ++ [Call.callback x i, Call.primary this none]⟩
    else some.loop this arr cb o rest (i + 1) (calls ++ [Call.callback x i])

/-- The helper `some(arr, cb)`, for a callback that is a function
(`utils.iterator` returns such a callback as it is). -/
def some (this arr : Val) (cb : Val → Nat → Val → Val) (o : Options) : Except Err Run :=
  if !truthy arr then .ok ⟨o.inverse this, [Call.inverse this]⟩
  else match arr with
    | .arr _ xs => .ok (some.loop this arr cb o xs 0 [])
    | .str s => .ok (some.loop this arr cb o (splitChars s) 0 [])
    | .obj _ _ => .error .unsupported
    | _ => .ok ⟨o.inverse this, [Call.inverse this]⟩

/-- The test `cb(arr[i], i, arr)` of `some` on an indexed element `(i, arr[i])`. -/
def some.hit (cb : Val → Nat → Val → Val) (arr : Val) (p : Nat × Val) : Bool :=
  truthy (cb p.2 p.1 arr)

/-- A trace that invokes exactly one kind of renderer: the primary renderer at
least once and the inverse never, or the inverse exactly once and the primary
never. -/
def exactlyOneKind (cs : List Call) : Prop :=
  (1 ≤ primaryCount cs ∧ inverseCount cs = 0) ∨ (primaryCount cs = 0 ∧ inverseCount cs = 1)

/-! ## Sorting -/

/-- Code-unit lexicographic order on strings: the `<` of JavaScript. -/
def strLt : JSString → JSString → Bool
  | [], [] => false
  | [], _ :: _ => true
  | _ :: _, [] => false
  | a :: s, b :: t => decide (a < b) || (a == b && strLt s t)

/-- True of `undefined` only. -/
def Val.isUndef : Val → Bool
  | .undefined => true
  | _ => false

/-- The default comparison of `Array.prototype.sort()` as a "not after"
test: `undefined` goes last, everything else is compared through its string
form. -/
def sortLE (x y : Val) : Bool :=
  match x, y with
  | .undefined, .undefined => true
  | .undefined, _ => false
  | _, .undefined => true
  | x, y => !(strLt y.toStr x.toStr)

/-- The method `Array.prototype.sort()` without a comparator: a stable
sort under `sortLE`. -/
def jsSort (xs : List Val) : List Val :=
  xs.insertionSort (fun a b => sortLE a b = true)

/-- The helper `sort(arr, options)`: sorts in place and returns the same
array. -/
def sort (arr : Val) (o : Options) : Except Err Val :=
  if utils.isUndefined arr then .ok (.str [])
  else match arr with
    | .arr r xs =>
      if truthy (getProp o.hash (jsStr "reverse")) then .ok (.arr r (jsSort xs).reverse)
      else .ok (.arr r (jsSort xs))
    | .obj _ _ => .error .unsupported
    | _ => .error .typeError

/-- The helper `sortBy(arr, ...props)`: `args` are all the arguments, the
trailing options object included, and `tryParse` is `utils.tryParse`, the
literal parser (missing from the sources; it returns a falsy value when the
text does not parse). With no key argument the array is sorted in place by
`args[0].sort()`; with key arguments the call is handed over to `utils.sortBy`,
which is missing from the sources too and is left outside the model. -/
def sortBy (tryParse : JSString → Val) (args : List Val) : Except Err Ret :=
  if utils.isUndefined (args.headD .undefined) then .ok (.val (.str []))
  else
    let args := args.dropLast
    let parsed : Option Val :=
      match args.headD .undefined with
      | .str s => if 91 ∈ s then Option.some (tryParse s) else none
      | _ => none
    if utils.isUndefined (args.getD 1 .undefined) then
      match parsed with
      | Option.some p =>
        if truthy p then
          match p with
          | .arr r xs => .ok (.val (.arr r (jsSort xs)))
          | .obj _ _ => .error .unsupported
          | _ => .error .typeError
        else .ok (.newArr (jsSort []))
      | none =>
        match args.headD .undefined with
        | .arr r xs => .ok (.val (.arr r (jsSort xs)))
        | .obj _ _ => .error .unsupported
        | _ => .error .typeError
    else .error .unsupported

/-- A value after `ToPrimitive`, with everything but text taken on to
`ToNumber`: a text, a number, or `NaN`. -/
inductive Prim where
  | text (s : JSString)
  | number (n : Int)
  | nan

/-- The primitive a value is compared as by `<` and `>`. -/
def toPrim : Val → Prim
  | .undefined => .nan
  | .null => .number 0
  | .bool b => .number (if b then 1 else 0)
  | .num n => .number n
  | .str s => .text s
  | v => .text v.toStr

/-- The relational operator `a < b`: texts are compared by code units, numbers
numerically, and a comparison with `NaN` is false. A text against a number
needs the numeric value of the text, which is outside the model (`none`). -/
def jsLt (a b : Val) : Option Bool :=
  match toPrim a, toPrim b with
  | .text s, .text t => Option.some (strLt s t)
  | .nan, _ => Option.some false
  | _, .nan => Option.some false
  | .number m, .number n => Option.some (decide (m < n))
  | _, _ => none

/-- The comparator of `withSort` for the property `prop`:
`a > b ? 1 : (a < b ? -1 : 0)` on the property values. -/
def withSort.compare (prop a b : Val) : Option Int :=
  let a := utils.get a prop
  let b := utils.get b prop
  match jsLt b a with
  | none => none
  | Option.some true => Option.some 1
  | Option.some false =>
    match jsLt a b with
    | none => none
    | Option.some true => Option.some (-1)
    | Option.some false => Option.some 0

/-- The comparator of `withSort` for the property `prop` puts `a` not after
`b`: called on them it returns a number that is at most 0. -/
def withSort.notAfter (prop a b : Val) : Prop :=
  ∃ c : Int, withSort.compare prop a b = Option.some c ∧ c ≤ 0

/-- The method `Array.prototype.sort(compareFn)`: the elements that are
`undefined` are moved to the end without being passed to `compareFn`, and the
others are sorted stably, `a` before `b` when `compareFn(a, b) <= 0`. Where
`compareFn` is not a consistent comparator on the elements the standard leaves
the order to the engine; the model takes that of insertion sort. -/
def sortWith (compareFn : Val → Val → Int) (xs : List Val) : List Val :=
  (xs.filter (fun x => !x.isUndef)).insertionSort (fun a b => compareFn a b ≤ 0)
    ++ xs.filter (fun x => x.isUndef)

/-- The helper `withSort(array, prop)`. -/
def withSort (array prop : Val) (o : Options) : Except Err Run :=
  if utils.isUndefined array then .ok ⟨[], []⟩
  else if utils.isUndefined prop then
    match array with
    | .arr _ xs =>
      let sorted := jsSort xs
      let sorted := if truthy (getProp o.hash (jsStr "reverse")) then sorted.reverse else sorted
      .ok (renderEach o sorted ⟨[], []⟩)
    | .obj _ _ => .error .unsupported
    | _ => .error .typeError
  else
    match array with
    | .arr _ xs =>
      if xs.all (fun a => xs.all (fun b => (withSort.compare prop a b).isSome)) then
        let sorted := sortWith (fun a b => (withSort.compare prop a b).getD 0) xs
        let sorted :=
          if truthy (getProp o.hash (jsStr "reverse")) then sorted.reverse else sorted
        .ok (renderEach o sorted ⟨[], []⟩)
      else .error .unsupported
    | .obj _ _ => .error .unsupported
    | _ => .error .typeError

/-! ## Collections: `length`, `isEmpty` -/

namespace utils

/-- Modelled from the spec: `utils.isObject`, missing from the sources.
True of mappings (arrays are sequences, not mappings). -/
def isObject : Val → Bool
  | .obj _ _ => true
  | .options => true
  | _ => false

/-- Modelled from the spec: `utils.isOptions`, missing from the sources.
True of a continuation-options value. -/
def isOptions : Val → Bool
  | .options => true
  | _ => false

end utils

/-- The own keys of a mapping, `Object.keys(o)`: each key once. -/
def objectKeys (ps : Props) : List JSString := (ps.map Prod.fst).dedup

/-- The number of keys `Object.keys(v).length`: it throws on `undefined` and
`null`; a sequence and a text have one key per index. The keys of the options
object itself are not modelled. -/
def keysCount : Val → Except Err Nat
  | .undefined => .error .typeError
  | .null => .error .typeError
  | .bool _ => .ok 0
  | .num _ => .ok 0
  | .str s => .ok s.length
  | .arr _ xs => .ok xs.length
  | .obj _ ps => .ok (objectKeys ps).length
  | .options => .error .unsupported

/-- The property read `v.length`. -/
def Val.lengthOf : Val → Val
  | .arr _ xs => .num xs.length
  | .str s => .num s.length
  | .obj _ ps => getProp ps (jsStr "length")
  | _ => .undefined

/-- The helper `length(value)`; `tryParse` is `utils.tryParse`, the literal
parser (missing from the sources; it returns a falsy value when the text does
not parse, and then the fresh empty sequence `[]` takes its place). -/
def length (tryParse : JSString → Val) (value : Val) : Val :=
  if !truthy value || utils.isUndefined value then .str []
  else
    let parsed : Option Val :=
      match value with
      | .str s =>
        if 91 ∈ s then (if truthy (tryParse s) then Option.some (tryParse s) else none)
        else Option.some value
      | v => Option.some v
    match parsed with
    | none => .num 0
    | Option.some v =>
      match v with
      | .obj _ ps => if utils.isObject v then .num (objectKeys ps).length else v.lengthOf
      | .options => .undefined
      | _ => v.lengthOf

/-- The helper `isEmpty(collection)`. An options value in the collection
position is the options object of the call itself. -/
def isEmpty (this collection : Val) (o : Options) : Except Err Run :=
  if utils.isOptions collection then .ok ⟨o.fn this none, [Call.primary this none]⟩
  else if isArray collection && !truthy collection.lengthOf then
    .ok ⟨o.fn this none, [Call.primary this none]⟩
  else do
    let keys ← keysCount collection
    let isObj := match collection with
      | .arr _ _ => true
      | .obj _ _ => true
      | .null => true
      | .options => true
      | _ => false
    if isObj && keys == 0 then .ok ⟨o.fn this none, [Call.primary this none]⟩
    else .ok ⟨o.inverse this, [Call.inverse this]⟩

/-! ## Block windowing: `withAfter`, `withBefore`, `withFirst`, `withLast` -/

namespace utils

/-- Modelled from the spec: `utils.isEmpty`, missing from the sources.
True of an absent value and of an empty sequence, text or mapping. -/
def isEmpty : Val → Bool
  | .undefined => true
  | .null => true
  | .str s => s.isEmpty
  | .arr _ xs => xs.isEmpty
  | .obj _ ps => ps.isEmpty
  | _ => false

/-- Modelled from the spec: `utils.result`, missing from the sources.
Resolves a zero-argument producer to its value; the values of this model are
never functions, so they resolve to themselves. -/
def result (v : Val) : Val := v

end utils

/-- The helper `withAfter(array, idx)`. -/
def withAfter (array : Val) (idx : Int) (o : Options) : Except Err Run :=
  match array with
  | .arr _ xs => .ok (renderEach o (sliceFrom xs idx) ⟨[], []⟩)
  | .str s => .ok (renderEach o (splitChars (sliceFrom s idx)) ⟨[], []⟩)
  | .obj _ _ => .error .unsupported
  | _ => .error .typeError

/-- The helper `withBefore(array, idx)`. -/
def withBefore (array : Val) (idx : Int) (o : Options) : Except Err Run :=
  match array with
  | .arr _ xs => .ok (renderEach o (slice xs 0 (-idx)) ⟨[], []⟩)
  | .str s => .ok (renderEach o (splitChars (slice s 0 (-idx))) ⟨[], []⟩)
  | .obj _ _ => .error .unsupported
  | _ => .error .typeError

/-- The element read `v[i]` for a position `i` given as an integer:
`undefined` out of range. -/
def Val.at (v : Val) (i : Int) : Except Err Val :=
  match v with
  | .arr _ xs => .ok (if i < 0 then .undefined else xs.getD i.toNat .undefined)
  | .str s => .ok (if i < 0 then .undefined else
      match s.get? i.toNat with
      | Option.some c => .str [c]
      | none => .undefined)
  | .obj _ _ => .error .unsupported
  | .undefined => .error .typeError
  | .null => .error .typeError
  | _ => .ok .undefined

/-- The call `parseFloat(utils.result(idx))` on a number. The numeric value of
any other argument (a text, say) is outside the model. -/
def parseFloatNum : Val → Except Err Int
  | .num k => .ok k
  | _ => .error .unsupported

/-- The helper `withFirst(arr, idx)`. -/
def withFirst (arr idx : Val) (o : Options) : Except Err Run :=
  if utils.isEmpty arr || utils.isUndefined arr then .ok ⟨[], []⟩
  else
    let arr := utils.result arr
    if utils.isUndefined idx then do
      let x ← arr.at 0
      .ok ⟨o.fn x none, [Call.primary x none]⟩
    else do
      let k ← parseFloatNum (utils.result idx)
      match arr with
      | .arr _ xs => .ok (renderEach o (slice xs 0 k) ⟨[], []⟩)
      | .str s => .ok (renderEach o (splitChars (slice s 0 k)) ⟨[], []⟩)
      | .obj _ _ => .error .unsupported
      | _ => .error .typeError

/-- The helper `withLast(array, idx)`. -/
def withLast (array idx : Val) (o : Options) : Except Err Run :=
  if utils.isUndefined array then .ok ⟨[], []⟩
  else
    let array := utils.result array
    if utils.isUndefined idx then do
      let len ← match array.lengthOf with
        | .num n => Except.ok n
        | _ => Except.error Err.unsupported
      let x ← array.at (len - 1)
      .ok ⟨o.fn x none, [Call.primary x none]⟩
    else do
      let k ← parseFloatNum (utils.result idx)
      match array with
      | .arr _ xs => .ok (renderEach o (sliceFrom xs (-k)) ⟨[], []⟩)
      | .str s => .ok (renderEach o (splitChars (sliceFrom s (-k))) ⟨[], []⟩)
      | .obj _ _ => .error .unsupported
      | _ => .error .typeError

/-! ## Effects on the caller's sequence

The helpers outside the sorting component once more, this time over a store:
arrays and objects live in cells, a value refers to them by address, and a
call reads, allocates and writes cells. -/

/-- A value as a variable holds it: a primitive, the options object of the
call, or the address of an array or of an object in the store. -/
inductive HVal where
  | undefined
  | null
  | bool (b : Bool)
  | num (n : Int)
  | str (s : JSString)
  | ref (address : Nat)
  | options
  deriving DecidableEq

/-- Own properties of an object of the store, in insertion order. -/
abbrev HProps := List (JSString × HVal)

/-- A cell of the store: an array with its elements, or an object with its
properties. -/
inductive Cell where
  | array (items : List HVal)
  | object (props : HProps)
  deriving DecidableEq

/-- The store: the cell at position `a` is the one with address `a`. -/
abbrev Store := List Cell

namespace Heap

/-- A computation over the store: it ends by returning a value or by throwing,
and leaves a store behind. -/
abbrev Eff (α : Type) := Store → Except Err α × Store

/-- Sequencing: `f` runs on the value and the store that `x` left, unless `x`
has thrown. -/
def andThen {α β : Type} (x : Except Err α × Store) (f : α → Eff β) : Except Err β × Store :=
  match x with
  | (.ok a, m) => f a m
  | (.error e, m) => (.error e, m)

/-- Allocation of a new array or object: it gets the next free address. -/
def alloc (c : Cell) (m : Store) : HVal × Store := (.ref m.length, m ++ [c])

/-- JavaScript truthiness (`ToBoolean`). -/
def truthy : HVal → Bool
  | .undefined => false
  | .null => false
  | .bool b => b
  | .num n => n != 0
  | .str s => !s.isEmpty
  | .ref _ => true
  | .options => true

/-- The predicate `Array.isArray`. -/
def isArray (m : Store) : HVal → Bool
  | .ref r =>
    match m[r]? with
    | Option.some (.array _) => true
    | _ => false
  | _ => false

/-- Strict equality `===`: primitives by value, arrays and objects by
address. -/
def strictEq (a b : HVal) : Bool := decide (a = b)

/-- Property read `o[key]` on an own-property list; `undefined` when absent. -/
def getProp : HProps → JSString → HVal
  | [], _ => .undefined
  | (k, v) :: rest, key => if k = key then v else getProp rest key

/-- Property write `o[key] = v`: overwrite in place, or append a new key. -/
def setProp : HProps → JSString → HVal → HProps
  | [], key, v => [(key, v)]
  | (k, w) :: rest, key, v => if k = key then (k, v) :: rest else (k, w) :: setProp rest key v

/-- The method `split('')`: one single-unit string per code unit. -/
def splitChars (s : JSString) : List HVal := s.map (fun c => HVal.str [c])

/-- The elements `v[0]`, ..., `v[v.length - 1]` of an array or of a text; any
other value has none in this model. -/
def elems (m : Store) : HVal → List HVal
  | .str s => splitChars s
  | .ref r =>
    match m[r]? with
    | Option.some (.array xs) => xs
    | _ => []
  | _ => []

/-- The property read `v.length` on a value other than `undefined` and
`null`. -/
def lengthOf (m : Store) : HVal → HVal
  | .str s => .num s.length
  | .ref r =>
    match m[r]? with
    | Option.some (.array xs) => .num xs.length
    | Option.some (.object ps) => getProp ps (jsStr "length")
    | none => .undefined
  | _ => .undefined

/-- The property read `v.length`: it throws on `undefined` and `null`. -/
def getLength (m : Store) (v : HVal) : Except Err HVal :=
  match v with
  | .undefined => .error .typeError
  | .null => .error .typeError
  | v => .ok (lengthOf m v)

/-- The element read `v[i]` for a position `i` given as an integer:
`undefined` out of range. -/
def elemAt (m : Store) (v : HVal) (i : Int) : Except Err HVal :=
  match v with
  | .str s => .ok (if i < 0 then .undefined else
      match s.get? i.toNat with
      | Option.some c => .str [c]
      | none => .undefined)
  | .ref r =>
    match m[r]? with
    | Option.some (.array xs) => .ok (if i < 0 then .undefined else xs.getD i.toNat .undefined)
    | _ => .error .unsupported
  | .undefined => .error .typeError
  | .null => .error .typeError
  | _ => .ok .undefined

/-- A call `v.slice(..)`: `onItems` is the slice on the elements of an array,
which go into a new array, and `onUnits` the slice on the code units of a
text. -/
def callSlice (v : HVal) (onItems : List HVal → List HVal) (onUnits : JSString → JSString) :
    Eff HVal := fun m =>
  match v with
  | .str s => (.ok (.str (onUnits s)), m)
  | .ref r =>
    match m[r]? with
    | Option.some (.array xs) => (.ok (alloc (.array (onItems xs)) m).1,
        (alloc (.array (onItems xs)) m).2)
    | _ => (.error .unsupported, m)
  | _ => (.error .typeError, m)

/-- The text of an element in `join`: `undefined` and `null` give the empty
text. Nested arrays are not modelled. -/
def joinText (m : Store) : HVal → Except Err JSString
  | .undefined => .ok []
  | .null => .ok []
  | .bool true => .ok (jsStr "true")
  | .bool false => .ok (jsStr "false")
  | .num n => .ok (intStr n)
  | .str s => .ok s
  | .ref r =>
    match m[r]? with
    | Option.some (.object _) => .ok (jsStr "[object Object]")
    | _ => .error .unsupported
  | .options => .ok (jsStr "[object Object]")

/-- The method `Array.prototype.join(sep)` on the array `v`. -/
def join (m : Store) (sep : JSString) (v : HVal) : Except Err HVal :=
  ((elems m v).mapM (joinText m)).map (fun ts => HVal.str (sep.intercalate ts))

/-- The expression `Array.isArray(result) ? result.join('') : result`. -/
def joinIfArray (result : HVal) : Eff HVal := fun m =>
  if isArray m result then (join m [] result, m) else (.ok result, m)

/-- The trailing options object of a block helper call. The renderers `fn`
(context, optional argument object) and `inverse` read the store they are
called in; what a helper called from inside a block writes is an effect of
that call, not of the one that renders the block. -/
structure Options where
  fn : Store → HVal → Option HVal → JSString
  inverse : Store → HVal → JSString
  hash : HProps

/-- The loop `for (i = 0; i < xs.length; i++) result += options.fn(xs[i])`. -/
def renderEach (o : Options) (m : Store) : List HVal → JSString → JSString
  | [], acc => acc
  | x :: rest, acc => renderEach o m rest (acc ++ o.fn m x none)

namespace utils

/-- Modelled from the spec: `utils.isUndefined`, missing from the sources.
An "absent" value: `undefined`, `null`, or an omitted argument (in whose
place the options object arrives). -/
def isUndefined : HVal → Bool
  | .undefined => true
  | .null => true
  | .options => true
  | _ => false

/-- Modelled from the spec: `utils.isString`, missing from the sources.
True of text values. -/
def isString : HVal → Bool
  | .str _ => true
  | _ => false

/-- Modelled from the spec: `utils.isNumber`, missing from the sources.
True of numbers. -/
def isNumber : HVal → Bool
  | .num _ => true
  | _ => false

/-- Modelled from the spec: `utils.isOptions`, missing from the sources.
True of a continuation-options value. -/
def isOptions : HVal → Bool
  | .options => true
  | _ => false

/-- Modelled from the spec: `utils.isObject`, missing from the sources.
True of mappings (arrays are sequences, not mappings). -/
def isObject (m : Store) : HVal → Bool
  | .ref r =>
    match m[r]? with
    | Option.some (.object _) => true
    | _ => false
  | .options => true
  | _ => false

/-- Modelled from the spec: `utils.isEmpty`, missing from the sources.
True of an absent value and of an empty sequence, text or mapping. -/
def isEmpty (m : Store) : HVal → Bool
  | .undefined => true
  | .null => true
  | .str s => s.isEmpty
  | .ref r =>
    match m[r]? with
    | Option.some (.array xs) => xs.isEmpty
    | Option.some (.object ps) => ps.isEmpty
    | none => false
  | _ => false

/-- Modelled from the spec: `utils.result`, missing from the sources.
Resolves a zero-argument producer to its value; the values of this model are
never functions, so they resolve to themselves. -/
def result (v : HVal) : HVal := v

/-- Modelled from the spec: `utils.get`, missing from the sources.
The named property of an element; `undefined` when there is none. -/
def get (m : Store) (v prop : HVal) : HVal :=
  match v, prop with
  | .ref r, .str k =>
    match m[r]? with
    | Option.some (.object ps) => getProp ps k
    | _ => .undefined
  | _, _ => .undefined

/-- Modelled from the spec: `utils.createFrame`, missing from the sources.
A fresh private data frame holding the hash arguments. -/
def createFrame (hash : HProps) (m : Store) : HVal × Store := alloc (.object hash) m

/-- Modelled from the spec: `utils.filter`, missing from the sources.
A new array of the elements satisfying the callback, in order; an empty one
for an absent array. -/
def filter (array : HVal) (f : HVal → Bool) : Eff HVal := fun m =>
  match array with
  | .undefined => (.ok (alloc (.array []) m).1, (alloc (.array []) m).2)
  | .null => (.ok (alloc (.array []) m).1, (alloc (.array []) m).2)
  | .ref r =>
    match m[r]? with
    | Option.some (.array xs) => (.ok (alloc (.array (xs.filter f)) m).1,
        (alloc (.array (xs.filter f)) m).2)
    | _ => (.error .unsupported, m)
  | _ => (.error .unsupported, m)

/-- First position of an element strictly equal to `value`, from `i` on;
`-1` when there is none. -/
def indexFrom (value : HVal) : List HVal → Nat → Int
  | [], _ => -1
  | x :: rest, i => if strictEq x value then (i : Int) else indexFrom value rest (i + 1)

/-- Modelled from the spec: `utils.indexOf`, missing from the sources.
Index of the first occurrence, `-1` when absent. -/
def indexOf (m : Store) (array value : HVal) : Except Err Int :=
  match array with
  | .undefined => .ok (-1)
  | .null => .ok (-1)
  | .ref r =>
    match m[r]? with
    | Option.some (.array xs) => .ok (indexFrom value xs 0)
    | _ => .error .unsupported
  | _ => .error .unsupported

end utils

/-- The call `parseFloat(utils.result(idx))` on a number. The numeric value of
any other argument (a text, say) is outside the model. -/
def parseFloatNum : HVal → Except Err Int
  | .num k => .ok k
  | _ => .error .unsupported

/-- The helper `after(array, n)`: `array.slice(n)`, or `''` for a falsy or
absent array. -/
def after (array : HVal) (n : Int) : Eff HVal := fun m =>
  if !truthy array || utils.isUndefined array then (.ok (.str []), m)
  else callSlice array (fun xs => sliceFrom xs n) (fun s => sliceFrom s n) m

/-- The helper `before(array, n)`: `array.slice(0, -n)`, or `''` for an absent
array. -/
def before (array : HVal) (n : Int) : Eff HVal := fun m =>
  if utils.isUndefined array then (.ok (.str []), m)
  else callSlice array (fun xs => slice xs 0 (-n)) (fun s => slice s 0 (-n)) m

/-- The loop of `eachIndex`: each element is rendered in a new context object
`{item: array[i], index: i}`. -/
def eachIndex.loop (o : Options) : List HVal → Nat → JSString → Eff JSString
  | [], _, result => fun m => (.ok result, m)
  | x :: rest, i, result => fun m =>
    eachIndex.loop o rest (i + 1)
      (result ++ o.fn (alloc (.object [(jsStr "item", x), (jsStr "index", .num i)]) m).2
        (alloc (.object [(jsStr "item", x), (jsStr "index", .num i)]) m).1 none)
      (alloc (.object [(jsStr "item", x), (jsStr "index", .num i)]) m).2

/-- The helper `eachIndex(array)`. -/
def eachIndex (array : HVal) (o : Options) : Eff JSString := fun m =>
  if isArray m array then eachIndex.loop o (elems m array) 0 [] m
  else (.ok [], m)

/-- The helper `filter(array, value)`; `this` is the template context. -/
def filter (this array value : HVal) (o : Options) : Eff JSString := fun m =>
  andThen
    (if truthy (getProp o.hash (jsStr "property")) then
      utils.filter array
        (fun val => strictEq (utils.get m val (getProp o.hash (jsStr "property"))) value) m
    else utils.filter array (fun v => strictEq value v) m)
    (fun results m =>
      if truthy results && (elems m results).length > 0 then
        (.ok (renderEach o m (elems m results) []), m)
      else (.ok (o.inverse m this), m))

/-- The inner function `arrayAlt` of `first`: it takes no parameters and
reads `array` and `n` of the enclosing call. -/
def first.arrayAlt (array n : HVal) : Eff HVal := fun m =>
  if utils.isUndefined array then (.ok (.str []), m)
  else if !utils.isNumber n then
    match array with
    | .str _ => (elemAt m array 0, m)
    | .ref r =>
      match m[r]? with
      | Option.some (.array _) => (elemAt m array 0, m)
      | _ => (.error .unsupported, m)
    | _ => (.error .unsupported, m)
  else
    match array, n with
    | .str s, .num k => (.ok (.str (slice s 0 k)), m)
    | .ref r, .num k =>
      match m[r]? with
      | Option.some (.array xs) => (.ok (alloc (.array (slice xs 0 k)) m).1,
          (alloc (.array (slice xs 0 k)) m).2)
      | _ => (.error .unsupported, m)
    | _, _ => (.error .unsupported, m)

/-- The helper `first(array, n)`. In the text branch `chars` is a new array
that `arrayAlt`, reading the text itself, never sees. -/
def first (array n : HVal) : Eff HVal := fun m =>
  if isArray m array then first.arrayAlt array n m
  else if utils.isString array then
    andThen (first.arrayAlt array n (alloc (.array (elems m array)) m).2) joinIfArray
  else (.ok (alloc (.array []) m).1, (alloc (.array []) m).2)

/-- Assignment `item[key] = v` in strict mode: it writes to the object that
`item` refers to, and throws on a primitive and on `undefined`/`null`. Named
properties on arrays are not modelled. -/
def assign (item : HVal) (key : JSString) (v : HVal) : Eff Unit := fun m =>
  match item with
  | .ref r =>
    match m[r]? with
    | Option.some (.object ps) => (.ok (), m.set r (.object (setProp ps key v)))
    | _ => (.error .unsupported, m)
  | .options => (.error .unsupported, m)
  | _ => (.error .typeError, m)

/-- The `while (++i < len)` loop of `forEach`; `i` is the position of the
head of the remaining items and `data` the private data frame. The renderer
gets the new argument object `{data: data}`. -/
def forEach.loop (o : Options) (len : Nat) (data : HVal) :
    List HVal → Nat → JSString → Eff JSString
  | [], _, buffer => fun m => (.ok buffer, m)
  | item :: rest, i, buffer => fun m =>
    andThen (assign data (jsStr "index") (.num i) m) (fun _ m =>
    andThen (assign item (jsStr "index") (.num (i + 1)) m) (fun _ m =>
    andThen (assign item (jsStr "total") (.num len) m) (fun _ m =>
    andThen (assign item (jsStr "isFirst") (.bool (i == 0)) m) (fun _ m =>
    andThen (assign item (jsStr "isLast") (.bool ((i : Int) == (len : Int) - 1)) m) (fun _ m =>
      forEach.loop o len data rest (i + 1)
        (buffer ++ o.fn (alloc (.object [(jsStr "data", data)]) m).2 item
          (Option.some (alloc (.object [(jsStr "data", data)]) m).1))
        (alloc (.object [(jsStr "data", data)]) m).2)))))

/-- The properties of an element after the assignments of `forEach` at
position `i` of a sequence of `len` elements. -/
def forEach.decorated (len i : Nat) (ps : HProps) : HProps :=
  setProp (setProp (setProp (setProp ps
    (jsStr "index") (.num (i + 1)))
    (jsStr "total") (.num len))
    (jsStr "isFirst") (.bool (i == 0)))
    (jsStr "isLast") (.bool ((i : Int) == (len : Int) - 1))

/-- The helper `forEach(array)`. -/
def forEach (array : HVal) (o : Options) : Eff JSString := fun m =>
  if !truthy array then (.ok [], (utils.createFrame o.hash m).2)
  else
    match array with
    | .str s =>
      forEach.loop o s.length (utils.createFrame o.hash m).1 (splitChars s) 0 []
        (utils.createFrame o.hash m).2
    | .ref r =>
      match m[r]? with
      | Option.some (.array xs) =>
        forEach.loop o xs.length (utils.createFrame o.hash m).1 xs 0 []
          (utils.createFrame o.hash m).2
      | _ => (.error .unsupported, (utils.createFrame o.hash m).2)
    | _ => (.ok [], (utils.createFrame o.hash m).2)

/-- The helper `inArray(array, value)`. -/
def inArray (this array value : HVal) (o : Options) : Eff JSString := fun m =>
  match utils.indexOf m array value with
  | .ok idx =>
    if idx > -1 then (.ok (o.fn m this none), m) else (.ok (o.inverse m this), m)
  | .error e => (.error e, m)

/-- The inner function `arrayAlt(array, n)` of `last`, called on arrays. -/
def last.arrayAlt (array n : HVal) : Eff HVal := fun m =>
  match n with
  | .num k => callSlice array (fun xs => sliceFrom xs (-k)) (fun s => sliceFrom s (-k)) m
  | _ => (.ok ((elems m array).getLast?.getD .undefined), m)

/-- The inner function `stringAlt(str, n)` of `last`: `chars` is a new
array. -/
def last.stringAlt (str : JSString) (n : HVal) : Eff HVal := fun m =>
  andThen
    (last.arrayAlt (alloc (.array (splitChars str)) m).1 n (alloc (.array (splitChars str)) m).2)
    joinIfArray

/-- The helper `last(array, n)`. -/
def last (array n : HVal) : Eff HVal := fun m =>
  if isArray m array then last.arrayAlt array n m
  else
    match array with
    | .str s => last.stringAlt s n m
    | _ => (.ok (alloc (.array []) m).1, (alloc (.array []) m).2)

/-- The helper `lengthEqual(array, length)`. -/
def lengthEqual (this array length : HVal) (o : Options) : Eff JSString := fun m =>
  match getLength m array with
  | .ok len =>
    if strictEq len length then (.ok (o.fn m this none), m) else (.ok (o.inverse m this), m)
  | .error e => (.error e, m)

/-- The `while (++i < len)` loop of `some`: `cb(arr[i], i, arr)` on each
element until one is truthy. The callback reads the store. -/
def some.loop (this arr : HVal) (cb : Store → HVal → Nat → HVal → HVal) (o : Options)
    (m : Store) : List HVal → Nat → JSString
  | [], _ => o.inverse m this
  | x :: rest, i =>
    if truthy (cb m x i arr) then o.fn m this none
    else some.loop this arr cb o m rest (i + 1)

/-- The helper `some(arr, cb)`, for a callback that is a function
(`utils.iterator` returns such a callback as it is). -/
def some (this arr : HVal) (cb : Store → HVal → Nat → HVal → HVal) (o : Options) :
    Eff JSString := fun m =>
  if !truthy arr then (.ok (o.inverse m this), m)
  else
    match arr with
    | .str _ => (.ok (some.loop this arr cb o m (elems m arr) 0), m)
    | .ref r =>
      match m[r]? with
      | Option.some (.array _) => (.ok (some.loop this arr cb o m (elems m arr) 0), m)
      | _ => (.error .unsupported, m)
    | _ => (.ok (o.inverse m this), m)

/-- The helper `withAfter(array, idx)`. -/
def withAfter (array : HVal) (idx : Int) (o : Options) : Eff JSString := fun m =>
  andThen (callSlice array (fun xs => sliceFrom xs idx) (fun s => sliceFrom s idx) m)
    (fun array m => (.ok (renderEach o m (elems m array) []), m))

/-- The helper `withBefore(array, idx)`. -/
def withBefore (array : HVal) (idx : Int) (o : Options) : Eff JSString := fun m =>
  andThen (callSlice array (fun xs => slice xs 0 (-idx)) (fun s => slice s 0 (-idx)) m)
    (fun array m => (.ok (renderEach o m (elems m array) []), m))

/-- The helper `withFirst(arr, idx)`. -/
def withFirst (arr idx : HVal) (o : Options) : Eff JSString := fun m =>
  if utils.isEmpty m arr || utils.isUndefined arr then (.ok [], m)
  else if utils.isUndefined idx then
    match elemAt m (utils.result arr) 0 with
    | .ok x => (.ok (o.fn m x none), m)
    | .error e => (.error e, m)
  else
    match parseFloatNum (utils.result idx) with
    | .ok k =>
      andThen (callSlice (utils.result arr) (fun xs => slice xs 0 k) (fun s => slice s 0 k) m)
        (fun arr m => (.ok (renderEach o m (elems m arr) []), m))
    | .error e => (.error e, m)

/-- The helper `withLast(array, idx)`. -/
def withLast (array idx : HVal) (o : Options) : Eff JSString := fun m =>
  if utils.isUndefined array then (.ok [], m)
  else if utils.isUndefined idx then
    match getLength m (utils.result array) with
    | .ok (.num len) =>
      match elemAt m (utils.result array) (len - 1) with
      | .ok x => (.ok (o.fn m x none), m)
      | .error e => (.error e, m)
    | .ok _ => (.error .unsupported, m)
    | .error e => (.error e, m)
  else
    match parseFloatNum (utils.result idx) with
    | .ok k =>
      andThen (callSlice (utils.result array) (fun xs => sliceFrom xs (-k))
          (fun s => sliceFrom s (-k)) m)
        (fun array m => (.ok (renderEach o m (elems m array) []), m))
    | .error e => (.error e, m)

/-- The call `Object.keys(v)`: a new array of the own keys; it throws on
`undefined` and `null`, and a sequence and a text have one key per index. The
keys of the options object itself are not modelled. -/
def objectKeys (v : HVal) : Eff HVal := fun m =>
  match v with
  | .undefined => (.error .typeError, m)
  | .null => (.error .typeError, m)
  | .str s =>
    (.ok (alloc (.array ((List.range s.length).map (fun i => HVal.str (natStr i)))) m).1,
      (alloc (.array ((List.range s.length).map (fun i => HVal.str (natStr i)))) m).2)
  | .ref r =>
    match m[r]? with
    | Option.some (.array xs) =>
      (.ok (alloc (.array ((List.range xs.length).map (fun i => HVal.str (natStr i)))) m).1,
        (alloc (.array ((List.range xs.length).map (fun i => HVal.str (natStr i)))) m).2)
    | Option.some (.object ps) =>
      (.ok (alloc (.array ((ps.map Prod.fst).dedup.map HVal.str)) m).1,
        (alloc (.array ((ps.map Prod.fst).dedup.map HVal.str)) m).2)
    | none => (.error .unsupported, m)
  | .options => (.error .unsupported, m)
  | _ => (.ok (alloc (.array []) m).1, (alloc (.array []) m).2)

/-- The value `typeof v === 'object'`. -/
def typeofObject : HVal → Bool
  | .null => true
  | .ref _ => true
  | .options => true
  | _ => false

/-- The helper `isEmpty(collection)`. An options value in the collection
position is the options object of the call itself. -/
def isEmpty (this collection : HVal) (o : Options) : Eff JSString := fun m =>
  if utils.isOptions collection then (.ok (o.fn m this none), m)
  else if isArray m collection && !truthy (lengthOf m collection) then
    (.ok (o.fn m this none), m)
  else
    andThen (objectKeys collection m) (fun keys m =>
      if typeofObject collection && !truthy (lengthOf m keys) then (.ok (o.fn m this none), m)
      else (.ok (o.inverse m this), m))

/-- The helper `length(value)`; `tryParse` is `utils.tryParse`, the literal
parser (missing from the sources): from the next free address and the text it
gives the parsed value, falsy when the text does not parse, and the new cells
that hold it. -/
def length (tryParse : Nat → JSString → HVal × List Cell) (value : HVal) : Eff HVal := fun m =>
  if !truthy value || utils.isUndefined value then (.ok (.str []), m)
  else
    andThen
      (match value with
        | .str s =>
          if 91 ∈ s then
            (if truthy (tryParse m.length s).1 then
              (.ok (tryParse m.length s).1, m ++ (tryParse m.length s).2)
            else (.ok (alloc (.array []) (m ++ (tryParse m.length s).2)).1,
              (alloc (.array []) (m ++ (tryParse m.length s).2)).2))
          else (.ok value, m)
        | v => (.ok v, m))
      (fun value m =>
        andThen (if utils.isObject m value then objectKeys value m else (.ok value, m))
          (fun value m => (getLength m value, m)))

end Heap

/-! ## URL query parameters: `getURLQueryParam` -/

/-- The characters `encodeURIComponent` leaves as they are: letters, digits
and `- _ . ! ~ * ' ( )`. -/
def isUnreserved (c : Nat) : Bool :=
  (65 ≤ c && c ≤ 90) || (97 ≤ c && c ≤ 122) || (48 ≤ c && c ≤ 57) ||
    c == 45 || c == 95 || c == 46 || c == 33 || c == 126 || c == 42 || c == 39 ||
    c == 40 || c == 41

/-- An upper-case hexadecimal digit. -/
def hexDigit (n : Nat) : Nat := if n < 10 then 48 + n else 55 + n

/-- The escape `%XX` of one byte. -/
def pctByte (b : Nat) : List Nat := [37, hexDigit (b / 16), hexDigit (b % 16)]

/-- UTF-8 encoding of a code point. -/
def utf8 (cp : Nat) : List Nat :=
  if cp < 128 then [cp]
  else if cp < 2048 then [192 + cp / 64, 128 + cp % 64]
  else if cp < 65536 then [224 + cp / 4096, 128 + cp / 64 % 64, 128 + cp % 64]
  else [240 + cp / 262144, 128 + cp / 4096 % 64, 128 + cp / 64 % 64, 128 + cp % 64]

/-- The function `encodeURIComponent`: unreserved characters are kept, every
other code point is replaced by the escapes of its UTF-8 bytes, and a lone
surrogate raises a `URIError`. -/
def encodeURIComponent : JSString → Except Err JSString
  | [] => .ok []
  | [c] =>
    if isUnreserved c then .ok [c]
    else if 55296 ≤ c && c ≤ 57343 then .error .uriError
    else .ok ((utf8 c).flatMap pctByte)
  | c :: d :: rest =>
    if isUnreserved c then (encodeURIComponent (d :: rest)).map (fun t => c :: t)
    else if 56320 ≤ c && c ≤ 57343 then .error .uriError
    else if 55296 ≤ c && c ≤ 56319 then
      if 56320 ≤ d && d ≤ 57343 then
        (encodeURIComponent rest).map (fun t =>
          (utf8 (65536 + (c - 55296) * 1024 + (d - 56320))).flatMap pctByte ++ t)
      else .error .uriError
    else (encodeURIComponent (d :: rest)).map (fun t => (utf8 c).flatMap pctByte ++ t)

/-- The method `URLSearchParams.get(name)`: the value of the first parameter
with that name, `null` (here `none`) when there is none. -/
def searchParamsGet : List (JSString × JSString) → JSString → Option JSString
  | [], _ => none
  | (n, v) :: rest, name => if n = name then Option.some v else searchParamsGet rest name

/-- The helper `getURLQueryParam(string, key)`. `isValidURL` is
`common.isValidURL` (missing from the sources) and `searchParams` gives the
query parameters of a URL, names and values decoded, in order, as
`new URL(string).searchParams` holds them. The result is the content of the
returned `SafeString`. `common.unwrapIfSafeString` leaves the values of this
model, none of which is a `SafeString`, as they are. -/
def getURLQueryParam (isValidURL : Val → Bool)
    (searchParams : JSString → List (JSString × JSString))
    (string key : Val) : Except Err (Option JSString) :=
  if !utils.isString string || !isValidURL string then .error .validationError
  else if !utils.isString key then .error .validationError
  else
    match string, key with
    | .str u, .str k => do
      let name ← encodeURIComponent k
      .ok (searchParamsGet (searchParams u) name)
    | _, _ => .error .unsupported

/-! ## The per-key counter: `incrementVar` -/

/-- The constant `max_keys`. -/
def max_keys : Nat := 50

/-- The test `Object.hasOwnProperty.call(o, key)`. -/
def hasOwn (ps : Props) (key : JSString) : Bool := ps.any (fun p => p.1 == key)

/-- The test `Number.isInteger(v)` (numbers are modelled as integers). -/
def isInteger : Val → Bool
  | .num _ => true
  | _ => false

/-- The helper `incrementVar(key)`. `stored` is the object of stored variables
of `globals.storage` (`none` while it is `undefined`); the result is what the
call returns or raises, and the stored variables after the call. -/
def incrementVar (stored : Option Props) (key : Val) : Except Err Val × Option Props :=
  if !utils.isString key then (.error .validationError, stored)
  else
    let vars : Props :=
      match stored with
      | none => []
      | Option.some ps => ps
    match key with
    | .str k =>
      if hasOwn vars k && isInteger (getProp vars k) then
        match getProp vars k with
        | .num n =>
          let vars := setProp vars k (.num (n + 1))
          (.ok (if hasOwn vars k then getProp vars k else .undefined), Option.some vars)
        | _ => (.error .unsupported, Option.some vars)
      else if (objectKeys vars).length ≥ max_keys then
        (.error .validationError, Option.some vars)
      else
        let vars := setProp vars k (.num 0)
        (.ok (if hasOwn vars k then getProp vars k else .undefined), Option.some vars)
    | _ => (.error .unsupported, stored)

/-- The calls `incrementVar(k)` for the keys `ks`, in order, from the stored
variables `stored`: each key with what its call returned or raised, and the
stored variables after the last call. -/
def incrementVar.run (stored : Option Props) :
    List JSString → List (JSString × Except Err Val) × Option Props
  | [] => ([], stored)
  | k :: rest =>
    ((k, (incrementVar stored (.str k)).1)
        :: (incrementVar.run (incrementVar stored (.str k)).2 rest).1,
      (incrementVar.run (incrementVar stored (.str k)).2 rest).2)

/-- True of a call that returned. -/
def succeeded : Except Err Val → Bool
  | .ok _ => true
  | .error _ => false

/-- The number of successful calls with the key `k` in a trace of calls. -/
def okCount (trace : List (JSString × Except Err Val)) (k : JSString) : Nat :=
  trace.countP (fun p => p.1 == k && succeeded p.2)

/-- The own properties of the stored variables: none while the object is
`undefined`. -/
def storedVars (stored : Option Props) : Props :=
  match stored with
  | none => []
  | Option.some ps => ps

/-- The stored variables agree with the counts `c` of successful calls per
key: a key with no successful call is not stored, and a key with `c k`
successful calls holds the integer `c k - 1`. -/
def countsAgree (stored : Option Props) (c : JSString → Nat) : Prop :=
  ∀ k : JSString,
    (c k = 0 → hasOwn (storedVars stored) k = false) ∧
    (0 < c k → hasOwn (storedVars stored) k = true ∧
      getProp (storedVars stored) k = .num ((c k : Int) - 1))

/-! # Theorems -/

/-! ## Slicing lemmas -/

theorem relIndex_natCast (len n : Nat) : relIndex len (n : Int) = min n len := by
  unfold relIndex
  have h : ¬ ((n : Int) < 0) := by omega
  simp [h]

theorem relIndex_neg (len k : Nat) (hk : 0 < k) : relIndex len (-(k : Int)) = len - k := by
  unfold relIndex
  have h : (-(k : Int)) < 0 := by omega
  simp only [h, if_true]
  omega

theorem sliceFrom_natCast {α : Type} (xs : List α) (n : Nat) :
    sliceFrom xs (n : Int) = xs.drop n := by
  unfold sliceFrom
  rw [relIndex_natCast]
  rcases Nat.le_total n xs.length with h | h
  · rw [Nat.min_eq_left h]
    exact List.take_of_length_le (by simp)
  · rw [Nat.min_eq_right h]
    simp [List.drop_of_length_le h]

theorem slice_zero_natCast {α : Type} (xs : List α) (n : Nat) :
    slice xs 0 (n : Int) = xs.take n := by
  unfold slice
  rw [relIndex_natCast, show relIndex xs.length 0 = 0 from by simp [relIndex]]
  simp only [List.drop_zero, Nat.sub_zero]
  rcases Nat.le_total n xs.length with h | h
  · rw [Nat.min_eq_left h]
  · rw [Nat.min_eq_right h, List.take_of_length_le h, List.take_of_length_le (le_refl _)]

theorem slice_zero_neg {α : Type} (xs : List α) (k : Nat) (hk : 0 < k) :
    slice xs 0 (-(k : Int)) = xs.take (xs.length - k) := by
  unfold slice
  rw [relIndex_neg _ _ hk, show relIndex xs.length 0 = 0 from by simp [relIndex]]
  simp

theorem sliceFrom_neg {α : Type} (xs : List α) (k : Nat) (hk : 0 < k) :
    sliceFrom xs (-(k : Int)) = xs.drop (xs.length - k) := by
  unfold sliceFrom
  rw [relIndex_neg _ _ hk]
  exact List.take_of_length_le (by simp)

/-! ## Windowing: `after`, `before`, `first`, `last` -/

/-- Away from the boundary `n = length s`, `before(s, length s - n)` and
`after(s, n)` split `s` at position `n`. -/
theorem before_after_partition (r : Nat) (xs : List Val) (n : Nat) (h : n < xs.length) :
    before (.arr r xs) ((xs.length : Int) - (n : Int)) = .ok (.newArr (xs.take n)) ∧
    after (.arr r xs) (n : Int) = .ok (.newArr (xs.drop n)) ∧
    xs.take n ++ xs.drop n = xs := by
  have hk : (xs.length : Int) - (n : Int) = ((xs.length - n : Nat) : Int) := by omega
  refine ⟨?_, ?_, List.take_append_drop n xs⟩
  · simp only [before, utils.isUndefined, Bool.false_eq_true, if_false]
    rw [hk, slice_zero_neg xs (xs.length - n) (by omega)]
    have : xs.length - (xs.length - n) = n := by omega
    rw [this]
  · simp only [after, truthy, utils.isUndefined, Bool.not_true, Bool.or_self,
      Bool.false_eq_true, if_false]
    rw [sliceFrom_natCast]

/-- C1, the failing input: on `['a','b','c']` at `n = 3 = length`,
`before(s, 3 - 3)` is the empty sequence (the end offset `-0` is `0`) and
`after(s, 3)` is empty too, so the two do not concatenate to `s`. -/
theorem before_after_at_length :
    before (.arr 1 [.str (jsStr "a"), .str (jsStr "b"), .str (jsStr "c")]) (3 - 3)
      = .ok (.newArr []) ∧
    after (.arr 1 [.str (jsStr "a"), .str (jsStr "b"), .str (jsStr "c")]) 3
      = .ok (.newArr []) ∧
    ([] : List Val) ++ [] ≠ [.str (jsStr "a"), .str (jsStr "b"), .str (jsStr "c")] :=
  ⟨rfl, rfl, by simp⟩

/-- For `1 ≤ n ≤ length s`, `last(s, n)` is the final `n` elements of `s`, in
order; without a numeric `n` it is the final element alone. -/
theorem last_positive (r : Nat) (xs : List Val) (n : Nat) (h1 : 1 ≤ n) (h2 : n ≤ xs.length) :
    last (.arr r xs) (.num n) = .newArr (xs.drop (xs.length - n)) ∧
    (xs.drop (xs.length - n)).length = n ∧
    last (.arr r xs) .options = .val (xs.getLast?.getD .undefined) ∧
    last (.arr r xs) .undefined = .val (xs.getLast?.getD .undefined) := by
  refine ⟨?_, ?_, rfl, rfl⟩
  · simp only [last, last.arrayAlt]
    rw [sliceFrom_neg xs n (by omega)]
  · simp only [List.length_drop]
    omega

/-- C2, the failing input: `last(['a','b','c','d','e'], 0)` is the whole
sequence, five elements, not the final zero elements (the start offset `-0`
is `0`). The sibling `first(s, 0)` is empty. -/
theorem last_zero_returns_all :
    last (.arr 1 [.str (jsStr "a"), .str (jsStr "b"), .str (jsStr "c"),
        .str (jsStr "d"), .str (jsStr "e")]) (.num 0)
      = .newArr [.str (jsStr "a"), .str (jsStr "b"), .str (jsStr "c"),
        .str (jsStr "d"), .str (jsStr "e")] ∧
    first (.arr 1 [.str (jsStr "a"), .str (jsStr "b"), .str (jsStr "c"),
        .str (jsStr "d"), .str (jsStr "e")]) (.num 0) = .ok (.newArr []) :=
  ⟨rfl, rfl⟩

/-- C3: `first(s)` with `n` omitted (the options object, or `undefined`, in
its place) is the element at index 0 alone (`undefined` when `s` is empty); `first(s, n)` for an integer
`n ≥ 0` is the first `min n (length s)` elements in order; on a text `t` it is
the text of the first `min n (length t)` code units. Witnesses:
`first(['a','b','c','d','e'], 2) = ['a','b']` and `first("hello", 2) = "he"`. -/
theorem first_spec :
    (∀ (r : Nat) (xs : List Val),
      first (.arr r xs) .options = .ok (.val (xs.headD .undefined)) ∧
      first (.arr r xs) .undefined = .ok (.val (xs.headD .undefined))) ∧
    (∀ (r : Nat) (xs : List Val) (n : Nat),
      first (.arr r xs) (.num n) = .ok (.newArr (xs.take (min n xs.length)))) ∧
    (∀ (t : JSString) (n : Nat),
      first (.str t) (.num n) = .ok (.val (.str (t.take (min n t.length))))) ∧
    first (.arr 1 [.str (jsStr "a"), .str (jsStr "b"), .str (jsStr "c"),
        .str (jsStr "d"), .str (jsStr "e")]) (.num 2)
      = .ok (.newArr [.str (jsStr "a"), .str (jsStr "b")]) ∧
    first (.str (jsStr "hello")) (.num 2) = .ok (.val (.str (jsStr "he"))) := by
  refine ⟨fun r xs => ⟨rfl, rfl⟩, ?_, ?_, rfl, rfl⟩
  · intro r xs n
    have h : xs.take (min n xs.length) = xs.take n := by
      rcases Nat.le_total n xs.length with h | h
      · rw [Nat.min_eq_left h]
      · rw [Nat.min_eq_right h, List.take_of_length_le h, List.take_of_length_le (le_refl _)]
    have e : first (.arr r xs) (.num n) = .ok (.newArr (slice xs 0 (n : Int))) := rfl
    rw [e, slice_zero_natCast, h]
  · intro t n
    have h : t.take (min n t.length) = t.take n := by
      rcases Nat.le_total n t.length with h | h
      · rw [Nat.min_eq_left h]
      · rw [Nat.min_eq_right h, List.take_of_length_le h, List.take_of_length_le (le_refl _)]
    have e : first (.str t) (.num n) = .ok (.val (.str (slice t 0 (n : Int)))) := rfl
    rw [e, slice_zero_natCast, h]

/-- C4, the docstring example: for `['a','b','c']`, `before(array, 2)` is
`['a']`: the code drops the last two items, it does not keep the first two. -/
theorem before_docstring_example :
    before (.arr 1 [.str (jsStr "a"), .str (jsStr "b"), .str (jsStr "c")]) 2
      = .ok (.newArr [.str (jsStr "a")]) :=
  rfl

/-! ## Coercion: `arrayify` -/

/-- C5, counterexample: it is not the case that every present non-sequence
scalar `v` gives `[v]`: `arrayify(0)` is the empty sequence. -/
theorem arrayify_present_scalar_fails :
    ¬ (∀ v : Val, v ≠ .undefined → v ≠ .null → isArray v = false →
        arrayify [v, .options] = .newArr [v]) := by
  intro h
  have h0 := h (.num 0) (by simp) (by simp) rfl
  have h1 : arrayify [.num 0, .options] = .newArr [] := rfl
  rw [h1] at h0
  simp at h0

/-- C5, amended: a sequence is returned as it is; a truthy non-sequence `v`
gives the one-element sequence `[v]`; a falsy value (`undefined`, `null`,
`false`, `0`, the empty text) and a call with no value give the empty
sequence. `arrayify` is total: it never raises. -/
theorem arrayify_spec :
    (∀ (r : Nat) (xs : List Val), arrayify [.arr r xs, .options] = .val (.arr r xs)) ∧
    (∀ v : Val, truthy v = true → isArray v = false →
      arrayify [v, .options] = .newArr [v]) ∧
    (∀ v : Val, truthy v = false → arrayify [v, .options] = .newArr []) ∧
    arrayify [.undefined, .options] = .newArr [] ∧
    arrayify [.null, .options] = .newArr [] ∧
    arrayify [.options] = .newArr [] := by
  refine ⟨fun r xs => rfl, ?_, ?_, rfl, rfl, rfl⟩
  · intro v ht ha
    simp [arrayify, ht, ha]
  · intro v ht
    simp [arrayify, ht]

/-- C5, witness: `arrayify("foo")` is `["foo"]`, `arrayify(0)` is `[]`. -/
theorem arrayify_spec_witness :
    arrayify [.str (jsStr "foo"), .options] = .newArr [.str (jsStr "foo")] ∧
    arrayify [.num 0, .options] = .newArr [] :=
  ⟨arrayify_spec.2.1 (.str (jsStr "foo")) rfl rfl, arrayify_spec.2.2.1 (.num 0) rfl⟩

/-! ## Property lists -/

theorem getProp_setProp_same (ps : Props) (k : JSString) (v : Val) :
    getProp (setProp ps k v) k = v := by
  induction ps with
  | nil => simp [setProp, getProp]
  | cons p rest ih =>
    obtain ⟨k', w⟩ := p
    by_cases h : k' = k
    · simp [setProp, getProp, h]
    · simp [setProp, getProp, h, ih]

theorem getProp_setProp_ne (ps : Props) (k k' : JSString) (v : Val) (h : k ≠ k') :
    getProp (setProp ps k v) k' = getProp ps k' := by
  induction ps with
  | nil => simp [setProp, getProp, h]
  | cons p rest ih =>
    obtain ⟨k0, w⟩ := p
    by_cases h0 : k0 = k
    · subst h0
      simp [setProp, getProp, h]
    · by_cases h1 : k0 = k'
      · subst h1
        simp [setProp, getProp, h0]
      · simp [setProp, getProp, h0, h1, ih]

theorem setProp_setProp_same (ps : Props) (k : JSString) (a b : Val) :
    setProp (setProp ps k a) k b = setProp ps k b := by
  induction ps with
  | nil => simp [setProp]
  | cons p rest ih =>
    obtain ⟨k0, w⟩ := p
    by_cases h0 : k0 = k
    · simp [setProp, h0]
    · simp [setProp, h0, ih]

/-! ## Iteration: `forEach` -/

theorem forEach_loop_objects (o : Options) (len : Nat) (es : List (Nat × Props)) :
    ∀ (i : Nat) (data : Props) (acc : Run),
      (∀ v, setProp data (jsStr "index") v = setProp (utils.createFrame o.hash) (jsStr "index") v) →
      forEach.loop o len (es.map (fun e => Val.obj e.1 e.2)) i data acc
        = .ok ⟨acc.out ++ (es.enumFrom i).flatMap (fun p =>
                o.fn (forEach.decorated len p.1 p.2.1 p.2.2) (Option.some (forEach.frame o p.1))),
              acc.calls ++ (es.enumFrom i).map (fun p =>
                Call.primary (forEach.decorated len p.1 p.2.1 p.2.2)
                  (Option.some (forEach.frame o p.1)))⟩ := by
  induction es with
  | nil => intro i data acc _; simp [forEach.loop]
  | cons e rest ih =>
    intro i data acc hd
    obtain ⟨ref, ps⟩ := e
    have hd' : ∀ v, setProp (setProp data (jsStr "index") (.num i)) (jsStr "index") v
        = setProp (utils.createFrame o.hash) (jsStr "index") v := by
      intro v; rw [setProp_setProp_same, hd]
    simp only [List.map_cons, forEach.loop, assign, bind, Except.bind]
    rw [ih (i + 1) _ _ hd']
    simp [List.enumFrom_cons, List.flatMap_cons, forEach.decorated, forEach.frame, hd,
      List.append_assoc]

theorem forEach_objects (r : Nat) (es : List (Nat × Props)) (o : Options) :
    forEach (.arr r (es.map (fun e => Val.obj e.1 e.2))) o
      = .ok ⟨es.enum.flatMap (fun p =>
              o.fn (forEach.decorated es.length p.1 p.2.1 p.2.2)
                (Option.some (forEach.frame o p.1))),
            es.enum.map (fun p =>
              Call.primary (forEach.decorated es.length p.1 p.2.1 p.2.2)
                (Option.some (forEach.frame o p.1)))⟩ := by
  have h := forEach_loop_objects o es.length es 0 (utils.createFrame o.hash) ⟨[], []⟩
    (fun _ => rfl)
  simp only [forEach, truthy, Bool.not_true, Bool.false_eq_true, if_false, List.length_map]
  rw [h]
  simp [List.enum]

/-- C6: over a sequence of `L` mapping elements `forEach` invokes the primary
renderer exactly `L` times, once per element in order, and never the inverse;
at position `i` the element carries `index = i + 1`, `total = L`,
`isFirst = (i = 0)`, `isLast = (i = L - 1)` and the frame's private `index`
is `i`; the result is the concatenation of the rendered texts. Witness: over
`[{}, {}, {}]` the elements get `(1, true, false)`, `(2, false, false)`,
`(3, false, true)`, all with `total = 3`. -/
theorem forEach_spec (r : Nat) (es : List (Nat × Props)) (o : Options) :
    forEach (.arr r (es.map (fun e => Val.obj e.1 e.2))) o
      = .ok ⟨es.enum.flatMap (fun p =>
              o.fn (forEach.decorated es.length p.1 p.2.1 p.2.2)
                (Option.some (forEach.frame o p.1))),
            es.enum.map (fun p =>
              Call.primary (forEach.decorated es.length p.1 p.2.1 p.2.2)
                (Option.some (forEach.frame o p.1)))⟩ ∧
    primaryCount (es.enum.map (fun p =>
        Call.primary (forEach.decorated es.length p.1 p.2.1 p.2.2)
          (Option.some (forEach.frame o p.1)))) = es.length ∧
    inverseCount (es.enum.map (fun p =>
        Call.primary (forEach.decorated es.length p.1 p.2.1 p.2.2)
          (Option.some (forEach.frame o p.1)))) = 0 ∧
    (∀ (L i ref : Nat) (ps : Props),
      getProp (forEach.decorated L i ref ps).props (jsStr "index") = .num (i + 1) ∧
      getProp (forEach.decorated L i ref ps).props (jsStr "total") = .num L ∧
      getProp (forEach.decorated L i ref ps).props (jsStr "isFirst") = .bool (decide (i = 0)) ∧
      getProp (forEach.decorated L i ref ps).props (jsStr "isLast") = .bool (decide (i + 1 = L)) ∧
      getProp (forEach.frame o i) (jsStr "index") = .num i) ∧
    (forEach (.arr 0 [.obj 1 [], .obj 2 [], .obj 3 []]) o).map Run.calls
      = .ok [
        Call.primary (.obj 1 [(jsStr "index", .num 1), (jsStr "total", .num 3),
          (jsStr "isFirst", .bool true), (jsStr "isLast", .bool false)])
          (Option.some (forEach.frame o 0)),
        Call.primary (.obj 2 [(jsStr "index", .num 2), (jsStr "total", .num 3),
          (jsStr "isFirst", .bool false), (jsStr "isLast", .bool false)])
          (Option.some (forEach.frame o 1)),
        Call.primary (.obj 3 [(jsStr "index", .num 3), (jsStr "total", .num 3),
          (jsStr "isFirst", .bool false), (jsStr "isLast", .bool true)])
          (Option.some (forEach.frame o 2))] := by
  refine ⟨?_, ?_, ?_, ?_, ?_⟩
  · exact forEach_objects r es o
  · simp only [primaryCount, List.countP_map]
    have h : ∀ p ∈ es.enum, (Call.isPrimary ∘ fun p : Nat × Nat × Props =>
        Call.primary (forEach.decorated es.length p.1 p.2.1 p.2.2)
          (Option.some (forEach.frame o p.1))) p = true := fun p _ => rfl
    rw [List.countP_eq_length.2 h, List.enum_length]
  · simp only [inverseCount, List.countP_map]
    exact List.countP_eq_zero.2 (fun p _ => by simp [Call.isInverse])
  · intro L i ref ps
    have h1 : jsStr "total" ≠ jsStr "index" := by decide
    have h2 : jsStr "isFirst" ≠ jsStr "index" := by decide
    have h3 : jsStr "isLast" ≠ jsStr "index" := by decide
    have h4 : jsStr "isFirst" ≠ jsStr "total" := by decide
    have h5 : jsStr "isLast" ≠ jsStr "total" := by decide
    have h6 : jsStr "isLast" ≠ jsStr "isFirst" := by decide
    refine ⟨?_, ?_, ?_, ?_, ?_⟩
    · simp only [forEach.decorated, Val.props]
      rw [getProp_setProp_ne _ _ _ _ h3, getProp_setProp_ne _ _ _ _ h2,
        getProp_setProp_ne _ _ _ _ h1, getProp_setProp_same]
    · simp only [forEach.decorated, Val.props]
      rw [getProp_setProp_ne _ _ _ _ h5, getProp_setProp_ne _ _ _ _ h4, getProp_setProp_same]
    · simp only [forEach.decorated, Val.props]
      rw [getProp_setProp_ne _ _ _ _ h6, getProp_setProp_same]
      by_cases h : i = 0 <;> simp [h]
    · simp only [forEach.decorated, Val.props]
      rw [getProp_setProp_same]
      have : ((i : Int) == (L : Int) - 1) = decide (i + 1 = L) := by
        by_cases h : i + 1 = L
        · have : (i : Int) = (L : Int) - 1 := by omega
          simp [h, this]
        · have : ¬ (i : Int) = (L : Int) - 1 := by omega
          simp [h, this]
      rw [this]
    · simp only [forEach.frame]
      rw [getProp_setProp_same]
  · have h := forEach_objects 0 [(1, []), (2, []), (3, [])] o
    simp only [List.map] at h
    rw [h]
    rfl

/-! ## Filtering and membership: `filter`, `inArray`, `some` -/

theorem renderEach_eq (o : Options) (xs : List Val) :
    ∀ acc : Run, renderEach o xs acc
      = ⟨acc.out ++ xs.flatMap (fun e => o.fn e none),
         acc.calls ++ xs.map (fun e => Call.primary e none)⟩ := by
  induction xs with
  | nil => intro acc; simp [renderEach]
  | cons x rest ih => intro acc; simp [renderEach, ih, List.flatMap_cons, List.append_assoc]

theorem primaryCount_map_primary (xs : List Val) :
    primaryCount (xs.map (fun e => Call.primary e none)) = xs.length := by
  simp only [primaryCount, List.countP_map]
  exact List.countP_eq_length.2 (fun _ _ => rfl)

theorem inverseCount_map_primary (xs : List Val) :
    inverseCount (xs.map (fun e => Call.primary e none)) = 0 := by
  simp only [inverseCount, List.countP_map]
  exact List.countP_eq_zero.2 (fun _ _ => by simp [Call.isInverse])

theorem primaryCount_map_callback (ps : List (Nat × Val)) :
    primaryCount (ps.map (fun p => Call.callback p.2 p.1)) = 0 := by
  simp only [primaryCount, List.countP_map]
  exact List.countP_eq_zero.2 (fun _ _ => by simp [Call.isPrimary])

theorem inverseCount_map_callback (ps : List (Nat × Val)) :
    inverseCount (ps.map (fun p => Call.callback p.2 p.1)) = 0 := by
  simp only [inverseCount, List.countP_map]
  exact List.countP_eq_zero.2 (fun _ _ => by simp [Call.isInverse])

/-- What `filter` does with the elements `sel` selected by its callback. -/
theorem filter_arr (this v : Val) (r : Nat) (xs : List Val) (o : Options) :
    filter this (.arr r xs) v o
      = .ok (
        if (if truthy (getProp o.hash (jsStr "property"))
            then xs.filter (fun e => strictEq (utils.get e (getProp o.hash (jsStr "property"))) v)
            else xs.filter (fun e => strictEq v e)).isEmpty
        then ⟨o.inverse this, [Call.inverse this]⟩
        else ⟨(if truthy (getProp o.hash (jsStr "property"))
                then xs.filter
                  (fun e => strictEq (utils.get e (getProp o.hash (jsStr "property"))) v)
                else xs.filter (fun e => strictEq v e)).flatMap (fun e => o.fn e none),
              (if truthy (getProp o.hash (jsStr "property"))
                then xs.filter
                  (fun e => strictEq (utils.get e (getProp o.hash (jsStr "property"))) v)
                else xs.filter (fun e => strictEq v e)).map (fun e => Call.primary e none)⟩) := by
  by_cases hp : truthy (getProp o.hash (jsStr "property")) = true
  · simp only [filter, hp, if_true, utils.filter, bind, Except.bind]
    cases h : xs.filter (fun e => strictEq (utils.get e (getProp o.hash (jsStr "property"))) v) with
    | nil => simp
    | cons a l => simp [renderEach_eq]
  · simp only [filter, hp, if_false, utils.filter, bind, Except.bind]
    cases h : xs.filter (fun e => strictEq v e) with
    | nil => simp
    | cons a l => simp [renderEach_eq]

/-- What the loop of `some` does from position `i` on: it applies the callback
up to and including the first element that satisfies it. -/
theorem some_loop_eq (this arr : Val) (cb : Val → Nat → Val → Val) (o : Options)
    (xs : List Val) :
    ∀ (i : Nat) (calls : List Call),
      some.loop this arr cb o xs i calls
        = if (xs.enumFrom i).any (some.hit cb arr) then
            ⟨o.fn this none,
              calls ++ ((xs.enumFrom i).take
                (((xs.enumFrom i).takeWhile (fun p => !some.hit cb arr p)).length + 1)).map
                  (fun p => Call.callback p.2 p.1) ++ [Call.primary this none]⟩
          else
            ⟨o.inverse this,
              calls ++ (xs.enumFrom i).map (fun p => Call.callback p.2 p.1)
                ++ [Call.inverse this]⟩ := by
  induction xs with
  | nil => intro i calls; simp [some.loop]
  | cons x rest ih =>
    intro i calls
    by_cases hx : truthy (cb x i arr) = true
    · simp [some.loop, hx, List.enumFrom_cons, some.hit, List.takeWhile_cons]
    · have hx' : truthy (cb x i arr) = false := by simpa using hx
      simp only [some.loop, hx', Bool.false_eq_true, if_false, List.enumFrom_cons]
      rw [ih (i + 1)]
      simp [some.hit, hx', List.takeWhile_cons, List.append_assoc]
      rw [hx', Bool.false_or]

/-- C7: on a sequence, with any value or predicate, each of `filter`,
`inArray` and `some` returns normally and invokes exactly one kind of
renderer: the primary renderer at least once, or the inverse renderer exactly
once; never both and never neither. -/
theorem selection_exactly_one_kind (this v : Val) (r : Nat) (xs : List Val)
    (cb : Val → Nat → Val → Val) (o : Options) :
    (∃ run, filter this (.arr r xs) v o = .ok run ∧ exactlyOneKind run.calls) ∧
    (∃ run, inArray this (.arr r xs) v o = .ok run ∧ exactlyOneKind run.calls) ∧
    (∃ run, some this (.arr r xs) cb o = .ok run ∧ exactlyOneKind run.calls) := by
  refine ⟨?_, ?_, ?_⟩
  · refine ⟨_, filter_arr this v r xs o, ?_⟩
    generalize (if truthy (getProp o.hash (jsStr "property")) = true
      then xs.filter (fun e => strictEq (utils.get e (getProp o.hash (jsStr "property"))) v)
      else xs.filter (fun e => strictEq v e)) = sel
    cases sel with
    | nil => right; simp [primaryCount, inverseCount, Call.isPrimary, Call.isInverse]
    | cons a l =>
      left
      simp only [List.isEmpty_cons, Bool.false_eq_true, if_false]
      rw [primaryCount_map_primary, inverseCount_map_primary]
      exact ⟨by simp, rfl⟩
  · by_cases h : utils.indexFrom v xs 0 > -1
    · refine ⟨⟨o.fn this none, [Call.primary this none]⟩, ?_, ?_⟩
      · simp [inArray, utils.indexOf, bind, Except.bind, h]
      · left; simp [primaryCount, inverseCount, Call.isPrimary, Call.isInverse]
    · refine ⟨⟨o.inverse this, [Call.inverse this]⟩, ?_, ?_⟩
      · simp [inArray, utils.indexOf, bind, Except.bind, h]
      · right; simp [primaryCount, inverseCount, Call.isPrimary, Call.isInverse]
  · have hs : some this (.arr r xs) cb o = .ok (some.loop this (.arr r xs) cb o xs 0 []) := rfl
    refine ⟨_, hs, ?_⟩
    rw [some_loop_eq]
    split
    · left
      simp only [primaryCount, inverseCount, List.nil_append, List.countP_append]
      have h1 := primaryCount_map_callback ((xs.enumFrom 0).take
        (((xs.enumFrom 0).takeWhile (fun p => !some.hit cb (.arr r xs) p)).length + 1))
      have h2 := inverseCount_map_callback ((xs.enumFrom 0).take
        (((xs.enumFrom 0).takeWhile (fun p => !some.hit cb (.arr r xs) p)).length + 1))
      simp only [primaryCount, inverseCount] at h1 h2
      rw [h1, h2]
      simp [Call.isPrimary, Call.isInverse]
    · right
      simp only [primaryCount, inverseCount, List.nil_append, List.countP_append]
      have h1 := primaryCount_map_callback (xs.enumFrom 0)
      have h2 := inverseCount_map_callback (xs.enumFrom 0)
      simp only [primaryCount, inverseCount] at h1 h2
      rw [h1, h2]
      simp [Call.isPrimary, Call.isInverse]

/-- C8: `filter(s, v)` without a property flag (the hash has no truthy
`property`) renders the primary body once per element strictly equal to `v`,
in the original order, and returns the concatenation; with `hash.property = p`
it does so over the elements whose property `p` strictly equals `v`; in both
cases it returns the inverse rendering exactly when no element is selected. -/
theorem filter_spec (this v : Val) (r : Nat) (xs : List Val) (o : Options) :
    (truthy (getProp o.hash (jsStr "property")) = false →
      filter this (.arr r xs) v o
        = .ok (if (xs.filter (fun e => strictEq v e)).isEmpty
            then ⟨o.inverse this, [Call.inverse this]⟩
            else ⟨(xs.filter (fun e => strictEq v e)).flatMap (fun e => o.fn e none),
                  (xs.filter (fun e => strictEq v e)).map (fun e => Call.primary e none)⟩)) ∧
    (∀ p : Val, getProp o.hash (jsStr "property") = p → truthy p = true →
      filter this (.arr r xs) v o
        = .ok (if (xs.filter (fun e => strictEq (utils.get e p) v)).isEmpty
            then ⟨o.inverse this, [Call.inverse this]⟩
            else ⟨(xs.filter (fun e => strictEq (utils.get e p) v)).flatMap
                    (fun e => o.fn e none),
                  (xs.filter (fun e => strictEq (utils.get e p) v)).map
                    (fun e => Call.primary e none)⟩)) := by
  refine ⟨?_, ?_⟩
  · intro hp
    rw [filter_arr]
    simp only [hp, Bool.false_eq_true, if_false]
  · intro p hp ht
    subst hp
    rw [filter_arr]
    simp only [ht, if_true]

/-- C8, witness: `filter(['a','b','c'], "foo")` with bodies `AAA` / `BBB` yields
`'BBB'`; `filter([{k:'x'},{k:'y'},{k:'x'}], 'x')` with `property="k"` renders
the primary body for the first and the third element. -/
theorem filter_spec_witness :
    filter .null (.arr 1 [.str (jsStr "a"), .str (jsStr "b"), .str (jsStr "c")])
        (.str (jsStr "foo")) ⟨fun _ _ => jsStr "AAA", fun _ => jsStr "BBB", []⟩
      = .ok ⟨jsStr "BBB", [Call.inverse .null]⟩ ∧
    filter .null (.arr 1 [.obj 2 [(jsStr "k", .str (jsStr "x"))],
          .obj 3 [(jsStr "k", .str (jsStr "y"))], .obj 4 [(jsStr "k", .str (jsStr "x"))]])
        (.str (jsStr "x"))
        ⟨fun _ _ => jsStr "AAA", fun _ => jsStr "BBB", [(jsStr "property", .str (jsStr "k"))]⟩
      = .ok ⟨jsStr "AAAAAA", [Call.primary (.obj 2 [(jsStr "k", .str (jsStr "x"))]) none,
          Call.primary (.obj 4 [(jsStr "k", .str (jsStr "x"))]) none]⟩ :=
  ⟨(filter_spec .null (.str (jsStr "foo")) 1
      [.str (jsStr "a"), .str (jsStr "b"), .str (jsStr "c")]
      ⟨fun _ _ => jsStr "AAA", fun _ => jsStr "BBB", []⟩).1 rfl,
   (filter_spec .null (.str (jsStr "x")) 1
      [.obj 2 [(jsStr "k", .str (jsStr "x"))], .obj 3 [(jsStr "k", .str (jsStr "y"))],
        .obj 4 [(jsStr "k", .str (jsStr "x"))]]
      ⟨fun _ _ => jsStr "AAA", fun _ => jsStr "BBB",
        [(jsStr "property", .str (jsStr "k"))]⟩).2 (.str (jsStr "k")) rfl rfl⟩

/-- C9: `some(s, p)` renders the primary body exactly when `p(element, index,
s)` is truthy for at least one element, and the inverse body otherwise; `p`
is applied in index order to the elements up to and including the first one
that satisfies it, and to no later element; for an absent (or any falsy)
sequence the inverse is rendered and `p` is not applied. -/
theorem some_spec (this : Val) (r : Nat) (xs : List Val) (cb : Val → Nat → Val → Val)
    (o : Options) :
    some this (.arr r xs) cb o
      = .ok (if xs.enum.any (some.hit cb (.arr r xs)) then
            ⟨o.fn this none,
              (xs.enum.take
                ((xs.enum.takeWhile (fun p => !some.hit cb (.arr r xs) p)).length + 1)).map
                  (fun p => Call.callback p.2 p.1) ++ [Call.primary this none]⟩
          else
            ⟨o.inverse this,
              xs.enum.map (fun p => Call.callback p.2 p.1) ++ [Call.inverse this]⟩) ∧
    some this .undefined cb o = .ok ⟨o.inverse this, [Call.inverse this]⟩ ∧
    some this .null cb o = .ok ⟨o.inverse this, [Call.inverse this]⟩ ∧
    some .null (.arr 1 [.num 1, .str (jsStr "b"), .num 3])
        (fun e _ _ => .bool (utils.isString e)) o
      = .ok ⟨o.fn .null none, [Call.callback (.num 1) 0, Call.callback (.str (jsStr "b")) 1,
          Call.primary .null none]⟩ := by
  refine ⟨?_, rfl, rfl, rfl⟩
  have hs : some this (.arr r xs) cb o = .ok (some.loop this (.arr r xs) cb o xs 0 []) := rfl
  rw [hs, some_loop_eq]
  simp [List.enum]

/-! ## Sorting: `sort` -/

theorem strLt_irrefl (a : JSString) : strLt a a = false := by
  induction a with
  | nil => rfl
  | cons x a ih => simp [strLt, ih]

theorem strLt_asymm (a : JSString) : ∀ b : JSString, strLt a b = true → strLt b a = false := by
  induction a with
  | nil => intro b; cases b <;> simp [strLt]
  | cons x a ih =>
    intro b
    cases b with
    | nil => simp [strLt]
    | cons y b =>
      simp only [strLt, Bool.or_eq_true, decide_eq_true_eq, Bool.and_eq_true, beq_iff_eq,
        Bool.or_eq_false_iff, decide_eq_false_iff_not, Bool.and_eq_false_imp]
      rintro (h | ⟨h, h'⟩)
      · exact ⟨by omega, fun e => by omega⟩
      · exact ⟨by omega, fun _ => ih b h'⟩

/-- Transitivity of "not after": if `a` is not after `b` and `b` is not after `c`, then `a` is
not after `c`. -/
theorem strLt_false_trans (a : JSString) :
    ∀ b c : JSString, strLt b a = false → strLt c b = false → strLt c a = false := by
  induction a with
  | nil =>
    intro b c h1 h2
    cases b with
    | nil => exact h2
    | cons y b => cases c <;> simp [strLt] at h1 h2 ⊢
  | cons x a ih =>
    intro b c h1 h2
    cases b with
    | nil => simp [strLt] at h1
    | cons y b =>
      cases c with
      | nil => simp [strLt]  at h2
      | cons z c =>
        simp only [strLt, Bool.or_eq_false_iff, decide_eq_false_iff_not,
          Bool.and_eq_false_imp, beq_iff_eq] at h1 h2 ⊢
        refine ⟨by omega, fun e => ?_⟩
        have e1 : y = x := by omega
        have e2 : z = y := by omega
        exact ih b c (h1.2 e1) (h2.2 e2)

theorem strLt_false_total (a b : JSString) : strLt b a = false ∨ strLt a b = false := by
  cases h : strLt b a with
  | false => exact Or.inl rfl
  | true => exact Or.inr (strLt_asymm b a h)

theorem sortLE_eq (x y : Val) :
    sortLE x y = (y.isUndef || (!x.isUndef && !strLt y.toStr x.toStr)) := by
  cases x <;> cases y <;> simp [sortLE, Val.isUndef]

theorem sortLE_total (x y : Val) : sortLE x y = true ∨ sortLE y x = true := by
  rw [sortLE_eq, sortLE_eq]
  cases hx : x.isUndef <;> cases hy : y.isUndef <;> simp
  rcases strLt_false_total x.toStr y.toStr with h | h
  · exact Or.inl h
  · exact Or.inr h

theorem sortLE_trans (x y z : Val) (h1 : sortLE x y = true) (h2 : sortLE y z = true) :
    sortLE x z = true := by
  rw [sortLE_eq] at h1 h2 ⊢
  cases hx : x.isUndef <;> cases hy : y.isUndef <;> cases hz : z.isUndef <;>
    simp [hx, hy, hz] at h1 h2 ⊢
  exact strLt_false_trans _ _ _ h1 h2

theorem jsSort_sorted (xs : List Val) : (jsSort xs).Sorted (fun a b => sortLE a b = true) :=
  @List.sorted_insertionSort Val (fun a b => sortLE a b = true) _ ⟨sortLE_total⟩
    ⟨sortLE_trans⟩ xs

theorem jsSort_perm (xs : List Val) : (jsSort xs).Perm xs :=
  List.perm_insertionSort _ xs

/-- Sorting a sequence of values `f k` whose default order is the text order of
`key k`: the result is the image of the keys sorted by text. -/
theorem jsSort_map {κ : Type} (f : κ → Val) (key : κ → JSString)
    (hf : ∀ a b, sortLE (f a) (f b) = !strLt (key b) (key a)) (ks : List κ) :
    ∃ ts : List κ, ts.Perm ks ∧
      ts.Sorted (fun a b => strLt (key b) (key a) = false) ∧
      jsSort (ks.map f) = ts.map f := by
  refine ⟨ks.insertionSort (fun a b => strLt (key b) (key a) = false),
    List.perm_insertionSort _ ks, ?_, ?_⟩
  · exact @List.sorted_insertionSort κ (fun a b => strLt (key b) (key a) = false) _
      ⟨fun a b => strLt_false_total (key a) (key b)⟩
      ⟨fun a b c h1 h2 => strLt_false_trans (key a) (key b) (key c) h1 h2⟩ ks
  · unfold jsSort
    refine (List.map_insertionSort (fun a b => strLt (key b) (key a) = false)
      (fun a b => sortLE a b = true) f ks ?_).symm
    intro a _ b _
    show strLt (key b) (key a) = false ↔ sortLE (f a) (f b) = true
    rw [hf]
    simp

/-- C10, counterexample: it is not the case that `sort` puts every sequence of
numbers in ascending numeric order: `sort([9, 10])` is `[10, 9]`. -/
theorem sort_numbers_not_numeric :
    ¬ (∀ (r : Nat) (ns : List Int) (o : Options),
        truthy (getProp o.hash (jsStr "reverse")) = false →
        ∃ ms : List Int, ms.Perm ns ∧ ms.Sorted (fun m n => m ≤ n) ∧
          sort (.arr r (ns.map Val.num)) o = .ok (.arr r (ms.map Val.num))) := by
  intro h
  obtain ⟨ms, _, hs, he⟩ := h 1 [9, 10] ⟨fun _ _ => [], fun _ => [], []⟩ rfl
  have e : sort (.arr 1 ([9, 10].map Val.num)) ⟨fun _ _ => [], fun _ => [], []⟩
      = .ok (.arr 1 [.num 10, .num 9]) := rfl
  rw [e] at he
  simp only [Except.ok.injEq, Val.arr.injEq, true_and] at he
  match ms, he, hs with
  | [a, b], he, hs =>
    simp only [List.map, List.cons.injEq, Val.num.injEq, and_true] at he
    obtain ⟨ha, hb⟩ := he
    subst ha hb
    simp [List.Sorted] at hs
  | [], he, _ => simp at he
  | [_], he, _ => simp at he
  | _ :: _ :: _ :: _, he, _ => simp at he

/-- C10, amended: for a sequence of strings `sort` returns a permutation in
ascending code-unit lexicographic order, and with a truthy `reverse` flag
exactly the reversal of that ascending result; for a sequence of numbers the
same holds with the numbers ordered by their decimal text (not numerically);
in general the result is a permutation, ascending under the default
comparison `sortLE`. Witness: `sort(['b','a','c']) = ['a','b','c']`. -/
theorem sort_spec (r : Nat) (o : Options) :
    (∀ ss : List JSString, ∃ ts : List JSString, ts.Perm ss ∧
      ts.Sorted (fun s t => strLt t s = false) ∧
      sort (.arr r (ss.map Val.str)) o
        = .ok (.arr r ((if truthy (getProp o.hash (jsStr "reverse"))
            then ts.reverse else ts).map Val.str))) ∧
    (∀ ns : List Int, ∃ ms : List Int, ms.Perm ns ∧
      ms.Sorted (fun m n => strLt (intStr n) (intStr m) = false) ∧
      sort (.arr r (ns.map Val.num)) o
        = .ok (.arr r ((if truthy (getProp o.hash (jsStr "reverse"))
            then ms.reverse else ms).map Val.num))) ∧
    (∀ xs : List Val, ∃ ys : List Val, ys.Perm xs ∧
      ys.Sorted (fun a b => sortLE a b = true) ∧
      sort (.arr r xs) o
        = .ok (.arr r (if truthy (getProp o.hash (jsStr "reverse"))
            then ys.reverse else ys))) ∧
    sort (.arr 1 [.str (jsStr "b"), .str (jsStr "a"), .str (jsStr "c")])
        ⟨fun _ _ => [], fun _ => [], []⟩
      = .ok (.arr 1 [.str (jsStr "a"), .str (jsStr "b"), .str (jsStr "c")]) := by
  have hsort : ∀ xs : List Val, sort (.arr r xs) o
      = .ok (.arr r (if truthy (getProp o.hash (jsStr "reverse"))
          then (jsSort xs).reverse else jsSort xs)) := by
    intro xs
    by_cases hr : truthy (getProp o.hash (jsStr "reverse")) = true
    · simp [sort, utils.isUndefined, hr]
    · simp [sort, utils.isUndefined, hr]
  refine ⟨?_, ?_, ?_, rfl⟩
  · intro ss
    obtain ⟨ts, hp, hs, he⟩ := jsSort_map Val.str id (fun _ _ => rfl) ss
    refine ⟨ts, hp, hs, ?_⟩
    rw [hsort, he]
    split <;> simp
  · intro ns
    obtain ⟨ms, hp, hs, he⟩ := jsSort_map Val.num intStr (fun _ _ => rfl) ns
    refine ⟨ms, hp, hs, ?_⟩
    rw [hsort, he]
    split <;> simp
  · intro xs
    exact ⟨jsSort xs, jsSort_perm xs, jsSort_sorted xs, hsort xs⟩

/-! ## Sorting: idempotence -/

theorem strLt_antisymm (a : JSString) :
    ∀ b : JSString, strLt a b = false → strLt b a = false → a = b := by
  induction a with
  | nil => intro b; cases b <;> simp [strLt]
  | cons x a ih =>
    intro b
    cases b with
    | nil => simp [strLt]
    | cons y b =>
      simp only [strLt, Bool.or_eq_false_iff, decide_eq_false_iff_not, Bool.and_eq_false_imp,
        beq_iff_eq, List.cons.injEq]
      rintro ⟨h1, h2⟩ ⟨h3, h4⟩
      have e : x = y := by omega
      exact ⟨e, ih b (h2 e) (h4 e.symm)⟩

theorem digitsAux_value (fuel : Nat) :
    ∀ n : Nat, n < fuel →
      (digitsAux fuel n).foldl (fun acc d => acc * 10 + (d - 48)) 0 = n := by
  induction fuel with
  | zero => intro n h; omega
  | succ fuel ih =>
    intro n h
    by_cases h10 : n < 10
    · simp [digitsAux, h10]
    · have hlt : n / 10 < fuel := by omega
      simp only [digitsAux, h10, if_false, List.foldl_append, List.foldl_cons, List.foldl_nil]
      rw [ih (n / 10) hlt]
      omega

theorem digitsAux_ge (fuel : Nat) : ∀ n : Nat, ∀ d ∈ digitsAux fuel n, 48 ≤ d := by
  induction fuel with
  | zero => intro n d h; simp [digitsAux] at h
  | succ fuel ih =>
    intro n d h
    by_cases h10 : n < 10
    · simp [digitsAux, h10] at h; omega
    · simp only [digitsAux, h10, if_false, List.mem_append, List.mem_singleton] at h
      rcases h with h | h
      · exact ih _ d h
      · omega

theorem natStr_injective (a b : Nat) (h : natStr a = natStr b) : a = b := by
  have ha := digitsAux_value (a + 1) a (by omega)
  have hb := digitsAux_value (b + 1) b (by omega)
  unfold natStr at h
  rw [h] at ha
  omega

theorem intStr_injective (a b : Int) (h : intStr a = intStr b) : a = b := by
  cases a with
  | ofNat m =>
    cases b with
    | ofNat n => simp only [intStr] at h; rw [natStr_injective m n h]
    | negSucc n =>
      simp only [intStr] at h
      have := digitsAux_ge (m + 1) m 45 (by unfold natStr at h; rw [h]; simp)
      omega
  | negSucc m =>
    cases b with
    | ofNat n =>
      simp only [intStr] at h
      have := digitsAux_ge (n + 1) n 45 (by unfold natStr at h; rw [← h]; simp)
      omega
    | negSucc n =>
      simp only [intStr, List.cons.injEq, true_and] at h
      have := natStr_injective _ _ h
      have : m = n := by omega
      rw [this]

/-- Sorting the image of a list of keys: the default sort acts as the stable
sort of the keys by text. -/
theorem jsSort_map_eq {κ : Type} (f : κ → Val) (key : κ → JSString)
    (hf : ∀ a b, sortLE (f a) (f b) = !strLt (key b) (key a)) (ks : List κ) :
    jsSort (ks.map f)
      = (ks.insertionSort (fun a b => strLt (key b) (key a) = false)).map f := by
  unfold jsSort
  refine (List.map_insertionSort (fun a b => strLt (key b) (key a) = false)
    (fun a b => sortLE a b = true) f ks ?_).symm
  intro a _ b _
  show strLt (key b) (key a) = false ↔ sortLE (f a) (f b) = true
  rw [hf]
  simp

/-- With an injective key, re-sorting the sorted list or its reversal gives the
sorted list again. -/
theorem insertionSort_resort {κ : Type} (key : κ → JSString)
    (hinj : ∀ a b, key a = key b → a = b) (ks : List κ) (rev : Bool) :
    (if rev then (ks.insertionSort (fun a b => strLt (key b) (key a) = false)).reverse
      else ks.insertionSort (fun a b => strLt (key b) (key a) = false)).insertionSort
        (fun a b => strLt (key b) (key a) = false)
      = ks.insertionSort (fun a b => strLt (key b) (key a) = false) := by
  have htot : IsTotal κ (fun a b => strLt (key b) (key a) = false) :=
    ⟨fun a b => strLt_false_total (key a) (key b)⟩
  have htr : IsTrans κ (fun a b => strLt (key b) (key a) = false) :=
    ⟨fun a b c h1 h2 => strLt_false_trans (key a) (key b) (key c) h1 h2⟩
  have hanti : IsAntisymm κ (fun a b => strLt (key b) (key a) = false) :=
    ⟨fun a b h1 h2 => hinj a b (strLt_antisymm (key a) (key b) h2 h1)⟩
  have hs := @List.sorted_insertionSort κ (fun a b => strLt (key b) (key a) = false) _
    htot htr
  cases rev with
  | false => exact List.Sorted.insertionSort_eq (hs ks)
  | true =>
    simp only [if_true]
    refine @List.eq_of_perm_of_sorted κ (fun a b => strLt (key b) (key a) = false) hanti
      _ _ ?_ (hs _) (hs ks)
    exact (List.perm_insertionSort _ _).trans (List.reverse_perm _)

theorem sort_arr_eq (r : Nat) (xs : List Val) (o : Options) :
    sort (.arr r xs) o
      = .ok (.arr r (if truthy (getProp o.hash (jsStr "reverse"))
          then (jsSort xs).reverse else jsSort xs)) := by
  by_cases hr : truthy (getProp o.hash (jsStr "reverse")) = true
  · simp [sort, utils.isUndefined, hr]
  · simp [sort, utils.isUndefined, hr]

theorem sort_sort_keys {κ : Type} (f : κ → Val) (key : κ → JSString)
    (hf : ∀ a b, sortLE (f a) (f b) = !strLt (key b) (key a))
    (hinj : ∀ a b, key a = key b → a = b) (r : Nat) (o : Options) (ks : List κ) :
    ∃ v : Val, sort (.arr r (ks.map f)) o = .ok v ∧ sort v o = .ok v := by
  refine ⟨_, sort_arr_eq r _ o, ?_⟩
  rw [sort_arr_eq, jsSort_map_eq f key hf]
  have h := insertionSort_resort key hinj ks (truthy (getProp o.hash (jsStr "reverse")))
  have e : (if truthy (getProp o.hash (jsStr "reverse")) = true
        then ((ks.insertionSort (fun a b => strLt (key b) (key a) = false)).map f).reverse
        else (ks.insertionSort (fun a b => strLt (key b) (key a) = false)).map f)
      = (if truthy (getProp o.hash (jsStr "reverse")) = true
        then (ks.insertionSort (fun a b => strLt (key b) (key a) = false)).reverse
        else ks.insertionSort (fun a b => strLt (key b) (key a) = false)).map f := by
    split <;> simp
  rw [e, jsSort_map_eq f key hf, h, e]

/-- C11: `sort` is idempotent on sequences of mutually comparable elements:
for a sequence of strings and for a sequence of numbers, with or without the
`reverse` flag, `sort(s)` returns normally and sorting its result again (with
the same options) returns the same sequence. Example: `sort(['b','a','c'])`
is `['a','b','c']`, and sorting that again leaves it as it is. -/
theorem sort_idempotent (r : Nat) (o : Options) :
    (∀ ss : List JSString, ∃ v : Val,
      sort (.arr r (ss.map Val.str)) o = .ok v ∧ sort v o = .ok v) ∧
    (∀ ns : List Int, ∃ v : Val,
      sort (.arr r (ns.map Val.num)) o = .ok v ∧ sort v o = .ok v) ∧
    sort (.arr 1 [.str (jsStr "b"), .str (jsStr "a"), .str (jsStr "c")])
        ⟨fun _ _ => [], fun _ => [], []⟩
      = .ok (.arr 1 [.str (jsStr "a"), .str (jsStr "b"), .str (jsStr "c")]) ∧
    sort (.arr 1 [.str (jsStr "a"), .str (jsStr "b"), .str (jsStr "c")])
        ⟨fun _ _ => [], fun _ => [], []⟩
      = .ok (.arr 1 [.str (jsStr "a"), .str (jsStr "b"), .str (jsStr "c")]) :=
  ⟨fun ss => sort_sort_keys Val.str id (fun _ _ => rfl) (fun _ _ h => h) r o ss,
   fun ns => sort_sort_keys Val.num intStr (fun _ _ => rfl) intStr_injective r o ns,
   rfl, rfl⟩

/-! ## Sorting: `sortBy` and `withSort` -/

theorem sortBy_arr (tryParse : JSString → Val) (r : Nat) (xs : List Val) :
    sortBy tryParse [.arr r xs, .options] = .ok (.val (.arr r (jsSort xs))) := rfl

/-- C12, counterexample: with the `reverse` flag in the options, `sort` of
`['a','b']` is `['b','a']` while `sortBy` with no key argument ignores the
flag and gives `['a','b']`. -/
theorem sortBy_ignores_reverse :
    ¬ (∀ (tryParse : JSString → Val) (r : Nat) (xs : List Val) (o : Options),
        sortBy tryParse [.arr r xs, .options] = (sort (.arr r xs) o).map Ret.val) := by
  intro h
  have h1 := h (fun _ => .null) 1 [.str (jsStr "a"), .str (jsStr "b")]
    ⟨fun _ _ => [], fun _ => [], [(jsStr "reverse", .bool true)]⟩
  have e1 : sortBy (fun _ => .null) [.arr 1 [.str (jsStr "a"), .str (jsStr "b")], .options]
      = .ok (.val (.arr 1 [.str (jsStr "a"), .str (jsStr "b")])) := rfl
  have e2 : (sort (.arr 1 [.str (jsStr "a"), .str (jsStr "b")])
      ⟨fun _ _ => [], fun _ => [], [(jsStr "reverse", .bool true)]⟩).map Ret.val
      = .ok (.val (.arr 1 [.str (jsStr "b"), .str (jsStr "a")])) := rfl
  rw [e1, e2] at h1
  simp only [Except.ok.injEq, Ret.val.injEq, Val.arr.injEq, true_and, List.cons.injEq,
    Val.str.injEq, and_true] at h1
  exact absurd h1.1 (by decide)

/-- C12, amended: `sortBy(s)` with no key argument returns the same sequence,
in the same order, as `sort(s)` called without the `reverse` flag: the
sequence itself, sorted in place by the default order. -/
theorem sortBy_spec (tryParse : JSString → Val) (r : Nat) (xs : List Val) (o : Options)
    (h : truthy (getProp o.hash (jsStr "reverse")) = false) :
    sortBy tryParse [.arr r xs, .options] = (sort (.arr r xs) o).map Ret.val ∧
    sortBy tryParse [.arr r xs, .options] = .ok (.val (.arr r (jsSort xs))) := by
  rw [sort_arr_eq, h]
  exact ⟨rfl, rfl⟩

/-- C12, witness: `sortBy(['b','a','c'])` is `['a','b','c']`, as `sort` gives. -/
theorem sortBy_spec_witness :
    sortBy (fun _ => .null) [.arr 1 [.str (jsStr "b"), .str (jsStr "a"), .str (jsStr "c")],
        .options]
      = (sort (.arr 1 [.str (jsStr "b"), .str (jsStr "a"), .str (jsStr "c")])
          ⟨fun _ _ => [], fun _ => [], []⟩).map Ret.val ∧
    sortBy (fun _ => .null) [.arr 1 [.str (jsStr "b"), .str (jsStr "a"), .str (jsStr "c")],
        .options]
      = .ok (.val (.arr 1 (jsSort [.str (jsStr "b"), .str (jsStr "a"), .str (jsStr "c")]))) :=
  sortBy_spec (fun _ => .null) 1 [.str (jsStr "b"), .str (jsStr "a"), .str (jsStr "c")]
    ⟨fun _ _ => [], fun _ => [], []⟩ rfl

theorem insertionSort_congr {α : Type} (r s : α → α → Prop) [DecidableRel r] [DecidableRel s]
    (l : List α) (h : ∀ a ∈ l, ∀ b ∈ l, r a b ↔ s a b) :
    l.insertionSort r = l.insertionSort s := by
  have e := List.map_insertionSort r s id l h
  simpa using e

theorem orderedInsert_chain {α : Type} (r : α → α → Prop) [DecidableRel r]
    (htot : ∀ a b, r a b ∨ r b a) (a : α) :
    ∀ l : List α, l.Chain' r → (l.orderedInsert r a).Chain' r := by
  intro l
  induction l with
  | nil => intro _; simp
  | cons b l ih =>
    intro h
    by_cases hab : r a b
    · rw [List.orderedInsert_of_le r l hab]
      exact List.Chain'.cons hab h
    · have hba : r b a := (htot a b).resolve_left hab
      have e : (b :: l).orderedInsert r a = b :: l.orderedInsert r a := by
        simp [List.orderedInsert, hab]
      rw [e, List.chain'_cons']
      refine ⟨?_, ih h.tail⟩
      intro y hy
      cases l with
      | nil =>
        simp only [List.orderedInsert_nil, List.head?_cons, Option.mem_def,
          Option.some.injEq] at hy
        rw [← hy]; exact hba
      | cons c l =>
        by_cases hac : r a c
        · rw [List.orderedInsert_of_le r l hac] at hy
          simp only [List.head?_cons, Option.mem_def, Option.some.injEq] at hy
          rw [← hy]; exact hba
        · have e2 : (c :: l).orderedInsert r a = c :: l.orderedInsert r a := by
            simp [List.orderedInsert, hac]
          rw [e2] at hy
          simp only [List.head?_cons, Option.mem_def, Option.some.injEq] at hy
          rw [← hy]; exact (List.chain'_cons.1 h).1

/-- Insertion sort under a total relation leaves every element in relation
with its successor, whether or not the relation is transitive. -/
theorem insertionSort_chain {α : Type} (r : α → α → Prop) [DecidableRel r]
    (htot : ∀ a b, r a b ∨ r b a) :
    ∀ l : List α, (l.insertionSort r).Chain' r := by
  intro l
  induction l with
  | nil => simp
  | cons a l ih => exact orderedInsert_chain r htot a _ ih

theorem orderedInsert_sorted_of_mem {α : Type} (r : α → α → Prop) [DecidableRel r]
    (htot : ∀ a b, r a b ∨ r b a) (a : α) :
    ∀ l : List α, (∀ x ∈ a :: l, ∀ y ∈ a :: l, ∀ z ∈ a :: l, r x y → r y z → r x z) →
      l.Sorted r → (l.orderedInsert r a).Sorted r := by
  intro l
  induction l with
  | nil => intro _ _; simp
  | cons b l ih =>
    intro htr h
    have hb := List.sorted_cons.1 h
    by_cases hab : r a b
    · rw [List.orderedInsert_of_le r l hab]
      refine List.sorted_cons.2 ⟨?_, h⟩
      intro y hy
      rcases List.mem_cons.1 hy with e | hy'
      · rw [e]; exact hab
      · exact htr a (by simp) b (by simp) y (by simp [hy']) hab (hb.1 y hy')
    · have hba : r b a := (htot a b).resolve_left hab
      have e : (b :: l).orderedInsert r a = b :: l.orderedInsert r a := by
        simp [List.orderedInsert, hab]
      rw [e]
      refine List.sorted_cons.2 ⟨?_, ih ?_ hb.2⟩
      · intro y hy
        rcases (List.mem_orderedInsert r).1 hy with e | hy'
        · rw [e]; exact hba
        · exact hb.1 y hy'
      · intro x hx y hy z hz
        refine htr x ?_ y ?_ z ?_ <;>
          · simp only [List.mem_cons] at *
            tauto

/-- Insertion sort under a relation that is total and, on the elements of the
list, transitive gives a list in which every element is in relation with every
later one. -/
theorem insertionSort_sorted_of_mem {α : Type} (r : α → α → Prop) [DecidableRel r]
    (htot : ∀ a b, r a b ∨ r b a) :
    ∀ l : List α, (∀ x ∈ l, ∀ y ∈ l, ∀ z ∈ l, r x y → r y z → r x z) →
      (l.insertionSort r).Sorted r := by
  intro l
  induction l with
  | nil => intro _; simp
  | cons a l ih =>
    intro htr
    refine orderedInsert_sorted_of_mem r htot a _ ?_ (ih ?_)
    · intro x hx y hy z hz
      have hm : ∀ w, w ∈ a :: l.insertionSort r → w ∈ a :: l := by
        intro w hw
        rcases List.mem_cons.1 hw with e | hw'
        · rw [e]; simp
        · exact List.mem_cons_of_mem _ ((List.perm_insertionSort r l).mem_iff.1 hw')
      exact htr x (hm x hx) y (hm y hy) z (hm z hz)
    · intro x hx y hy z hz
      exact htr x (List.mem_cons_of_mem _ hx) y (List.mem_cons_of_mem _ hy)
        z (List.mem_cons_of_mem _ hz)

theorem withSort_arr_eq (r : Nat) (xs : List Val) (p : Val) (o : Options) :
    withSort (.arr r xs) p o
      = if utils.isUndefined p then
          .ok (renderEach o
            (if truthy (getProp o.hash (jsStr "reverse")) then (jsSort xs).reverse
              else jsSort xs) ⟨[], []⟩)
        else if xs.all (fun a => xs.all (fun b => (withSort.compare p a b).isSome)) then
          .ok (renderEach o
            (if truthy (getProp o.hash (jsStr "reverse"))
              then (sortWith (fun a b => (withSort.compare p a b).getD 0) xs).reverse
              else sortWith (fun a b => (withSort.compare p a b).getD 0) xs) ⟨[], []⟩)
        else .error .unsupported := rfl

theorem sortWith_perm (compareFn : Val → Val → Int) (xs : List Val) :
    (sortWith compareFn xs).Perm xs := by
  unfold sortWith
  have h := List.filter_append_perm (fun x : Val => !x.isUndef) xs
  simp only [Bool.not_not] at h
  exact ((List.perm_insertionSort _ _).append_right _).trans h

theorem jsLt_asymm (x y : Val) (h : jsLt x y = Option.some true) :
    jsLt y x ≠ Option.some true := by
  unfold jsLt at h ⊢
  cases hx : toPrim x <;> cases hy : toPrim y <;> rw [hx, hy] at h <;>
    simp only [Option.some.injEq, decide_eq_true_eq, ne_eq, reduceCtorEq,
      not_false_eq_true, Bool.false_eq_true] at h ⊢
  · intro h2; exact absurd h2 (by rw [strLt_asymm _ _ h]; decide)
  · omega

/-- Of two elements the comparator of `withSort` puts one not after the
other. -/
theorem withSort_compare_total (p a b : Val) :
    (withSort.compare p a b).getD 0 ≤ 0 ∨ (withSort.compare p b a).getD 0 ≤ 0 := by
  have hasym := jsLt_asymm (utils.get b p) (utils.get a p)
  simp only [withSort.compare]
  generalize jsLt (utils.get b p) (utils.get a p) = u at hasym ⊢
  generalize jsLt (utils.get a p) (utils.get b p) = v at hasym ⊢
  rcases u with _ | _ | _ <;> rcases v with _ | _ | _ <;> simp at hasym ⊢

theorem withSort_notAfter_iff (p a b : Val) (h : (withSort.compare p a b).isSome = true) :
    (withSort.compare p a b).getD 0 ≤ 0 ↔ withSort.notAfter p a b := by
  unfold withSort.notAfter
  obtain ⟨c, hc⟩ := Option.isSome_iff_exists.1 h
  rw [hc]
  simp

/-- What `withSort` renders when the property `p` is given: the elements that
are not `undefined`, each one put not after its successor by the comparator
(and not after any later element when the comparator is transitive on the
elements), followed by the `undefined` elements. -/
theorem withSort_by_property (r : Nat) (xs : List Val) (p : Val) (o : Options)
    (hp : utils.isUndefined p = false)
    (hsup : ∀ a ∈ xs, ∀ b ∈ xs, (withSort.compare p a b).isSome = true) :
    ∃ ds : List Val, ds.Perm (xs.filter (fun x => !x.isUndef)) ∧
      ds.Chain' (withSort.notAfter p) ∧
      ((∀ a ∈ xs, ∀ b ∈ xs, ∀ c ∈ xs, withSort.notAfter p a b → withSort.notAfter p b c →
          withSort.notAfter p a c) → ds.Sorted (withSort.notAfter p)) ∧
      withSort (.arr r xs) p o
        = .ok ⟨(if truthy (getProp o.hash (jsStr "reverse"))
                then (ds ++ xs.filter (fun x => x.isUndef)).reverse
                else ds ++ xs.filter (fun x => x.isUndef)).flatMap (fun e => o.fn e none),
              (if truthy (getProp o.hash (jsStr "reverse"))
                then (ds ++ xs.filter (fun x => x.isUndef)).reverse
                else ds ++ xs.filter (fun x => x.isUndef)).map
                  (fun e => Call.primary e none)⟩ := by
  have hperm := List.perm_insertionSort (fun a b => (withSort.compare p a b).getD 0 ≤ 0)
    (xs.filter (fun x => !x.isUndef))
  have hsub : ∀ a, a ∈ xs.filter (fun x => !x.isUndef) → a ∈ xs :=
    fun a ha => (List.mem_filter.1 ha).1
  have hmem : ∀ a, a ∈ (xs.filter (fun x => !x.isUndef)).insertionSort
      (fun a b => (withSort.compare p a b).getD 0 ≤ 0) → a ∈ xs :=
    fun a ha => hsub a (hperm.mem_iff.1 ha)
  refine ⟨(xs.filter (fun x => !x.isUndef)).insertionSort
    (fun a b => (withSort.compare p a b).getD 0 ≤ 0), hperm, ?_, ?_, ?_⟩
  · have hc := insertionSort_chain (fun a b => (withSort.compare p a b).getD 0 ≤ 0)
      (withSort_compare_total p) (xs.filter (fun x => !x.isUndef))
    rw [List.Chain'.iff_mem] at hc
    exact hc.imp (fun a b h =>
      (withSort_notAfter_iff p a b (hsup a (hmem a h.1) b (hmem b h.2.1))).1 h.2.2)
  · intro htr
    have hs := insertionSort_sorted_of_mem (fun a b => (withSort.compare p a b).getD 0 ≤ 0)
      (withSort_compare_total p) (xs.filter (fun x => !x.isUndef))
      (fun x hx y hy z hz h1 h2 =>
        (withSort_notAfter_iff p x z (hsup x (hsub x hx) z (hsub z hz))).2
          (htr x (hsub x hx) y (hsub y hy) z (hsub z hz)
            ((withSort_notAfter_iff p x y (hsup x (hsub x hx) y (hsub y hy))).1 h1)
            ((withSort_notAfter_iff p y z (hsup y (hsub y hy) z (hsub z hz))).1 h2)))
    exact List.Pairwise.imp_of_mem (fun {a b} ha hb hab =>
      (withSort_notAfter_iff p a b (hsup a (hmem a ha) b (hmem b hb))).1 hab) hs
  · have hall : xs.all (fun a => xs.all (fun b => (withSort.compare p a b).isSome)) = true := by
      rw [List.all_eq_true]
      intro a ha
      rw [List.all_eq_true]
      intro b hb
      exact hsup a ha b hb
    rw [withSort_arr_eq, hp, hall]
    simp only [renderEach_eq, List.nil_append]
    rfl

theorem withSort_compare_num (p a b : Val) (m n : Int)
    (ha : utils.get a p = .num m) (hb : utils.get b p = .num n) :
    withSort.compare p a b = Option.some (if n < m then 1 else if m < n then -1 else 0) := by
  have e1 : jsLt (.num n) (.num m) = Option.some (decide (n < m)) := rfl
  have e2 : jsLt (.num m) (.num n) = Option.some (decide (m < n)) := rfl
  simp only [withSort.compare, ha, hb, e1, e2]
  by_cases h1 : n < m
  · simp [h1]
  · by_cases h2 : m < n
    · simp [h1, h2]
    · simp [h1, h2]

theorem withSort_compare_str (p a b : Val) (s t : JSString)
    (ha : utils.get a p = .str s) (hb : utils.get b p = .str t) :
    withSort.compare p a b
      = Option.some (if strLt t s then 1 else if strLt s t then -1 else 0) := by
  have e1 : jsLt (.str t) (.str s) = Option.some (strLt t s) := rfl
  have e2 : jsLt (.str s) (.str t) = Option.some (strLt s t) := rfl
  simp only [withSort.compare, ha, hb, e1, e2]
  cases h1 : strLt t s
  · cases h2 : strLt s t <;> simp
  · simp

theorem withSort_notAfter_num (p a b : Val) (m n : Int)
    (ha : utils.get a p = .num m) (hb : utils.get b p = .num n) :
    withSort.notAfter p a b ↔ m ≤ n := by
  unfold withSort.notAfter
  rw [withSort_compare_num p a b m n ha hb]
  by_cases h1 : n < m
  · simp [h1]
  · by_cases h2 : m < n
    · simp [h1, h2]; omega
    · simp [h1, h2]; omega

theorem withSort_notAfter_str (p a b : Val) (s t : JSString)
    (ha : utils.get a p = .str s) (hb : utils.get b p = .str t) :
    withSort.notAfter p a b ↔ strLt t s = false := by
  unfold withSort.notAfter
  rw [withSort_compare_str p a b s t ha hb]
  cases h1 : strLt t s
  · cases h2 : strLt s t <;> simp
  · simp

/-- An element with a property (a value other than `undefined` for it) is not
`undefined`. -/
theorem isUndef_of_get (x p : Val) (h : utils.get x p ≠ .undefined) : x.isUndef = false := by
  cases x <;> first | rfl | exact absurd rfl h

theorem filter_isUndef_of_get (xs : List Val) (p : Val)
    (h : ∀ x ∈ xs, utils.get x p ≠ .undefined) :
    xs.filter (fun x => !x.isUndef) = xs ∧ xs.filter (fun x => x.isUndef) = [] := by
  constructor
  · rw [List.filter_eq_self]
    intro x hx
    rw [isUndef_of_get x p (h x hx)]
    rfl
  · rw [List.filter_eq_nil_iff]
    intro x hx
    rw [isUndef_of_get x p (h x hx)]
    decide

theorem withSort_counts (r : Nat) (xs : List Val) (p : Val) (o : Options) (run : Run)
    (h : withSort (.arr r xs) p o = .ok run) :
    primaryCount run.calls = xs.length ∧ inverseCount run.calls = 0 := by
  rw [withSort_arr_eq] at h
  have key : ∀ L : List Val, L.length = xs.length →
      Except.ok (renderEach o L ⟨[], []⟩) = Except.ok (ε := Err) run →
      primaryCount run.calls = xs.length ∧ inverseCount run.calls = 0 := by
    intro L hL he
    simp only [Except.ok.injEq] at he
    rw [← he, renderEach_eq]
    simp only [List.nil_append]
    rw [primaryCount_map_primary, inverseCount_map_primary, hL]
    exact ⟨rfl, rfl⟩
  split at h
  · refine key _ ?_ h
    split <;> simp [jsSort, List.length_insertionSort]
  · split at h
    · refine key _ ?_ h
      split <;> simp [(sortWith_perm _ xs).length_eq]
    · cases h

/-- C13, counterexample: it is not the case that `withSort` with no property
renders every sequence of numbers in ascending numeric order: `withSort([9, 10])`
renders `10` and then `9`. -/
theorem withSort_numbers_not_numeric :
    ¬ (∀ (r : Nat) (ns : List Int) (o : Options),
        truthy (getProp o.hash (jsStr "reverse")) = false →
        ∃ ms : List Int, ms.Perm ns ∧ ms.Sorted (fun m n => m ≤ n) ∧
          withSort (.arr r (ns.map Val.num)) .options o
            = .ok ⟨ms.flatMap (fun n => o.fn (.num n) none),
                  ms.map (fun n => Call.primary (.num n) none)⟩) := by
  intro h
  obtain ⟨ms, _, hs, he⟩ := h 1 [9, 10] ⟨fun v _ => v.toStr, fun _ => [], []⟩ rfl
  have e : withSort (.arr 1 ([9, 10].map Val.num)) .options
      ⟨fun v _ => v.toStr, fun _ => [], []⟩
      = .ok ⟨jsStr "109", [Call.primary (.num 10) none, Call.primary (.num 9) none]⟩ := rfl
  rw [e] at he
  simp only [Except.ok.injEq, Run.mk.injEq] at he
  have hc := he.2
  match ms, hc, hs with
  | [a, b], hc, hs =>
    simp only [List.map, List.cons.injEq, Call.primary.injEq, Val.num.injEq, and_true] at hc
    obtain ⟨ha, hb⟩ := hc
    subst ha hb
    simp [List.Sorted] at hs
  | [], hc, _ => simp at hc
  | [_], hc, _ => simp at hc
  | _ :: _ :: _ :: _, hc, _ => simp at hc

/-- C13, amended: `withSort(s)` renders the primary body once per element of
`s` and never the inverse, and returns the concatenation of the renderings,
taken in the order below and, with a truthy `reverse` flag, in exactly the
reverse of it. With no property (the options object or `undefined` in its
place) the order is that of `sort`: a sequence of strings in ascending
code-unit order, a sequence of numbers in ascending order of their decimal
text (not numerically), in general ascending under the default comparison
`sortLE`. With a property, the elements that are `undefined` come last and
the others come first, each one put not after its successor by the three-way
comparator on the property values, and not after any later element when the
comparator is transitive on the elements; so for property values that are all
numbers the order is ascending numerically, and for values that are all
strings ascending by code units. Witness: `withSort(['b','a','c'])` renders
`a`, `b`, `c`, and `c`, `b`, `a` with `reverse`. -/
theorem withSort_spec (r : Nat) (xs : List Val) (o : Options) :
    (∀ ss : List JSString, ∃ ts : List JSString, ts.Perm ss ∧
      ts.Sorted (fun s t => strLt t s = false) ∧
      withSort (.arr r (ss.map Val.str)) .options o
        = .ok ⟨((if truthy (getProp o.hash (jsStr "reverse")) then ts.reverse
                else ts).map Val.str).flatMap (fun e => o.fn e none),
              ((if truthy (getProp o.hash (jsStr "reverse")) then ts.reverse
                else ts).map Val.str).map (fun e => Call.primary e none)⟩) ∧
    (∀ ns : List Int, ∃ ms : List Int, ms.Perm ns ∧
      ms.Sorted (fun m n => strLt (intStr n) (intStr m) = false) ∧
      withSort (.arr r (ns.map Val.num)) .options o
        = .ok ⟨((if truthy (getProp o.hash (jsStr "reverse")) then ms.reverse
                else ms).map Val.num).flatMap (fun e => o.fn e none),
              ((if truthy (getProp o.hash (jsStr "reverse")) then ms.reverse
                else ms).map Val.num).map (fun e => Call.primary e none)⟩) ∧
    (∃ ys : List Val, ys.Perm xs ∧ ys.Sorted (fun a b => sortLE a b = true) ∧
      withSort (.arr r xs) .options o
        = .ok ⟨(if truthy (getProp o.hash (jsStr "reverse")) then ys.reverse
                else ys).flatMap (fun e => o.fn e none),
              (if truthy (getProp o.hash (jsStr "reverse")) then ys.reverse
                else ys).map (fun e => Call.primary e none)⟩ ∧
      withSort (.arr r xs) .undefined o = withSort (.arr r xs) .options o) ∧
    (∀ p : Val, utils.isUndefined p = false →
      (∀ a ∈ xs, ∀ b ∈ xs, (withSort.compare p a b).isSome = true) →
      ∃ ds : List Val, ds.Perm (xs.filter (fun x => !x.isUndef)) ∧
        ds.Chain' (withSort.notAfter p) ∧
        ((∀ a ∈ xs, ∀ b ∈ xs, ∀ c ∈ xs, withSort.notAfter p a b →
            withSort.notAfter p b c → withSort.notAfter p a c) →
          ds.Sorted (withSort.notAfter p)) ∧
        withSort (.arr r xs) p o
          = .ok ⟨(if truthy (getProp o.hash (jsStr "reverse"))
                  then (ds ++ xs.filter (fun x => x.isUndef)).reverse
                  else ds ++ xs.filter (fun x => x.isUndef)).flatMap
                    (fun e => o.fn e none),
                (if truthy (getProp o.hash (jsStr "reverse"))
                  then (ds ++ xs.filter (fun x => x.isUndef)).reverse
                  else ds ++ xs.filter (fun x => x.isUndef)).map
                    (fun e => Call.primary e none)⟩) ∧
    (∀ p : Val, utils.isUndefined p = false →
      (∀ x ∈ xs, ∃ n : Int, utils.get x p = .num n) →
      ∃ ys : List Val, ys.Perm xs ∧
        ys.Sorted (fun a b => ∃ m n : Int,
          utils.get a p = .num m ∧ utils.get b p = .num n ∧ m ≤ n) ∧
        withSort (.arr r xs) p o
          = .ok ⟨(if truthy (getProp o.hash (jsStr "reverse")) then ys.reverse
                  else ys).flatMap (fun e => o.fn e none),
                (if truthy (getProp o.hash (jsStr "reverse")) then ys.reverse
                  else ys).map (fun e => Call.primary e none)⟩) ∧
    (∀ p : Val, utils.isUndefined p = false →
      (∀ x ∈ xs, ∃ s : JSString, utils.get x p = .str s) →
      ∃ ys : List Val, ys.Perm xs ∧
        ys.Sorted (fun a b => ∃ s t : JSString,
          utils.get a p = .str s ∧ utils.get b p = .str t ∧ strLt t s = false) ∧
        withSort (.arr r xs) p o
          = .ok ⟨(if truthy (getProp o.hash (jsStr "reverse")) then ys.reverse
                  else ys).flatMap (fun e => o.fn e none),
                (if truthy (getProp o.hash (jsStr "reverse")) then ys.reverse
                  else ys).map (fun e => Call.primary e none)⟩) ∧
    (∀ (p : Val) (run : Run), withSort (.arr r xs) p o = .ok run →
      primaryCount run.calls = xs.length ∧ inverseCount run.calls = 0) ∧
    withSort (.arr 1 [.str (jsStr "b"), .str (jsStr "a"), .str (jsStr "c")]) .options
        ⟨fun v _ => v.toStr, fun _ => [], []⟩
      = .ok ⟨jsStr "abc", [Call.primary (.str (jsStr "a")) none,
          Call.primary (.str (jsStr "b")) none, Call.primary (.str (jsStr "c")) none]⟩ ∧
    withSort (.arr 1 [.str (jsStr "b"), .str (jsStr "a"), .str (jsStr "c")]) .options
        ⟨fun v _ => v.toStr, fun _ => [], [(jsStr "reverse", .bool true)]⟩
      = .ok ⟨jsStr "cba", [Call.primary (.str (jsStr "c")) none,
          Call.primary (.str (jsStr "b")) none, Call.primary (.str (jsStr "a")) none]⟩ := by
  have hnat : ∀ ys : List Val, withSort (.arr r ys) .options o
      = .ok ⟨(if truthy (getProp o.hash (jsStr "reverse")) then (jsSort ys).reverse
              else jsSort ys).flatMap (fun e => o.fn e none),
            (if truthy (getProp o.hash (jsStr "reverse")) then (jsSort ys).reverse
              else jsSort ys).map (fun e => Call.primary e none)⟩ := by
    intro ys
    rw [withSort_arr_eq]
    simp [utils.isUndefined, renderEach_eq]
  refine ⟨?_, ?_, ?_, fun p hp hsup => withSort_by_property r xs p o hp hsup, ?_, ?_,
    fun p run h => withSort_counts r xs p o run h, rfl, rfl⟩
  · intro ss
    obtain ⟨ts, hp, hs, he⟩ := jsSort_map Val.str id (fun _ _ => rfl) ss
    refine ⟨ts, hp, hs, ?_⟩
    rw [hnat, he]
    split <;> simp
  · intro ns
    obtain ⟨ms, hp, hs, he⟩ := jsSort_map Val.num intStr (fun _ _ => rfl) ns
    refine ⟨ms, hp, hs, ?_⟩
    rw [hnat, he]
    split <;> simp
  · exact ⟨jsSort xs, jsSort_perm xs, jsSort_sorted xs, hnat xs, rfl⟩
  · intro p hp hn
    have hdef := filter_isUndef_of_get xs p (fun x hx => by
      obtain ⟨n, e⟩ := hn x hx
      rw [e]
      simp)
    obtain ⟨ds, hperm, _, hs, he⟩ := withSort_by_property r xs p o hp
      (fun a ha b hb => by
        obtain ⟨m, hm⟩ := hn a ha
        obtain ⟨n, hn'⟩ := hn b hb
        rw [withSort_compare_num p a b m n hm hn']
        rfl)
    rw [hdef.1] at hperm
    rw [hdef.2, List.append_nil] at he
    refine ⟨ds, hperm, ?_, he⟩
    refine List.Pairwise.imp_of_mem ?_ (hs ?_)
    · intro a b ha hb hab
      obtain ⟨m, hm⟩ := hn a (hperm.mem_iff.1 ha)
      obtain ⟨n, hn'⟩ := hn b (hperm.mem_iff.1 hb)
      exact ⟨m, n, hm, hn', (withSort_notAfter_num p a b m n hm hn').1 hab⟩
    · intro a ha b hb c hc h1 h2
      obtain ⟨m, hm⟩ := hn a ha
      obtain ⟨n, hn'⟩ := hn b hb
      obtain ⟨k, hk⟩ := hn c hc
      rw [withSort_notAfter_num p a b m n hm hn'] at h1
      rw [withSort_notAfter_num p b c n k hn' hk] at h2
      rw [withSort_notAfter_num p a c m k hm hk]
      omega
  · intro p hp hn
    have hdef := filter_isUndef_of_get xs p (fun x hx => by
      obtain ⟨n, e⟩ := hn x hx
      rw [e]
      simp)
    obtain ⟨ds, hperm, _, hs, he⟩ := withSort_by_property r xs p o hp
      (fun a ha b hb => by
        obtain ⟨m, hm⟩ := hn a ha
        obtain ⟨n, hn'⟩ := hn b hb
        rw [withSort_compare_str p a b m n hm hn']
        rfl)
    rw [hdef.1] at hperm
    rw [hdef.2, List.append_nil] at he
    refine ⟨ds, hperm, ?_, he⟩
    refine List.Pairwise.imp_of_mem ?_ (hs ?_)
    · intro a b ha hb hab
      obtain ⟨m, hm⟩ := hn a (hperm.mem_iff.1 ha)
      obtain ⟨n, hn'⟩ := hn b (hperm.mem_iff.1 hb)
      exact ⟨m, n, hm, hn', (withSort_notAfter_str p a b m n hm hn').1 hab⟩
    · intro a ha b hb c hc h1 h2
      obtain ⟨m, hm⟩ := hn a ha
      obtain ⟨n, hn'⟩ := hn b hb
      obtain ⟨k, hk⟩ := hn c hc
      rw [withSort_notAfter_str p a b m n hm hn'] at h1
      rw [withSort_notAfter_str p b c n k hn' hk] at h2
      rw [withSort_notAfter_str p a c m k hm hk]
      exact strLt_false_trans _ _ _ h1 h2

/-- C13, witness: `withSort([{n:10}, undefined, {n:9}], "n")` renders the
element with 9, the one with 10, and the `undefined` element last;
`withSort([{n:10},{n:9}], "n")` and `withSort([{k:'b'},{k:'a'}], "k")` render
in ascending order of the property, with one primary invocation per element. -/
theorem withSort_spec_witness :
    (∃ ds : List Val,
      ds.Perm ([.obj 1 [(jsStr "n", .num 10)], .undefined,
        .obj 2 [(jsStr "n", .num 9)]].filter (fun x => !x.isUndef)) ∧
      ds.Chain' (withSort.notAfter (.str (jsStr "n"))) ∧
      ((∀ a ∈ [Val.obj 1 [(jsStr "n", .num 10)], .undefined, .obj 2 [(jsStr "n", .num 9)]],
          ∀ b ∈ [Val.obj 1 [(jsStr "n", .num 10)], .undefined, .obj 2 [(jsStr "n", .num 9)]],
          ∀ c ∈ [Val.obj 1 [(jsStr "n", .num 10)], .undefined, .obj 2 [(jsStr "n", .num 9)]],
          withSort.notAfter (.str (jsStr "n")) a b →
          withSort.notAfter (.str (jsStr "n")) b c →
          withSort.notAfter (.str (jsStr "n")) a c) →
        ds.Sorted (withSort.notAfter (.str (jsStr "n")))) ∧
      withSort (.arr 0 [.obj 1 [(jsStr "n", .num 10)], .undefined,
            .obj 2 [(jsStr "n", .num 9)]])
          (.str (jsStr "n")) ⟨fun _ _ => jsStr "x", fun _ => [], []⟩
        = .ok ⟨(ds ++ [Val.obj 1 [(jsStr "n", .num 10)], .undefined,
                .obj 2 [(jsStr "n", .num 9)]].filter (fun x => x.isUndef)).flatMap
                  (fun _ => jsStr "x"),
              (ds ++ [Val.obj 1 [(jsStr "n", .num 10)], .undefined,
                .obj 2 [(jsStr "n", .num 9)]].filter (fun x => x.isUndef)).map
                  (fun e => Call.primary e none)⟩) ∧
    (∃ ys : List Val, ys.Perm [.obj 1 [(jsStr "n", .num 10)], .obj 2 [(jsStr "n", .num 9)]] ∧
      ys.Sorted (fun a b => ∃ m n : Int,
        utils.get a (.str (jsStr "n")) = .num m ∧
        utils.get b (.str (jsStr "n")) = .num n ∧ m ≤ n) ∧
      withSort (.arr 0 [.obj 1 [(jsStr "n", .num 10)], .obj 2 [(jsStr "n", .num 9)]])
          (.str (jsStr "n")) ⟨fun _ _ => jsStr "x", fun _ => [], []⟩
        = .ok ⟨ys.flatMap (fun _ => jsStr "x"), ys.map (fun e => Call.primary e none)⟩) ∧
    (∃ ys : List Val, ys.Perm [.obj 1 [(jsStr "k", .str (jsStr "b"))],
        .obj 2 [(jsStr "k", .str (jsStr "a"))]] ∧
      ys.Sorted (fun a b => ∃ s t : JSString,
        utils.get a (.str (jsStr "k")) = .str s ∧
        utils.get b (.str (jsStr "k")) = .str t ∧ strLt t s = false) ∧
      withSort (.arr 0 [.obj 1 [(jsStr "k", .str (jsStr "b"))],
            .obj 2 [(jsStr "k", .str (jsStr "a"))]])
          (.str (jsStr "k")) ⟨fun _ _ => jsStr "x", fun _ => [], []⟩
        = .ok ⟨ys.flatMap (fun _ => jsStr "x"), ys.map (fun e => Call.primary e none)⟩) ∧
    primaryCount [Call.primary (.obj 2 [(jsStr "n", .num 9)]) none,
        Call.primary (.obj 1 [(jsStr "n", .num 10)]) none, Call.primary .undefined none] = 3 ∧
    inverseCount [Call.primary (.obj 2 [(jsStr "n", .num 9)]) none,
        Call.primary (.obj 1 [(jsStr "n", .num 10)]) none, Call.primary .undefined none] = 0 :=
  ⟨(withSort_spec 0 [.obj 1 [(jsStr "n", .num 10)], .undefined, .obj 2 [(jsStr "n", .num 9)]]
      ⟨fun _ _ => jsStr "x", fun _ => [], []⟩).2.2.2.1 (.str (jsStr "n")) rfl
      (by
        intro a ha b hb
        simp only [List.mem_cons, List.mem_singleton, List.mem_nil_iff, or_false] at ha hb
        rcases ha with h | h | h <;> rcases hb with h2 | h2 | h2 <;> rw [h, h2] <;> rfl),
   (withSort_spec 0 [.obj 1 [(jsStr "n", .num 10)], .obj 2 [(jsStr "n", .num 9)]]
      ⟨fun _ _ => jsStr "x", fun _ => [], []⟩).2.2.2.2.1 (.str (jsStr "n")) rfl
      (by
        intro x hx
        simp only [List.mem_cons, List.mem_singleton, List.mem_nil_iff, or_false] at hx
        rcases hx with h | h
        · exact ⟨10, by rw [h]; rfl⟩
        · exact ⟨9, by rw [h]; rfl⟩),
   (withSort_spec 0 [.obj 1 [(jsStr "k", .str (jsStr "b"))],
        .obj 2 [(jsStr "k", .str (jsStr "a"))]]
      ⟨fun _ _ => jsStr "x", fun _ => [], []⟩).2.2.2.2.2.1 (.str (jsStr "k")) rfl
      (by
        intro x hx
        simp only [List.mem_cons, List.mem_singleton, List.mem_nil_iff, or_false] at hx
        rcases hx with h | h
        · exact ⟨jsStr "b", by rw [h]; rfl⟩
        · exact ⟨jsStr "a", by rw [h]; rfl⟩),
   (withSort_spec 0 [.obj 1 [(jsStr "n", .num 10)], .undefined, .obj 2 [(jsStr "n", .num 9)]]
      ⟨fun _ _ => jsStr "x", fun _ => [], []⟩).2.2.2.2.2.2.1 (.str (jsStr "n"))
      ⟨jsStr "xxx", [Call.primary (.obj 2 [(jsStr "n", .num 9)]) none,
        Call.primary (.obj 1 [(jsStr "n", .num 10)]) none, Call.primary .undefined none]⟩ rfl⟩

/-! ## Collections: `length`, `isEmpty` -/

theorem objectKeys_isEmpty (ps : Props) : (objectKeys ps).isEmpty = ps.isEmpty := by
  cases ps with
  | nil => rfl
  | cons p rest =>
    have h : objectKeys (p :: rest) ≠ [] := by
      intro h0
      have hm : p.1 ∈ objectKeys (p :: rest) := by
        unfold objectKeys
        rw [List.mem_dedup]
        simp
      rw [h0] at hm
      simp at hm
    cases hk : objectKeys (p :: rest) with
    | nil => exact absurd hk h
    | cons a l => rfl

/-- C14: `length` of a sequence is its element count; of a text that is the
bracket literal of a sequence `s` (it contains `[` and `utils.tryParse` reads
it as `s`) the same count as `length(s)`; of a mapping the number of its own
keys; and of an absent value the empty text, not zero. -/
theorem length_spec (tryParse : JSString → Val) :
    (∀ (r : Nat) (xs : List Val), length tryParse (.arr r xs) = .num xs.length) ∧
    (∀ (t : JSString) (r : Nat) (xs : List Val), 91 ∈ t → tryParse t = .arr r xs →
      length tryParse (.str t) = length tryParse (.arr r xs) ∧
      length tryParse (.str t) = .num xs.length) ∧
    (∀ (r : Nat) (ps : Props), length tryParse (.obj r ps) = .num (objectKeys ps).length) ∧
    length tryParse .undefined = .str [] ∧
    length tryParse .null = .str [] := by
  refine ⟨fun r xs => rfl, ?_, fun r ps => rfl, rfl, rfl⟩
  intro t r xs ht hp
  have hne : t.isEmpty = false := by
    cases t with
    | nil => simp at ht
    | cons a l => rfl
  have e : length tryParse (.str t) = .num xs.length := by
    simp only [length, truthy, hne, utils.isUndefined, Bool.not_false, Bool.not_true,
      Bool.or_self, Bool.false_eq_true, if_false, ht, if_true, hp, Val.lengthOf]
  exact ⟨e, e⟩

/-- C14, witness: with a parser that reads the text `["a","b","c"]` as the
sequence `['a','b','c']`, `length` of the text and of the sequence are both 3. -/
theorem length_spec_witness :
    length (fun s => if s = [91, 34, 97, 34, 44, 34, 98, 34, 44, 34, 99, 34, 93]
          then .arr 0 [.str (jsStr "a"), .str (jsStr "b"), .str (jsStr "c")] else .null)
        (.str [91, 34, 97, 34, 44, 34, 98, 34, 44, 34, 99, 34, 93])
      = length (fun s => if s = [91, 34, 97, 34, 44, 34, 98, 34, 44, 34, 99, 34, 93]
          then .arr 0 [.str (jsStr "a"), .str (jsStr "b"), .str (jsStr "c")] else .null)
        (.arr 0 [.str (jsStr "a"), .str (jsStr "b"), .str (jsStr "c")]) ∧
    length (fun s => if s = [91, 34, 97, 34, 44, 34, 98, 34, 44, 34, 99, 34, 93]
          then .arr 0 [.str (jsStr "a"), .str (jsStr "b"), .str (jsStr "c")] else .null)
        (.str [91, 34, 97, 34, 44, 34, 98, 34, 44, 34, 99, 34, 93])
      = .num 3 :=
  (length_spec (fun s => if s = [91, 34, 97, 34, 44, 34, 98, 34, 44, 34, 99, 34, 93]
      then .arr 0 [.str (jsStr "a"), .str (jsStr "b"), .str (jsStr "c")] else .null)).2.1
    [91, 34, 97, 34, 44, 34, 98, 34, 44, 34, 99, 34, 93] 0
    [.str (jsStr "a"), .str (jsStr "b"), .str (jsStr "c")] (by decide) rfl

theorem isEmpty_arr (this : Val) (r : Nat) (xs : List Val) (o : Options) :
    isEmpty this (.arr r xs) o
      = .ok (if xs.isEmpty then ⟨o.fn this none, [Call.primary this none]⟩
          else ⟨o.inverse this, [Call.inverse this]⟩) := by
  cases xs with
  | nil => rfl
  | cons x rest => rfl

theorem isEmpty_obj (this : Val) (r : Nat) (ps : Props) (o : Options) :
    isEmpty this (.obj r ps) o
      = .ok (if (objectKeys ps).isEmpty then ⟨o.fn this none, [Call.primary this none]⟩
          else ⟨o.inverse this, [Call.inverse this]⟩) := by
  have e : isEmpty this (.obj r ps) o
      = (if (true && (objectKeys ps).length == 0) = true
          then .ok ⟨o.fn this none, [Call.primary this none]⟩
          else .ok ⟨o.inverse this, [Call.inverse this]⟩) := rfl
  rw [e]
  cases hk : objectKeys ps with
  | nil => rfl
  | cons a l => rfl

/-- C15: on a sequence `isEmpty` renders the primary body when the length is
0 and the inverse body otherwise; on a mapping it renders the primary body
when the mapping has zero own keys and the inverse body otherwise; in each
case exactly one renderer is invoked, exactly once. -/
theorem isEmpty_spec (this : Val) (r : Nat) (o : Options) :
    (∀ xs : List Val, isEmpty this (.arr r xs) o
      = .ok (if xs.length = 0 then ⟨o.fn this none, [Call.primary this none]⟩
          else ⟨o.inverse this, [Call.inverse this]⟩)) ∧
    (∀ ps : Props, isEmpty this (.obj r ps) o
      = .ok (if (objectKeys ps).length = 0 then ⟨o.fn this none, [Call.primary this none]⟩
          else ⟨o.inverse this, [Call.inverse this]⟩)) ∧
    (∀ ps : Props, (objectKeys ps).length = 0 ↔ ps = []) ∧
    primaryCount [Call.primary this none] + inverseCount [Call.primary this none] = 1 ∧
    primaryCount [Call.inverse this] + inverseCount [Call.inverse this] = 1 := by
  refine ⟨?_, ?_, ?_, rfl, rfl⟩
  · intro xs
    rw [isEmpty_arr]
    cases xs <;> rfl
  · intro ps
    rw [isEmpty_obj]
    cases objectKeys ps <;> rfl
  · intro ps
    have h := objectKeys_isEmpty ps
    cases ps with
    | nil => simp [objectKeys]
    | cons p rest =>
      cases hk : objectKeys (p :: rest) with
      | nil => rw [hk] at h; simp at h
      | cons a l => simp

/-- C16, the failing input: `isEmpty(undefined)` raises a `TypeError` (from
`Object.keys(undefined)`) instead of rendering the inverse body; `filter`,
`inArray` and `some` on `undefined` do render the inverse body, once, and
never the primary one. -/
theorem isEmpty_undefined_raises (this v : Val) (cb : Val → Nat → Val → Val) (o : Options) :
    isEmpty this .undefined o = .error .typeError ∧
    filter this .undefined v o = .ok ⟨o.inverse this, [Call.inverse this]⟩ ∧
    inArray this .undefined v o = .ok ⟨o.inverse this, [Call.inverse this]⟩ ∧
    some this .undefined cb o = .ok ⟨o.inverse this, [Call.inverse this]⟩ := by
  refine ⟨rfl, ?_, rfl, rfl⟩
  by_cases hp : truthy (getProp o.hash (jsStr "property")) = true
  · simp [filter, hp, utils.filter, bind, Except.bind]
  · simp [filter, hp, utils.filter, bind, Except.bind]

/-! ## Block windowing: `withAfter`, `withBefore`, `withFirst`, `withLast` -/

/-- On an empty or absent sequence `withFirst` returns the empty text and
invokes no renderer, with `idx` given or omitted; `withLast` does so on an
absent sequence, and on an empty one when `idx` is a number. -/
theorem withFirst_withLast_fail_soft (r : Nat) (idx : Val) (k : Int) (o : Options) :
    withFirst (.arr r []) idx o = .ok ⟨[], []⟩ ∧
    withFirst .undefined idx o = .ok ⟨[], []⟩ ∧
    withFirst .null idx o = .ok ⟨[], []⟩ ∧
    withLast .undefined idx o = .ok ⟨[], []⟩ ∧
    withLast .null idx o = .ok ⟨[], []⟩ ∧
    withLast (.arr r []) (.num k) o = .ok ⟨[], []⟩ := by
  refine ⟨rfl, rfl, rfl, rfl, rfl, ?_⟩
  have e : withLast (.arr r []) (.num k) o
      = .ok (renderEach o (sliceFrom ([] : List Val) (-k)) ⟨[], []⟩) := rfl
  have e2 : sliceFrom ([] : List Val) (-k) = [] := by simp [sliceFrom]
  rw [e, e2]
  rfl

/-- C17, the failing input: `withLast([])` with `idx` omitted invokes the
primary renderer once, on `undefined` (the element at index `-1`), and returns
its text `AAA`, not the empty text; `withFirst([])` returns the empty text
without invoking a renderer. -/
theorem withLast_empty_invokes_primary :
    withLast (.arr 1 []) .options ⟨fun _ _ => jsStr "AAA", fun _ => jsStr "BBB", []⟩
      = .ok ⟨jsStr "AAA", [Call.primary .undefined none]⟩ ∧
    withFirst (.arr 1 []) .options ⟨fun _ _ => jsStr "AAA", fun _ => jsStr "BBB", []⟩
      = .ok ⟨[], []⟩ :=
  ⟨rfl, rfl⟩

/-- C19: on a sequence, `withAfter(s, idx)` is the concatenation of the
primary rendering of each element of `after(s, idx)`, in order, and
`withBefore(s, idx)` that of each element of `before(s, idx)`; the inverse
renderer is never invoked, and an empty slice gives the empty text. For
`0 ≤ n ≤ length s` the slice of `withAfter` is `s` without its first `n`
elements. Witnesses: on `['a','b','c','d','e']`, `withAfter 3` renders `de`
and `withBefore 3` renders `ab`. -/
theorem withAfter_withBefore_spec (r : Nat) (xs : List Val) (idx : Int) (o : Options) :
    (∃ ys : List Val, after (.arr r xs) idx = .ok (.newArr ys) ∧
      withAfter (.arr r xs) idx o
        = .ok ⟨ys.flatMap (fun e => o.fn e none), ys.map (fun e => Call.primary e none)⟩ ∧
      inverseCount (ys.map (fun e => Call.primary e none)) = 0) ∧
    (∃ ys : List Val, before (.arr r xs) idx = .ok (.newArr ys) ∧
      withBefore (.arr r xs) idx o
        = .ok ⟨ys.flatMap (fun e => o.fn e none), ys.map (fun e => Call.primary e none)⟩ ∧
      inverseCount (ys.map (fun e => Call.primary e none)) = 0) ∧
    (∀ n : Nat, after (.arr r xs) (n : Int) = .ok (.newArr (xs.drop n))) ∧
    withAfter (.arr 1 [.str (jsStr "a"), .str (jsStr "b"), .str (jsStr "c"),
        .str (jsStr "d"), .str (jsStr "e")]) 3 ⟨fun v _ => v.toStr, fun _ => [], []⟩
      = .ok ⟨jsStr "de", [Call.primary (.str (jsStr "d")) none,
          Call.primary (.str (jsStr "e")) none]⟩ ∧
    withBefore (.arr 1 [.str (jsStr "a"), .str (jsStr "b"), .str (jsStr "c"),
        .str (jsStr "d"), .str (jsStr "e")]) 3 ⟨fun v _ => v.toStr, fun _ => [], []⟩
      = .ok ⟨jsStr "ab", [Call.primary (.str (jsStr "a")) none,
          Call.primary (.str (jsStr "b")) none]⟩ := by
  refine ⟨⟨sliceFrom xs idx, rfl, ?_, inverseCount_map_primary _⟩,
    ⟨slice xs 0 (-idx), rfl, ?_, inverseCount_map_primary _⟩, ?_, rfl, rfl⟩
  · have e : withAfter (.arr r xs) idx o = .ok (renderEach o (sliceFrom xs idx) ⟨[], []⟩) := rfl
    rw [e, renderEach_eq]
    simp
  · have e : withBefore (.arr r xs) idx o
        = .ok (renderEach o (slice xs 0 (-idx)) ⟨[], []⟩) := rfl
    rw [e, renderEach_eq]
    simp
  · intro n
    have e : after (.arr r xs) (n : Int) = .ok (.newArr (sliceFrom xs (n : Int))) := rfl
    rw [e, sliceFrom_natCast]

/-! ## Effects on the caller's sequence -/

theorem heap_alloc_grows (c : Cell) (m : Store) : m <+: (Heap.alloc c m).2 :=
  List.prefix_append m [c]

theorem heap_andThen_grows {α β : Type} (x : Except Err α × Store) (f : α → Heap.Eff β)
    (m : Store) (hx : m <+: x.2) (hf : ∀ a m1, m1 <+: (f a m1).2) :
    m <+: (Heap.andThen x f).2 := by
  obtain ⟨r, m1⟩ := x
  cases r with
  | ok a => exact hx.trans (hf a m1)
  | error e => exact hx

theorem heap_callSlice_grows (v : HVal) (f : List HVal → List HVal) (g : JSString → JSString)
    (m : Store) : m <+: (Heap.callSlice v f g m).2 := by
  unfold Heap.callSlice
  split
  · exact List.prefix_refl m
  · split
    · exact heap_alloc_grows _ m
    · exact List.prefix_refl m
  · exact List.prefix_refl m

theorem heap_joinIfArray_grows (v : HVal) (m : Store) : m <+: (Heap.joinIfArray v m).2 := by
  unfold Heap.joinIfArray
  split <;> exact List.prefix_refl m

theorem heap_after_grows (array : HVal) (n : Int) (m : Store) :
    m <+: (Heap.after array n m).2 := by
  unfold Heap.after
  split
  · exact List.prefix_refl m
  · exact heap_callSlice_grows _ _ _ m

theorem heap_before_grows (array : HVal) (n : Int) (m : Store) :
    m <+: (Heap.before array n m).2 := by
  unfold Heap.before
  split
  · exact List.prefix_refl m
  · exact heap_callSlice_grows _ _ _ m

theorem heap_eachIndex_loop_grows (o : Heap.Options) (xs : List HVal) :
    ∀ (i : Nat) (result : JSString) (m : Store),
      m <+: (Heap.eachIndex.loop o xs i result m).2 := by
  induction xs with
  | nil => intro i result m; exact List.prefix_refl m
  | cons x rest ih =>
    intro i result m
    exact (heap_alloc_grows _ m).trans (ih _ _ _)

theorem heap_eachIndex_grows (array : HVal) (o : Heap.Options) (m : Store) :
    m <+: (Heap.eachIndex array o m).2 := by
  unfold Heap.eachIndex
  split
  · exact heap_eachIndex_loop_grows o _ _ _ m
  · exact List.prefix_refl m

theorem heap_utils_filter_grows (array : HVal) (f : HVal → Bool) (m : Store) :
    m <+: (Heap.utils.filter array f m).2 := by
  unfold Heap.utils.filter
  split
  · exact heap_alloc_grows _ m
  · exact heap_alloc_grows _ m
  · split
    · exact heap_alloc_grows _ m
    · exact List.prefix_refl m
  · exact List.prefix_refl m

theorem heap_filter_grows (this array value : HVal) (o : Heap.Options) (m : Store) :
    m <+: (Heap.filter this array value o m).2 := by
  unfold Heap.filter
  refine heap_andThen_grows _ _ m ?_ ?_
  · split <;> exact heap_utils_filter_grows _ _ m
  · intro a m1
    beta_reduce
    split <;> exact List.prefix_refl m1

theorem heap_first_arrayAlt_grows (array n : HVal) (m : Store) :
    m <+: (Heap.first.arrayAlt array n m).2 := by
  unfold Heap.first.arrayAlt
  split
  · exact List.prefix_refl m
  · split
    · split
      · exact List.prefix_refl m
      · split <;> exact List.prefix_refl m
      · exact List.prefix_refl m
    · split
      · exact List.prefix_refl m
      · split
        · exact heap_alloc_grows _ m
        · exact List.prefix_refl m
      · exact List.prefix_refl m

theorem heap_first_grows (array n : HVal) (m : Store) :
    m <+: (Heap.first array n m).2 := by
  unfold Heap.first
  split
  · exact heap_first_arrayAlt_grows _ _ m
  · split
    · refine heap_andThen_grows _ _ m ?_ (fun a m1 => heap_joinIfArray_grows a m1)
      exact (heap_alloc_grows _ m).trans (heap_first_arrayAlt_grows _ _ _)
    · exact heap_alloc_grows _ m

theorem heap_inArray_grows (this array value : HVal) (o : Heap.Options) (m : Store) :
    m <+: (Heap.inArray this array value o m).2 := by
  unfold Heap.inArray
  split
  · split <;> exact List.prefix_refl m
  · exact List.prefix_refl m

theorem heap_last_arrayAlt_grows (array n : HVal) (m : Store) :
    m <+: (Heap.last.arrayAlt array n m).2 := by
  unfold Heap.last.arrayAlt
  split
  · exact heap_callSlice_grows _ _ _ m
  · exact List.prefix_refl m

theorem heap_last_grows (array n : HVal) (m : Store) :
    m <+: (Heap.last array n m).2 := by
  unfold Heap.last
  split
  · exact heap_last_arrayAlt_grows _ _ m
  · split
    · unfold Heap.last.stringAlt
      refine heap_andThen_grows _ _ m ?_ (fun a m1 => heap_joinIfArray_grows a m1)
      exact (heap_alloc_grows _ m).trans (heap_last_arrayAlt_grows _ _ _)
    · exact heap_alloc_grows _ m

theorem heap_lengthEqual_grows (this array length : HVal) (o : Heap.Options) (m : Store) :
    m <+: (Heap.lengthEqual this array length o m).2 := by
  unfold Heap.lengthEqual
  split
  · split <;> exact List.prefix_refl m
  · exact List.prefix_refl m

theorem heap_some_grows (this arr : HVal) (cb : Store → HVal → Nat → HVal → HVal)
    (o : Heap.Options) (m : Store) : m <+: (Heap.some this arr cb o m).2 := by
  unfold Heap.some
  split
  · exact List.prefix_refl m
  · split
    · exact List.prefix_refl m
    · split <;> exact List.prefix_refl m
    · exact List.prefix_refl m

theorem heap_withAfter_grows (array : HVal) (idx : Int) (o : Heap.Options) (m : Store) :
    m <+: (Heap.withAfter array idx o m).2 := by
  unfold Heap.withAfter
  exact heap_andThen_grows _ _ m (heap_callSlice_grows _ _ _ m)
    (fun a m1 => List.prefix_refl m1)

theorem heap_withBefore_grows (array : HVal) (idx : Int) (o : Heap.Options) (m : Store) :
    m <+: (Heap.withBefore array idx o m).2 := by
  unfold Heap.withBefore
  exact heap_andThen_grows _ _ m (heap_callSlice_grows _ _ _ m)
    (fun a m1 => List.prefix_refl m1)

theorem heap_withFirst_grows (arr idx : HVal) (o : Heap.Options) (m : Store) :
    m <+: (Heap.withFirst arr idx o m).2 := by
  unfold Heap.withFirst
  split
  · exact List.prefix_refl m
  · split
    · split <;> exact List.prefix_refl m
    · split
      · exact heap_andThen_grows _ _ m (heap_callSlice_grows _ _ _ m)
          (fun a m1 => List.prefix_refl m1)
      · exact List.prefix_refl m

theorem heap_withLast_grows (array idx : HVal) (o : Heap.Options) (m : Store) :
    m <+: (Heap.withLast array idx o m).2 := by
  unfold Heap.withLast
  split
  · exact List.prefix_refl m
  · split
    · split
      · split <;> exact List.prefix_refl m
      · exact List.prefix_refl m
      · exact List.prefix_refl m
    · split
      · exact heap_andThen_grows _ _ m (heap_callSlice_grows _ _ _ m)
          (fun a m1 => List.prefix_refl m1)
      · exact List.prefix_refl m

theorem heap_objectKeys_grows (v : HVal) (m : Store) :
    m <+: (Heap.objectKeys v m).2 := by
  unfold Heap.objectKeys
  split
  · exact List.prefix_refl m
  · exact List.prefix_refl m
  · exact heap_alloc_grows _ m
  · split
    · exact heap_alloc_grows _ m
    · exact heap_alloc_grows _ m
    · exact List.prefix_refl m
  · exact List.prefix_refl m
  · exact heap_alloc_grows _ m

theorem heap_isEmpty_grows (this collection : HVal) (o : Heap.Options) (m : Store) :
    m <+: (Heap.isEmpty this collection o m).2 := by
  unfold Heap.isEmpty
  split
  · exact List.prefix_refl m
  · split
    · exact List.prefix_refl m
    · refine heap_andThen_grows _ _ m (heap_objectKeys_grows _ m) ?_
      intro a m1
      beta_reduce
      split <;> exact List.prefix_refl m1

theorem heap_length_grows (tryParse : Nat → JSString → HVal × List Cell) (value : HVal)
    (m : Store) : m <+: (Heap.length tryParse value m).2 := by
  unfold Heap.length
  split
  · exact List.prefix_refl m
  · refine heap_andThen_grows _ _ m ?_ ?_
    · split
      · split
        · split
          · exact List.prefix_append m _
          · exact (List.prefix_append m _).trans (heap_alloc_grows _ _)
        · exact List.prefix_refl m
      · exact List.prefix_refl m
    · intro a m1
      refine heap_andThen_grows _ _ m1 ?_ (fun b m2 => List.prefix_refl m2)
      split
      · exact heap_objectKeys_grows _ m1
      · exact List.prefix_refl m1

theorem heap_getProp_setProp_same (ps : HProps) (k : JSString) (v : HVal) :
    Heap.getProp (Heap.setProp ps k v) k = v := by
  induction ps with
  | nil => simp [Heap.setProp, Heap.getProp]
  | cons p rest ih =>
    obtain ⟨k', w⟩ := p
    by_cases h : k' = k
    · simp [Heap.setProp, Heap.getProp, h]
    · simp [Heap.setProp, Heap.getProp, h, ih]

theorem heap_getProp_setProp_ne (ps : HProps) (k k' : JSString) (v : HVal) (h : k ≠ k') :
    Heap.getProp (Heap.setProp ps k v) k' = Heap.getProp ps k' := by
  induction ps with
  | nil => simp [Heap.setProp, Heap.getProp, h]
  | cons p rest ih =>
    obtain ⟨k0, w⟩ := p
    by_cases h0 : k0 = k
    · subst h0
      simp [Heap.setProp, Heap.getProp, h]
    · by_cases h1 : k0 = k'
      · subst h1
        simp [Heap.setProp, Heap.getProp, h0]
      · simp [Heap.setProp, Heap.getProp, h0, h1, ih]

/-- The four properties that `forEach` writes, and every other property as it
was. -/
theorem heap_decorated_props (len i : Nat) (ps : HProps) :
    Heap.getProp (Heap.forEach.decorated len i ps) (jsStr "index") = .num ((i : Int) + 1) ∧
    Heap.getProp (Heap.forEach.decorated len i ps) (jsStr "total") = .num (len : Int) ∧
    Heap.getProp (Heap.forEach.decorated len i ps) (jsStr "isFirst") = .bool (decide (i = 0)) ∧
    Heap.getProp (Heap.forEach.decorated len i ps) (jsStr "isLast")
      = .bool (decide (i + 1 = len)) ∧
    (∀ k : JSString, k ≠ jsStr "index" → k ≠ jsStr "total" → k ≠ jsStr "isFirst" →
      k ≠ jsStr "isLast" →
      Heap.getProp (Heap.forEach.decorated len i ps) k = Heap.getProp ps k) := by
  have h1 : jsStr "total" ≠ jsStr "index" := by decide
  have h2 : jsStr "isFirst" ≠ jsStr "index" := by decide
  have h3 : jsStr "isLast" ≠ jsStr "index" := by decide
  have h4 : jsStr "isFirst" ≠ jsStr "total" := by decide
  have h5 : jsStr "isLast" ≠ jsStr "total" := by decide
  have h6 : jsStr "isLast" ≠ jsStr "isFirst" := by decide
  refine ⟨?_, ?_, ?_, ?_, ?_⟩
  · simp only [Heap.forEach.decorated]
    rw [heap_getProp_setProp_ne _ _ _ _ h3, heap_getProp_setProp_ne _ _ _ _ h2,
      heap_getProp_setProp_ne _ _ _ _ h1, heap_getProp_setProp_same]
  · simp only [Heap.forEach.decorated]
    rw [heap_getProp_setProp_ne _ _ _ _ h5, heap_getProp_setProp_ne _ _ _ _ h4,
      heap_getProp_setProp_same]
  · simp only [Heap.forEach.decorated]
    rw [heap_getProp_setProp_ne _ _ _ _ h6, heap_getProp_setProp_same]
    by_cases h : i = 0 <;> simp [h]
  · simp only [Heap.forEach.decorated]
    rw [heap_getProp_setProp_same]
    have : ((i : Int) == (len : Int) - 1) = decide (i + 1 = len) := by
      by_cases h : i + 1 = len
      · have : (i : Int) = (len : Int) - 1 := by omega
        simp [h, this]
      · have : ¬ (i : Int) = (len : Int) - 1 := by omega
        simp [h, this]
    rw [this]
  · intro k k1 k2 k3 k4
    simp only [Heap.forEach.decorated]
    rw [heap_getProp_setProp_ne _ _ _ _ (Ne.symm k4),
      heap_getProp_setProp_ne _ _ _ _ (Ne.symm k3),
      heap_getProp_setProp_ne _ _ _ _ (Ne.symm k2),
      heap_getProp_setProp_ne _ _ _ _ (Ne.symm k1)]

theorem heap_assign_obj (m : Store) (r : Nat) (ps : HProps) (key : JSString) (v : HVal)
    (h : m[r]? = Option.some (Cell.object ps)) :
    Heap.assign (.ref r) key v m = (.ok (), m.set r (.object (Heap.setProp ps key v))) := by
  simp only [Heap.assign, h]

theorem getElem?_lt_of_some {α : Type} (l : List α) (i : Nat) (x : α)
    (h : l[i]? = Option.some x) : i < l.length := by
  obtain ⟨h', _⟩ := List.getElem?_eq_some.1 h
  exact h'

/-- One turn of the loop of `forEach` on an element that is an object: the
frame gets its `index`, the element its four properties, and the argument
object of the renderer is allocated. -/
theorem heap_forEach_loop_step (o : Heap.Options) (len d a : Nat) (fs ps : HProps)
    (rest : List HVal) (i : Nat) (buffer : JSString) (m : Store)
    (hd : m[d]? = Option.some (Cell.object fs)) (ha : m[a]? = Option.some (Cell.object ps))
    (hne : a ≠ d) :
    Heap.forEach.loop o len (.ref d) (.ref a :: rest) i buffer m
      = Heap.forEach.loop o len (.ref d) rest (i + 1)
          (buffer ++ o.fn
            (((m.set d (.object (Heap.setProp fs (jsStr "index") (.num i)))).set a
              (.object (Heap.forEach.decorated len i ps))) ++ [.object [(jsStr "data", .ref d)]])
            (.ref a) (Option.some (.ref m.length)))
          (((m.set d (.object (Heap.setProp fs (jsStr "index") (.num i)))).set a
              (.object (Heap.forEach.decorated len i ps))) ++ [.object [(jsStr "data", .ref d)]])
        := by
  have hdl := getElem?_lt_of_some m d _ hd
  have hal := getElem?_lt_of_some m a _ ha
  have h1 : (m.set d (.object (Heap.setProp fs (jsStr "index") (.num i))))[a]?
      = Option.some (Cell.object ps) := by
    rw [List.getElem?_set_ne (Ne.symm hne)]
    exact ha
  have hself : ∀ (c : Cell),
      ((m.set d (.object (Heap.setProp fs (jsStr "index") (.num i)))).set a c)[a]?
        = Option.some c := by
    intro c
    exact List.getElem?_set_self (by rw [List.length_set]; exact hal)
  rw [Heap.forEach.loop]
  beta_reduce
  rw [heap_assign_obj m d fs _ _ hd]
  simp only [Heap.andThen]
  rw [heap_assign_obj _ a ps _ _ h1]
  simp only [Heap.andThen]
  rw [heap_assign_obj _ a _ _ _ (hself _)]
  simp only [Heap.andThen, List.set_set]
  rw [heap_assign_obj _ a _ _ _ (hself _)]
  simp only [Heap.andThen, List.set_set]
  rw [heap_assign_obj _ a _ _ _ (hself _)]
  simp only [Heap.andThen, List.set_set, Heap.alloc, List.length_set]
  rfl

/-- The loop of `forEach` over elements that are objects of the store, none of
them the frame: it returns; the cells that are neither the frame nor an
element stay as they were; and an element ends with the properties written at
its last position `i + j`, over properties that agree with its former ones
outside `index`, `total`, `isFirst` and `isLast`. -/
theorem heap_forEach_loop_spec (o : Heap.Options) (len d : Nat) (rest : List HVal) :
    ∀ (i : Nat) (buffer : JSString) (m : Store),
      (∃ fs, m[d]? = Option.some (Cell.object fs)) →
      (∀ x ∈ rest, ∃ a ps, x = HVal.ref a ∧ a ≠ d ∧ m[a]? = Option.some (Cell.object ps)) →
      ∃ (t : JSString) (m' : Store),
        Heap.forEach.loop o len (.ref d) rest i buffer m = (.ok t, m') ∧
        m.length ≤ m'.length ∧
        (∀ a, a < m.length → a ≠ d → HVal.ref a ∉ rest → m'[a]? = m[a]?) ∧
        (∀ a ps, HVal.ref a ∈ rest → m[a]? = Option.some (Cell.object ps) →
          ∃ (qs : HProps) (j : Nat),
            m'[a]? = Option.some (Cell.object (Heap.forEach.decorated len (i + j) qs)) ∧
            rest[j]? = Option.some (HVal.ref a) ∧
            (∀ j', j < j' → rest[j']? ≠ Option.some (HVal.ref a)) ∧
            (∀ k : JSString, k ≠ jsStr "index" → k ≠ jsStr "total" → k ≠ jsStr "isFirst" →
              k ≠ jsStr "isLast" → Heap.getProp qs k = Heap.getProp ps k)) := by
  induction rest with
  | nil =>
    intro i buffer m _ _
    refine ⟨buffer, m, rfl, le_refl _, fun _ _ _ _ => rfl, ?_⟩
    intro a ps h
    simp at h
  | cons x rest ih =>
    intro i buffer m hd hel
    obtain ⟨fs, hfs⟩ := hd
    obtain ⟨a0, ps0, hx, hne0, hps0⟩ := hel x (List.mem_cons_self _ _)
    subst hx
    have hdl := getElem?_lt_of_some m d _ hfs
    have hal := getElem?_lt_of_some m a0 _ hps0
    rw [heap_forEach_loop_step o len d a0 fs ps0 rest i buffer m hfs hps0 hne0]
    have hlen : (((m.set d (.object (Heap.setProp fs (jsStr "index") (.num i)))).set a0
          (.object (Heap.forEach.decorated len i ps0))) ++ [Cell.object [(jsStr "data", .ref d)]]).length
        = m.length + 1 := by
      simp
    have hget : ∀ a, a < m.length → a ≠ d → a ≠ a0 →
        (((m.set d (.object (Heap.setProp fs (jsStr "index") (.num i)))).set a0
          (.object (Heap.forEach.decorated len i ps0))) ++ [Cell.object [(jsStr "data", .ref d)]])[a]?
          = m[a]? := by
      intro a hlt h1 h2
      rw [List.getElem?_append_left (by simpa using hlt), List.getElem?_set_ne (Ne.symm h2),
        List.getElem?_set_ne (Ne.symm h1)]
    have hget0 : (((m.set d (.object (Heap.setProp fs (jsStr "index") (.num i)))).set a0
          (.object (Heap.forEach.decorated len i ps0))) ++ [Cell.object [(jsStr "data", .ref d)]])[a0]?
          = Option.some (Cell.object (Heap.forEach.decorated len i ps0)) := by
      rw [List.getElem?_append_left (by simpa using hal)]
      exact List.getElem?_set_self (by simpa using hal)
    have hgetd : (((m.set d (.object (Heap.setProp fs (jsStr "index") (.num i)))).set a0
          (.object (Heap.forEach.decorated len i ps0))) ++ [Cell.object [(jsStr "data", .ref d)]])[d]?
          = Option.some (Cell.object (Heap.setProp fs (jsStr "index") (.num i))) := by
      rw [List.getElem?_append_left (by simpa using hdl), List.getElem?_set_ne hne0]
      exact List.getElem?_set_self hdl
    generalize (((m.set d (.object (Heap.setProp fs (jsStr "index") (.num i)))).set a0
          (.object (Heap.forEach.decorated len i ps0))) ++ [Cell.object [(jsStr "data", .ref d)]])
        = m6 at hlen hget hget0 hgetd ⊢
    obtain ⟨t, m', he, hl, hun, hel'⟩ := ih (i + 1)
      (buffer ++ o.fn m6 (.ref a0) (Option.some (.ref m.length))) m6 ⟨_, hgetd⟩ (by
        intro x hx
        obtain ⟨a, ps, e, hne, hps⟩ := hel x (List.mem_cons_of_mem _ hx)
        by_cases h : a = a0
        · subst h
          exact ⟨a, _, e, hne, hget0⟩
        · exact ⟨a, ps, e, hne, by
            rw [hget a (getElem?_lt_of_some m a _ hps) hne h]; exact hps⟩)
    refine ⟨t, m', he, by omega, ?_, ?_⟩
    · intro a hlt hned hnot
      have hna0 : a ≠ a0 := fun h => hnot (by rw [h]; exact List.mem_cons_self _ _)
      have hnr : HVal.ref a ∉ rest := fun h => hnot (List.mem_cons_of_mem _ h)
      rw [hun a (by omega) hned hnr, hget a hlt hned hna0]
    · intro a ps hmem hps
      obtain ⟨a', _, e, hned, _⟩ := hel _ hmem
      have e' : a = a' := by injection e
      subst e'
      have hlt := getElem?_lt_of_some m a _ hps
      by_cases hin : HVal.ref a ∈ rest
      · by_cases h0 : a = a0
        · subst h0
          have eps : ps = ps0 := by
            rw [hps0] at hps
            injection hps with h
            injection h with h
            exact h.symm
          subst eps
          obtain ⟨qs, j, h1, h2, h3, h4⟩ := hel' a _ hin hget0
          refine ⟨qs, j + 1, ?_, by simpa using h2, ?_, ?_⟩
          · rw [h1, Nat.add_assoc, Nat.add_comm 1 j]
          · intro j' hj'
            obtain ⟨k, rfl⟩ : ∃ k, j' = k + 1 := ⟨j' - 1, by omega⟩
            simpa using h3 k (by omega)
          · intro k k1 k2 k3 k4
            rw [h4 k k1 k2 k3 k4]
            exact (heap_decorated_props len i ps).2.2.2.2 k k1 k2 k3 k4
        · obtain ⟨qs, j, h1, h2, h3, h4⟩ := hel' a ps hin (by
            rw [hget a hlt hned h0]; exact hps)
          refine ⟨qs, j + 1, ?_, by simpa using h2, ?_, h4⟩
          · rw [h1, Nat.add_assoc, Nat.add_comm 1 j]
          · intro j' hj'
            obtain ⟨k, rfl⟩ : ∃ k, j' = k + 1 := ⟨j' - 1, by omega⟩
            simpa using h3 k (by omega)
      · have h0 : a = a0 := by
          rcases List.mem_cons.1 hmem with h | h
          · injection h
          · exact absurd h hin
        subst h0
        have eps : ps = ps0 := by
          rw [hps0] at hps
          injection hps with h
          injection h with h
          exact h.symm
        subst eps
        refine ⟨ps, 0, ?_, by simp, ?_, fun _ _ _ _ _ => rfl⟩
        · rw [hun a (by omega) hned hin, hget0]
          rfl
        · intro j' hj'
          obtain ⟨k, rfl⟩ : ∃ k, j' = k + 1 := ⟨j' - 1, by omega⟩
          intro hk
          exact hin (List.mem_iff_getElem?.2 ⟨k, by simpa using hk⟩)

/-- What `forEach` does to the store when it is called on a sequence whose
elements are objects. -/
theorem heap_forEach_objects (o : Heap.Options) (m : Store) (r : Nat) (xs : List HVal)
    (hr : m[r]? = Option.some (Cell.array xs))
    (hel : ∀ x ∈ xs, ∃ a ps, x = HVal.ref a ∧ m[a]? = Option.some (Cell.object ps)) :
    ∃ (t : JSString) (m' : Store),
      Heap.forEach (.ref r) o m = (.ok t, m') ∧
      m.length ≤ m'.length ∧
      m'[r]? = Option.some (Cell.array xs) ∧
      (∀ a, a < m.length → HVal.ref a ∉ xs → m'[a]? = m[a]?) ∧
      (∀ a ps, HVal.ref a ∈ xs → m[a]? = Option.some (Cell.object ps) →
        ∃ (ps' : HProps) (j : Nat),
          m'[a]? = Option.some (Cell.object ps') ∧
          xs[j]? = Option.some (HVal.ref a) ∧
          (∀ j', j < j' → xs[j']? ≠ Option.some (HVal.ref a)) ∧
          Heap.getProp ps' (jsStr "index") = .num ((j : Int) + 1) ∧
          Heap.getProp ps' (jsStr "total") = .num (xs.length : Int) ∧
          Heap.getProp ps' (jsStr "isFirst") = .bool (decide (j = 0)) ∧
          Heap.getProp ps' (jsStr "isLast") = .bool (decide (j + 1 = xs.length)) ∧
          (∀ k : JSString, k ≠ jsStr "index" → k ≠ jsStr "total" → k ≠ jsStr "isFirst" →
            k ≠ jsStr "isLast" → Heap.getProp ps' k = Heap.getProp ps k)) := by
  have hrl := getElem?_lt_of_some m r _ hr
  have hr' : (m ++ [Cell.object o.hash])[r]? = Option.some (Cell.array xs) := by
    rw [List.getElem?_append_left hrl]; exact hr
  have hkeep : ∀ a, a < m.length → (m ++ [Cell.object o.hash])[a]? = m[a]? :=
    fun a h => List.getElem?_append_left h
  have e : Heap.forEach (.ref r) o m
      = Heap.forEach.loop o xs.length (.ref m.length) xs 0 [] (m ++ [Cell.object o.hash]) := by
    simp only [Heap.forEach, Heap.truthy, Heap.utils.createFrame, Heap.alloc, hr]
    rfl
  obtain ⟨t, m', he, hl, hun, hel'⟩ := heap_forEach_loop_spec o xs.length m.length xs 0 []
    (m ++ [Cell.object o.hash]) ⟨o.hash, by simp⟩ (by
      intro x hx
      obtain ⟨a, ps, e, hps⟩ := hel x hx
      have hlt := getElem?_lt_of_some m a _ hps
      exact ⟨a, ps, e, by omega, by rw [hkeep a hlt]; exact hps⟩)
  have hnotr : HVal.ref r ∉ xs := by
    intro h
    obtain ⟨a, ps, e, hps⟩ := hel _ h
    have e' : r = a := by injection e
    subst e'
    rw [hr] at hps
    cases hps
  have hl' : m.length + 1 ≤ m'.length := by simpa using hl
  refine ⟨t, m', e.trans he, by omega, ?_, ?_, ?_⟩
  · rw [hun r (by simp; omega) (by omega) hnotr]
    exact hr'
  · intro a hlt hnot
    rw [hun a (by simp; omega) (by omega) hnot]
    exact hkeep a hlt
  · intro a ps hmem hps
    have hlt := getElem?_lt_of_some m a _ hps
    obtain ⟨qs, j, h1, h2, h3, h4⟩ := hel' a ps hmem (by rw [hkeep a hlt]; exact hps)
    have hd := heap_decorated_props xs.length (0 + j) qs
    rw [Nat.zero_add] at hd h1
    refine ⟨_, j, h1, h2, h3, hd.1, hd.2.1, hd.2.2.1, hd.2.2.2.1, ?_⟩
    intro k k1 k2 k3 k4
    rw [hd.2.2.2.2 k k1 k2 k3 k4, h4 k k1 k2 k3 k4]

/-- C18, counterexample: not every operation outside sorting leaves the store
as it was: after `forEach([{}])` the element of the caller's sequence carries
`index`, `total`, `isFirst` and `isLast`. -/
theorem forEach_mutates_input :
    ¬ (∀ (array : HVal) (o : Heap.Options) (m : Store) (a : Nat) (c : Cell),
        m[a]? = Option.some c → (Heap.forEach array o m).2[a]? = Option.some c) := by
  intro h
  have h1 := h (.ref 0) ⟨fun _ _ _ => [], fun _ _ => [], []⟩
    [.array [.ref 1], .object []] 1 (.object []) rfl
  have e : (Heap.forEach (.ref 0) ⟨fun _ _ _ => [], fun _ _ => [], []⟩
      [.array [.ref 1], .object []]).2
      = [.array [.ref 1],
         .object [(jsStr "index", .num 1), (jsStr "total", .num 1),
           (jsStr "isFirst", .bool true), (jsStr "isLast", .bool true)],
         .object [(jsStr "index", .num 0)],
         .object [(jsStr "data", .ref 2)]] := rfl
  rw [e] at h1
  simp at h1

/-- C18, amended: every operation outside sorting other than `forEach`
(`after`, `before`, `first`, `last`, `withAfter`, `withBefore`, `withFirst`,
`withLast`, `eachIndex`, `filter`, `inArray`, `some`, `length`, `isEmpty`,
`lengthEqual`) treats its input as read-only: whatever the arguments, and
whether the call returns or throws, the store after the call is the store
before it followed by the cells the call has allocated, so the caller's
sequence has the same elements in the same order and every element the same
properties and values. `forEach`, called on a sequence whose elements are
objects, returns; the sequence keeps its elements in the same order and every
cell that is not one of its elements stays as it was; each element keeps
every property other than `index`, `total`, `isFirst` and `isLast` with its
value, and gets those four written for the last position `j` at which it
occurs in the sequence. Example: after `forEach([x, x])` with `x = {a: 1}`
the object `x` has `a = 1`, `index = 2`, `total = 2`, `isFirst = false` and
`isLast = true`. -/
theorem readOnly_spec (m : Store) (o : Heap.Options) :
    (∀ (array : HVal) (n : Int), m <+: (Heap.after array n m).2) ∧
    (∀ (array : HVal) (n : Int), m <+: (Heap.before array n m).2) ∧
    (∀ array n : HVal, m <+: (Heap.first array n m).2) ∧
    (∀ array n : HVal, m <+: (Heap.last array n m).2) ∧
    (∀ (array : HVal) (idx : Int), m <+: (Heap.withAfter array idx o m).2) ∧
    (∀ (array : HVal) (idx : Int), m <+: (Heap.withBefore array idx o m).2) ∧
    (∀ arr idx : HVal, m <+: (Heap.withFirst arr idx o m).2) ∧
    (∀ array idx : HVal, m <+: (Heap.withLast array idx o m).2) ∧
    (∀ array : HVal, m <+: (Heap.eachIndex array o m).2) ∧
    (∀ this array value : HVal, m <+: (Heap.filter this array value o m).2) ∧
    (∀ this array value : HVal, m <+: (Heap.inArray this array value o m).2) ∧
    (∀ (this arr : HVal) (cb : Store → HVal → Nat → HVal → HVal),
      m <+: (Heap.some this arr cb o m).2) ∧
    (∀ (tryParse : Nat → JSString → HVal × List Cell) (value : HVal),
      m <+: (Heap.length tryParse value m).2) ∧
    (∀ this collection : HVal, m <+: (Heap.isEmpty this collection o m).2) ∧
    (∀ this array length : HVal, m <+: (Heap.lengthEqual this array length o m).2) ∧
    (∀ (r : Nat) (xs : List HVal), m[r]? = Option.some (Cell.array xs) →
      (∀ x ∈ xs, ∃ a ps, x = HVal.ref a ∧ m[a]? = Option.some (Cell.object ps)) →
      ∃ (t : JSString) (m' : Store),
        Heap.forEach (.ref r) o m = (.ok t, m') ∧
        m.length ≤ m'.length ∧
        m'[r]? = Option.some (Cell.array xs) ∧
        (∀ a, a < m.length → HVal.ref a ∉ xs → m'[a]? = m[a]?) ∧
        (∀ a ps, HVal.ref a ∈ xs → m[a]? = Option.some (Cell.object ps) →
          ∃ (ps' : HProps) (j : Nat),
            m'[a]? = Option.some (Cell.object ps') ∧
            xs[j]? = Option.some (HVal.ref a) ∧
            (∀ j', j < j' → xs[j']? ≠ Option.some (HVal.ref a)) ∧
            Heap.getProp ps' (jsStr "index") = .num ((j : Int) + 1) ∧
            Heap.getProp ps' (jsStr "total") = .num (xs.length : Int) ∧
            Heap.getProp ps' (jsStr "isFirst") = .bool (decide (j = 0)) ∧
            Heap.getProp ps' (jsStr "isLast") = .bool (decide (j + 1 = xs.length)) ∧
            (∀ k : JSString, k ≠ jsStr "index" → k ≠ jsStr "total" →
              k ≠ jsStr "isFirst" → k ≠ jsStr "isLast" →
              Heap.getProp ps' k = Heap.getProp ps k))) ∧
    (Heap.forEach (.ref 0) ⟨fun _ _ _ => [], fun _ _ => [], []⟩
        [.array [.ref 1, .ref 1], .object [(jsStr "a", .num 1)]]).2
      = [.array [.ref 1, .ref 1],
         .object [(jsStr "a", .num 1), (jsStr "index", .num 2), (jsStr "total", .num 2),
           (jsStr "isFirst", .bool false), (jsStr "isLast", .bool true)],
         .object [(jsStr "index", .num 1)],
         .object [(jsStr "data", .ref 2)],
         .object [(jsStr "data", .ref 2)]] :=
  ⟨fun array n => heap_after_grows array n m,
   fun array n => heap_before_grows array n m,
   fun array n => heap_first_grows array n m,
   fun array n => heap_last_grows array n m,
   fun array idx => heap_withAfter_grows array idx o m,
   fun array idx => heap_withBefore_grows array idx o m,
   fun arr idx => heap_withFirst_grows arr idx o m,
   fun array idx => heap_withLast_grows array idx o m,
   fun array => heap_eachIndex_grows array o m,
   fun this array value => heap_filter_grows this array value o m,
   fun this array value => heap_inArray_grows this array value o m,
   fun this arr cb => heap_some_grows this arr cb o m,
   fun tryParse value => heap_length_grows tryParse value m,
   fun this collection => heap_isEmpty_grows this collection o m,
   fun this array length => heap_lengthEqual_grows this array length o m,
   fun r xs hr hel => heap_forEach_objects o m r xs hr hel,
   rfl⟩

/-- C18, witness: `forEach` on the sequence `[x, x]` with `x = {a: 1}` returns,
leaves the sequence with the same two elements, and leaves `x` with `a = 1`
and the four properties of its last position. -/
theorem readOnly_spec_witness :
    ∃ (t : JSString) (m' : Store),
      Heap.forEach (.ref 0) ⟨fun _ _ _ => [], fun _ _ => [], []⟩
          [.array [.ref 1, .ref 1], .object [(jsStr "a", .num 1)]] = (.ok t, m') ∧
      [Cell.array [.ref 1, .ref 1], .object [(jsStr "a", .num 1)]].length ≤ m'.length ∧
      m'[0]? = Option.some (Cell.array [.ref 1, .ref 1]) ∧
      (∀ a, a < [Cell.array [.ref 1, .ref 1], .object [(jsStr "a", .num 1)]].length →
        HVal.ref a ∉ [HVal.ref 1, .ref 1] →
        m'[a]? = [Cell.array [.ref 1, .ref 1], .object [(jsStr "a", .num 1)]][a]?) ∧
      (∀ a ps, HVal.ref a ∈ [HVal.ref 1, .ref 1] →
        [Cell.array [.ref 1, .ref 1], .object [(jsStr "a", .num 1)]][a]?
          = Option.some (Cell.object ps) →
        ∃ (ps' : HProps) (j : Nat),
          m'[a]? = Option.some (Cell.object ps') ∧
          [HVal.ref 1, .ref 1][j]? = Option.some (HVal.ref a) ∧
          (∀ j', j < j' → [HVal.ref 1, .ref 1][j']? ≠ Option.some (HVal.ref a)) ∧
          Heap.getProp ps' (jsStr "index") = .num ((j : Int) + 1) ∧
          Heap.getProp ps' (jsStr "total") = .num ([HVal.ref 1, .ref 1].length : Int) ∧
          Heap.getProp ps' (jsStr "isFirst") = .bool (decide (j = 0)) ∧
          Heap.getProp ps' (jsStr "isLast")
            = .bool (decide (j + 1 = [HVal.ref 1, .ref 1].length)) ∧
          (∀ k : JSString, k ≠ jsStr "index" → k ≠ jsStr "total" →
            k ≠ jsStr "isFirst" → k ≠ jsStr "isLast" →
            Heap.getProp ps' k = Heap.getProp ps k)) :=
  (readOnly_spec [.array [.ref 1, .ref 1], .object [(jsStr "a", .num 1)]]
      ⟨fun _ _ _ => [], fun _ _ => [], []⟩).2.2.2.2.2.2.2.2.2.2.2.2.2.2.2.1
    0 [.ref 1, .ref 1] rfl
    (by
      intro x hx
      simp only [List.mem_cons, List.mem_singleton, List.mem_nil_iff, or_false, or_self] at hx
      exact ⟨1, [(jsStr "a", .num 1)], hx, rfl⟩)

/-! ## URL query parameters: `getURLQueryParam` -/

theorem encodeURIComponent_unreserved (k : JSString) (h : ∀ c ∈ k, isUnreserved c = true) :
    encodeURIComponent k = .ok k := by
  induction k with
  | nil => rfl
  | cons c rest ih =>
    have hc : isUnreserved c = true := h c (by simp)
    have hr : encodeURIComponent rest = .ok rest := ih (fun d hd => h d (by simp [hd]))
    cases rest with
    | nil => simp [encodeURIComponent, hc]
    | cons d rest' => simp [encodeURIComponent, hc, hr, Except.map]

theorem getURLQueryParam_eq (isValidURL : Val → Bool)
    (searchParams : JSString → List (JSString × JSString)) (u k : JSString)
    (hv : isValidURL (.str u) = true) :
    getURLQueryParam isValidURL searchParams (.str u) (.str k)
      = (encodeURIComponent k).map (fun name => searchParamsGet (searchParams u) name) := by
  simp only [getURLQueryParam, utils.isString, hv, Bool.not_true, Bool.or_self,
    Bool.false_eq_true, if_false, bind, Except.bind, Except.map]

/-- C20, counterexample: for the URL `http://example.com/?a%20b=1`, whose one
query parameter has the name `a b` and the value `1`, the key `a b` is looked
up as `a%20b` and nothing is found. -/
theorem getURLQueryParam_encodes_key :
    ¬ (∀ (isValidURL : Val → Bool) (searchParams : JSString → List (JSString × JSString))
        (u k : JSString), isValidURL (.str u) = true →
        getURLQueryParam isValidURL searchParams (.str u) (.str k)
          = .ok (searchParamsGet (searchParams u) k)) := by
  intro h
  have h1 := h (fun _ => true) (fun _ => [(jsStr "a b", jsStr "1")])
    (jsStr "http://example.com/?a%20b=1") (jsStr "a b") rfl
  have e1 : getURLQueryParam (fun _ => true) (fun _ => [(jsStr "a b", jsStr "1")])
      (.str (jsStr "http://example.com/?a%20b=1")) (.str (jsStr "a b")) = .ok none := rfl
  have e2 : searchParamsGet ((fun _ => [(jsStr "a b", jsStr "1")])
      (jsStr "http://example.com/?a%20b=1")) (jsStr "a b") = Option.some (jsStr "1") := rfl
  rw [e1, e2] at h1
  simp at h1

/-- C20, amended: for a valid URL text `u` and a text key `k`,
`getURLQueryParam(u, k)` is the value of the first query parameter of `u`
whose name is `encodeURIComponent(k)` (nothing when there is none); for a key
made of characters that `encodeURIComponent` keeps (letters, digits and
`- _ . ! ~ * ' ( )`) this is the first parameter whose name is `k`. -/
theorem getURLQueryParam_spec (isValidURL : Val → Bool)
    (searchParams : JSString → List (JSString × JSString)) (u k : JSString)
    (hv : isValidURL (.str u) = true) :
    (∀ name : JSString, encodeURIComponent k = .ok name →
      getURLQueryParam isValidURL searchParams (.str u) (.str k)
        = .ok (searchParamsGet (searchParams u) name)) ∧
    ((∀ c ∈ k, isUnreserved c = true) →
      getURLQueryParam isValidURL searchParams (.str u) (.str k)
        = .ok (searchParamsGet (searchParams u) k)) := by
  refine ⟨?_, ?_⟩
  · intro name hn
    rw [getURLQueryParam_eq _ _ _ _ hv, hn]
    rfl
  · intro hk
    rw [getURLQueryParam_eq _ _ _ _ hv, encodeURIComponent_unreserved k hk]
    rfl

/-- C20, witness (the test): for
`http://example.com/?test=1&alternative=this_is_a_string` the key `test` gives
`1` and the key `alternative` gives `this_is_a_string`. -/
theorem getURLQueryParam_spec_witness :
    getURLQueryParam (fun _ => true)
        (fun _ => [(jsStr "test", jsStr "1"), (jsStr "alternative", jsStr "this_is_a_string")])
        (.str (jsStr "http://example.com/?test=1&alternative=this_is_a_string"))
        (.str (jsStr "test"))
      = .ok (Option.some (jsStr "1")) ∧
    getURLQueryParam (fun _ => true)
        (fun _ => [(jsStr "test", jsStr "1"), (jsStr "alternative", jsStr "this_is_a_string")])
        (.str (jsStr "http://example.com/?test=1&alternative=this_is_a_string"))
        (.str (jsStr "alternative"))
      = .ok (Option.some (jsStr "this_is_a_string")) :=
  ⟨(getURLQueryParam_spec (fun _ => true)
      (fun _ => [(jsStr "test", jsStr "1"), (jsStr "alternative", jsStr "this_is_a_string")])
      (jsStr "http://example.com/?test=1&alternative=this_is_a_string")
      (jsStr "test") rfl).2 (by decide),
   (getURLQueryParam_spec (fun _ => true)
      (fun _ => [(jsStr "test", jsStr "1"), (jsStr "alternative", jsStr "this_is_a_string")])
      (jsStr "http://example.com/?test=1&alternative=this_is_a_string")
      (jsStr "alternative") rfl).1 (jsStr "alternative") rfl⟩

/-! ## The per-key counter: `incrementVar` -/

theorem hasOwn_setProp_same (ps : Props) (k : JSString) (v : Val) :
    hasOwn (setProp ps k v) k = true := by
  induction ps with
  | nil => simp [setProp, hasOwn]
  | cons p rest ih =>
    obtain ⟨k0, w⟩ := p
    by_cases h0 : k0 = k
    · simp [setProp, hasOwn, h0]
    · simp only [hasOwn] at ih
      simp [setProp, hasOwn, h0, ih]

theorem hasOwn_setProp_ne (ps : Props) (k k' : JSString) (v : Val) (h : k ≠ k') :
    hasOwn (setProp ps k v) k' = hasOwn ps k' := by
  induction ps with
  | nil => simp [setProp, hasOwn, h]
  | cons p rest ih =>
    obtain ⟨k0, w⟩ := p
    simp only [hasOwn] at ih
    by_cases h0 : k0 = k
    · simp [setProp, hasOwn, h0]
    · simp [setProp, hasOwn, h0, ih]

theorem keys_setProp (ps : Props) (k : JSString) (v : Val) :
    (setProp ps k v).map Prod.fst
      = if hasOwn ps k then ps.map Prod.fst else ps.map Prod.fst ++ [k] := by
  induction ps with
  | nil => simp [setProp, hasOwn]
  | cons p rest ih =>
    obtain ⟨k0, w⟩ := p
    simp only [hasOwn] at ih
    by_cases h0 : k0 = k
    · simp [setProp, hasOwn, h0]
    · cases h1 : rest.any (fun p => p.1 == k) with
      | true =>
        simp only [h1, if_true] at ih
        simp [setProp, hasOwn, h0, ih, h1]
      | false =>
        simp only [h1, Bool.false_eq_true, if_false] at ih
        simp [setProp, hasOwn, h0, ih, h1]

theorem hasOwn_iff_mem (ps : Props) (k : JSString) :
    hasOwn ps k = true ↔ k ∈ ps.map Prod.fst := by
  simp [hasOwn, List.any_eq_true]

theorem objectKeys_setProp (ps : Props) (k : JSString) (v : Val) :
    (objectKeys (setProp ps k v)).length
      = if hasOwn ps k then (objectKeys ps).length else (objectKeys ps).length + 1 := by
  unfold objectKeys
  rw [keys_setProp]
  by_cases h : hasOwn ps k = true
  · simp [h]
  · have hm : k ∉ ps.map Prod.fst := fun hm => h ((hasOwn_iff_mem ps k).2 hm)
    simp only [h, Bool.false_eq_true, if_false]
    rw [← List.card_toFinset, ← List.card_toFinset, List.toFinset_append]
    simp only [List.toFinset_cons, List.toFinset_nil, insert_emptyc_eq]
    rw [Finset.card_union_of_disjoint]
    · simp
    · simp [hm]

theorem incrementVar_str (s : Option Props) (k : JSString) :
    incrementVar s (.str k)
      = if hasOwn (storedVars s) k && isInteger (getProp (storedVars s) k) then
          match getProp (storedVars s) k with
          | .num n =>
            (.ok (if hasOwn (setProp (storedVars s) k (.num (n + 1))) k
                then getProp (setProp (storedVars s) k (.num (n + 1))) k else .undefined),
              Option.some (setProp (storedVars s) k (.num (n + 1))))
          | _ => (.error .unsupported, Option.some (storedVars s))
        else if (objectKeys (storedVars s)).length ≥ max_keys then
          (.error .validationError, Option.some (storedVars s))
        else
          (.ok (if hasOwn (setProp (storedVars s) k (.num 0)) k
              then getProp (setProp (storedVars s) k (.num 0)) k else .undefined),
            Option.some (setProp (storedVars s) k (.num 0))) := by
  cases s <;> rfl

/-- A call on a stored key whose value is the integer `n` stores and returns
`n + 1`, whatever the number of stored keys. -/
theorem incrementVar_existing (s : Option Props) (k : JSString) (n : Int)
    (ho : hasOwn (storedVars s) k = true) (hg : getProp (storedVars s) k = .num n) :
    incrementVar s (.str k)
      = (.ok (.num (n + 1)), Option.some (setProp (storedVars s) k (.num (n + 1)))) := by
  rw [incrementVar_str, ho, hg]
  simp only [isInteger, Bool.and_self, if_true, hasOwn_setProp_same, getProp_setProp_same]

/-- A call with a key that is not stored, below the limit, stores and returns 0. -/
theorem incrementVar_fresh (s : Option Props) (k : JSString)
    (ho : hasOwn (storedVars s) k = false)
    (hc : (objectKeys (storedVars s)).length < max_keys) :
    incrementVar s (.str k)
      = (.ok (.num 0), Option.some (setProp (storedVars s) k (.num 0))) := by
  rw [incrementVar_str, ho]
  have hc' : ¬ (objectKeys (storedVars s)).length ≥ max_keys := by omega
  simp only [Bool.false_and, Bool.false_eq_true, if_false, hc', hasOwn_setProp_same,
    getProp_setProp_same, if_true]

/-- A call with a key that is not stored, at the limit, raises and leaves the
stored variables as they are. -/
theorem incrementVar_full (s : Option Props) (k : JSString)
    (ho : hasOwn (storedVars s) k = false)
    (hc : max_keys ≤ (objectKeys (storedVars s)).length) :
    incrementVar s (.str k) = (.error .validationError, Option.some (storedVars s)) := by
  rw [incrementVar_str, ho]
  have hc' : (objectKeys (storedVars s)).length ≥ max_keys := hc
  simp only [Bool.false_and, Bool.false_eq_true, if_false, hc', if_true]

theorem okCount_single (k0 k : JSString) (r : Except Err Val) :
    okCount [(k0, r)] k = if k0 = k ∧ succeeded r = true then 1 else 0 := by
  by_cases h : k0 = k <;> cases hs : succeeded r <;> simp [okCount, h, hs]

theorem okCount_cons (p : JSString × Except Err Val) (t : List (JSString × Except Err Val))
    (k : JSString) : okCount (p :: t) k = okCount [p] k + okCount t k := by
  simp only [okCount, List.countP_cons, List.countP_nil]
  omega

/-- One call keeps the stored variables in step with the counts, and returns
the count of its key unless it raises at the limit on a key never stored. -/
theorem incrementVar_step (s : Option Props) (c : JSString → Nat) (k0 : JSString)
    (h : countsAgree s c) :
    ((incrementVar s (.str k0)).1 = .ok (.num (c k0)) ∨
      ((incrementVar s (.str k0)).1 = .error .validationError ∧ c k0 = 0 ∧
        (incrementVar s (.str k0)).2 = Option.some (storedVars s) ∧
        max_keys ≤ (objectKeys (storedVars s)).length)) ∧
    countsAgree (incrementVar s (.str k0)).2
      (fun k => c k + okCount [(k0, (incrementVar s (.str k0)).1)] k) := by
  by_cases hc : 0 < c k0
  · obtain ⟨ho, hg⟩ := (h k0).2 hc
    have e := incrementVar_existing s k0 ((c k0 : Int) - 1) ho hg
    have e1 : ((c k0 : Int) - 1 + 1) = (c k0 : Int) := by omega
    rw [e1] at e
    refine ⟨Or.inl (by rw [e]), ?_⟩
    rw [e]
    intro k
    beta_reduce
    rw [okCount_single]
    by_cases hk : k0 = k
    · subst hk
      simp only [succeeded, and_self, if_true, storedVars]
      refine ⟨fun h0 => by omega, fun _ => ⟨hasOwn_setProp_same _ _ _, ?_⟩⟩
      rw [getProp_setProp_same]
      congr 1
      push_cast
      omega
    · simp only [hk, false_and, if_false, Nat.add_zero, storedVars]
      rw [hasOwn_setProp_ne _ _ _ _ hk, getProp_setProp_ne _ _ _ _ hk]
      exact h k
  · have hc0 : c k0 = 0 := by omega
    have ho := (h k0).1 hc0
    by_cases hf : (objectKeys (storedVars s)).length < max_keys
    · have e := incrementVar_fresh s k0 ho hf
      refine ⟨Or.inl (by rw [e, hc0]; rfl), ?_⟩
      rw [e]
      intro k
      beta_reduce
      rw [okCount_single]
      by_cases hk : k0 = k
      · subst hk
        simp only [succeeded, and_self, if_true, storedVars]
        refine ⟨fun h0 => by omega, fun _ => ⟨hasOwn_setProp_same _ _ _, ?_⟩⟩
        rw [getProp_setProp_same, hc0]
        rfl
      · simp only [hk, false_and, if_false, Nat.add_zero, storedVars]
        rw [hasOwn_setProp_ne _ _ _ _ hk, getProp_setProp_ne _ _ _ _ hk]
        exact h k
    · have hfull : max_keys ≤ (objectKeys (storedVars s)).length := by omega
      have e := incrementVar_full s k0 ho hfull
      refine ⟨Or.inr ⟨by rw [e], hc0, by rw [e], hfull⟩, ?_⟩
      rw [e]
      intro k
      beta_reduce
      rw [okCount_single]
      simp only [succeeded, Bool.false_eq_true, and_false, if_false, Nat.add_zero, storedVars]
      exact h k

theorem run_countsAgree (ks : List JSString) :
    ∀ (s : Option Props) (c : JSString → Nat), countsAgree s c →
      countsAgree (incrementVar.run s ks).2 (fun k => c k + okCount (incrementVar.run s ks).1 k) := by
  induction ks with
  | nil =>
    intro s c h k
    simpa [incrementVar.run, okCount] using h k
  | cons k0 rest ih =>
    intro s c h
    have hstep := (incrementVar_step s c k0 h).2
    have h2 := ih _ _ hstep
    intro k
    have hk := h2 k
    simp only [incrementVar.run]
    rw [okCount_cons]
    simp only [Nat.add_assoc] at hk ⊢
    exact hk

theorem run_append (ks1 : List JSString) :
    ∀ (s : Option Props) (ks2 : List JSString),
      (incrementVar.run s (ks1 ++ ks2)).1
          = (incrementVar.run s ks1).1 ++ (incrementVar.run (incrementVar.run s ks1).2 ks2).1 ∧
      (incrementVar.run s (ks1 ++ ks2)).2
          = (incrementVar.run (incrementVar.run s ks1).2 ks2).2 := by
  induction ks1 with
  | nil => intro s ks2; exact ⟨rfl, rfl⟩
  | cons k rest ih =>
    intro s ks2
    obtain ⟨h1, h2⟩ := ih (incrementVar s (.str k)).2 ks2
    change (k, (incrementVar s (.str k)).1)
          :: (incrementVar.run (incrementVar s (.str k)).2 (rest ++ ks2)).1 = _ ∧
        (incrementVar.run (incrementVar s (.str k)).2 (rest ++ ks2)).2 = _
    rw [h1, h2]
    exact ⟨rfl, rfl⟩

/-- The stored variables after a call: as before, or with the key of the call
set, which adds a key only below the limit. -/
theorem incrementVar_state (s : Option Props) (k : JSString) :
    storedVars (incrementVar s (.str k)).2 = storedVars s ∨
    ∃ v : Val, storedVars (incrementVar s (.str k)).2 = setProp (storedVars s) k v ∧
      (hasOwn (storedVars s) k = true ∨ (objectKeys (storedVars s)).length < max_keys) := by
  rw [incrementVar_str]
  by_cases hc : (hasOwn (storedVars s) k && isInteger (getProp (storedVars s) k)) = true
  · rw [if_pos hc]
    have ho : hasOwn (storedVars s) k = true := by
      simp only [Bool.and_eq_true] at hc
      exact hc.1
    cases hg : getProp (storedVars s) k with
    | num n => exact Or.inr ⟨_, rfl, Or.inl ho⟩
    | undefined => exact Or.inl rfl
    | null => exact Or.inl rfl
    | bool b => exact Or.inl rfl
    | str t => exact Or.inl rfl
    | arr r xs => exact Or.inl rfl
    | obj r ps => exact Or.inl rfl
    | options => exact Or.inl rfl
  · rw [if_neg hc]
    by_cases hf : (objectKeys (storedVars s)).length ≥ max_keys
    · rw [if_pos hf]
      exact Or.inl rfl
    · rw [if_neg hf]
      exact Or.inr ⟨_, rfl, Or.inr (by omega)⟩

theorem incrementVar_keys_le (s : Option Props) (k : JSString)
    (h : (objectKeys (storedVars s)).length ≤ max_keys) :
    (objectKeys (storedVars (incrementVar s (.str k)).2)).length ≤ max_keys := by
  rcases incrementVar_state s k with e | ⟨v, e, hcase⟩
  · rw [e]; exact h
  · rw [e, objectKeys_setProp]
    rcases hcase with ho | hlt
    · rw [if_pos ho]; exact h
    · split
      · exact h
      · omega

theorem run_keys_le (ks : List JSString) :
    ∀ s : Option Props, (objectKeys (storedVars s)).length ≤ max_keys →
      (objectKeys (storedVars (incrementVar.run s ks).2)).length ≤ max_keys := by
  induction ks with
  | nil => intro s h; exact h
  | cons k rest ih =>
    intro s h
    exact ih _ (incrementVar_keys_le s k h)

theorem countsAgree_empty : countsAgree none (fun _ => 0) := by
  intro k
  exact ⟨fun _ => rfl, fun h => absurd h (Nat.lt_irrefl 0)⟩

theorem run_counts (ks : List JSString) :
    countsAgree (incrementVar.run none ks).2 (fun k => okCount (incrementVar.run none ks).1 k) := by
  have h := run_countsAgree ks none (fun _ => 0) countsAgree_empty
  simpa using h

/-- C21: starting from storage with no variables, after any sequence of calls
a call with the text key `k` that returns gives the number of earlier
successful calls with `k`: the first one 0, the `j`-th one `j - 1`, however
calls with other keys are interleaved (a call can only raise, at the limit of
stored keys, when no call with `k` has succeeded yet); the call at a position
of a sequence is the call made after the calls before it; and a call never
changes the stored value, or the presence, of a key other than its own.
Example: the keys `a, b, a, a` return `0, 0, 1, 2`. -/
theorem incrementVar_counts (ks : List JSString) (k : JSString) :
    ((incrementVar (incrementVar.run none ks).2 (.str k)).1
        = .ok (.num (okCount (incrementVar.run none ks).1 k)) ∨
      ((incrementVar (incrementVar.run none ks).2 (.str k)).1 = .error .validationError ∧
        okCount (incrementVar.run none ks).1 k = 0)) ∧
    (∀ ks2 : List JSString,
      (incrementVar.run none (ks ++ k :: ks2)).1
        = (incrementVar.run none ks).1
          ++ (k, (incrementVar (incrementVar.run none ks).2 (.str k)).1)
            :: (incrementVar.run (incrementVar (incrementVar.run none ks).2 (.str k)).2 ks2).1) ∧
    (∀ (s : Option Props) (k' : JSString), k ≠ k' →
      getProp (storedVars (incrementVar s (.str k)).2) k' = getProp (storedVars s) k' ∧
      hasOwn (storedVars (incrementVar s (.str k)).2) k' = hasOwn (storedVars s) k') ∧
    (incrementVar.run none [jsStr "a", jsStr "b", jsStr "a", jsStr "a"]).1
      = [(jsStr "a", .ok (.num 0)), (jsStr "b", .ok (.num 0)),
          (jsStr "a", .ok (.num 1)), (jsStr "a", .ok (.num 2))] := by
  refine ⟨?_, ?_, ?_, rfl⟩
  · rcases (incrementVar_step _ _ k (run_counts ks)).1 with h | ⟨h, h0, _, _⟩
    · exact Or.inl h
    · exact Or.inr ⟨h, h0⟩
  · intro ks2
    rw [(run_append ks none (k :: ks2)).1]
    rfl
  · intro s k' hk
    rcases incrementVar_state s k with e | ⟨v, e, _⟩
    · rw [e]; exact ⟨rfl, rfl⟩
    · rw [e]
      exact ⟨getProp_setProp_ne _ _ _ _ hk, hasOwn_setProp_ne _ _ _ _ hk⟩

/-- C21, witness: with `a` at 2 and `b` at 0 stored, a call with the key `a`
leaves `b` at 0. -/
theorem incrementVar_counts_witness :
    getProp (storedVars (incrementVar
        (Option.some [(jsStr "a", .num 2), (jsStr "b", .num 0)]) (.str (jsStr "a"))).2)
      (jsStr "b")
      = getProp (storedVars (Option.some [(jsStr "a", .num 2), (jsStr "b", .num 0)]))
          (jsStr "b") ∧
    hasOwn (storedVars (incrementVar
        (Option.some [(jsStr "a", .num 2), (jsStr "b", .num 0)]) (.str (jsStr "a"))).2)
      (jsStr "b")
      = hasOwn (storedVars (Option.some [(jsStr "a", .num 2), (jsStr "b", .num 0)]))
          (jsStr "b") :=
  (incrementVar_counts [] (jsStr "a")).2.2.1
    (Option.some [(jsStr "a", .num 2), (jsStr "b", .num 0)]) (jsStr "b") (by decide)

/-- C22: in every sequence of calls from empty storage the number of stored
keys never exceeds 50; when 50 keys are stored, a call with a text key that is
not stored raises a `ValidationError` and leaves the stored variables as they
are, while a call with a stored key returns and stores its value plus one. -/
theorem incrementVar_limit (ks : List JSString) :
    (objectKeys (storedVars (incrementVar.run none ks).2)).length ≤ 50 ∧
    (∀ k : JSString, hasOwn (storedVars (incrementVar.run none ks).2) k = false →
      (objectKeys (storedVars (incrementVar.run none ks).2)).length = 50 →
      incrementVar (incrementVar.run none ks).2 (.str k)
        = (.error .validationError, (incrementVar.run none ks).2)) ∧
    (∀ k : JSString, hasOwn (storedVars (incrementVar.run none ks).2) k = true →
      ∃ n : Int, getProp (storedVars (incrementVar.run none ks).2) k = .num n ∧
        incrementVar (incrementVar.run none ks).2 (.str k)
          = (.ok (.num (n + 1)),
              Option.some (setProp (storedVars (incrementVar.run none ks).2) k (.num (n + 1))))) := by
  refine ⟨?_, ?_, ?_⟩
  · exact run_keys_le ks none (by decide)
  · intro k ho hc
    have e := incrementVar_full _ k ho (by rw [hc]; decide)
    rw [e]
    cases hs : (incrementVar.run none ks).2 with
    | none =>
      rw [hs] at hc
      simp [storedVars, objectKeys] at hc
    | some ps => rfl
  · intro k ho
    have h := run_counts ks k
    by_cases hc : okCount (incrementVar.run none ks).1 k = 0
    · have := h.1 hc
      rw [ho] at this
      cases this
    · obtain ⟨_, hg⟩ := h.2 (Nat.pos_of_ne_zero hc)
      exact ⟨_, hg, incrementVar_existing _ k _ ho hg⟩
set_option maxRecDepth 100000 in
/-- C22, witness: after the calls with the 50 keys `[0]`, ..., `[49]`, 50 keys
are stored; a call with the new key `[77]` raises and leaves the stored
variables as they are, and a call with the stored key `[7]` returns. -/
theorem incrementVar_limit_witness :
    incrementVar (incrementVar.run none ((List.range 50).map (fun i => [i]))).2 (.str [77])
      = (.error .validationError,
          (incrementVar.run none ((List.range 50).map (fun i => [i]))).2) ∧
    ∃ n : Int,
      getProp (storedVars (incrementVar.run none ((List.range 50).map (fun i => [i]))).2) [7]
        = .num n ∧
      incrementVar (incrementVar.run none ((List.range 50).map (fun i => [i]))).2 (.str [7])
        = (.ok (.num (n + 1)),
            Option.some (setProp
              (storedVars (incrementVar.run none ((List.range 50).map (fun i => [i]))).2)
              [7] (.num (n + 1)))) :=
  ⟨(incrementVar_limit ((List.range 50).map (fun i => [i]))).2.1 [77] (by decide) (by decide),
   (incrementVar_limit ((List.range 50).map (fun i => [i]))).2.2 [7] (by decide)⟩

end PaperHandlebars
